import Mathlib

/-!
# gopherjs: declaration-level lowering

A shallow embedding of `src/gopherjs/gopherjs.go`: the scheduling loop that
orders package-level constants and variables, the implementer list of an
interface predicate, `zeroValue`, `typeName`, `toTypedArray`,
`createListComposite`, `getVariadicInfo`, `translateArgs`, `newVarName`, the
export line, the walk of `translatePackage` over the import graph, the type
case of `translateSpec`, `translateFunction` and the loops of `translatePackage`
over types and functions.

The program works on a type-checked syntax tree.  The parts of `go/ast` and
`go/types` that the translated functions read are modelled as plain data:
an identifier carries the object it resolves to (`info.Objects[ident]`), a
type is a finite tree, and the expression translator of the repository
(`translateExpr`, `translateExprToType`) and its statement translator
(`translateStmt`), which live outside this file of the source, are taken as
parameters, as are `MethodSet` and `IsAssignableTo` of the type checker.
-/

namespace GopherJS

/-! ## Syntax tree -/

/-- The identity of a `types.Object`.  Go compares objects by pointer, so an
object is represented by a number; the nil object is one of the values. -/
abbrev ObjId := Nat

/-- An `*ast.Ident` together with `info.Objects[ident]`. -/
structure Ident where
  Name : String
  obj : ObjId

/-- An `ast.Node` as `ast.Walk` sees it: an identifier, a literal, or any other
node with its children in traversal order. -/
inductive Node where
  | Ident (id : Ident)
  | BasicLit (Value : String)
  | Other (children : List Node)

/-- An `*ast.ValueSpec`: the names of a `const`/`var` group, its optional type
expression and its initializer expressions. -/
structure ValueSpec where
  Names : List Ident
  Type_ : Option Node
  Values : List Node

/-- The `Tok` field of a general declaration. -/
inductive Token where
  | CONST
  | VAR
  | TYPE
  | IMPORT
  deriving DecidableEq

/-- A top-level declaration of a file: a general declaration with its token and
specs, or a function declaration. -/
inductive Decl where
  | GenDecl (Tok : Token) (Specs : List ValueSpec)
  | FuncDecl (Name : String)

/-- An `*ast.File`, reduced to its declarations. -/
structure File where
  Decls : List Decl

/-! ## IsReadyVisitor -/

/-- A Go `map[types.Object]bool`: a missing key reads as `false`. -/
abbrev ObjectSet := ObjId → Bool

/-- The assignment `m[k] = true`. -/
def ObjectSet.set (m : ObjectSet) (k : ObjId) : ObjectSet :=
  fun o => if o = k then true else m o

/-- The statement `delete(m, k)`. -/
def ObjectSet.delete (m : ObjectSet) (k : ObjId) : ObjectSet :=
  fun o => if o = k then false else m o

/-- The struct `IsReadyVisitor` (its `info` field is carried by the
identifiers). -/
structure IsReadyVisitor where
  pendingObjects : ObjectSet
  isReady : Bool

/-- The method `IsReadyVisitor.Visit`: the visitor after the call, and whether
the returned visitor is non-nil (the walk descends into the node). -/
def IsReadyVisitor.Visit (v : IsReadyVisitor) (node : Option Node) : IsReadyVisitor × Bool :=
  if !v.isReady then (v, false)
  else
    match node with
    | some (Node.Ident n) =>
      if v.pendingObjects n.obj then ({ v with isReady := false }, false) else (v, true)
    | _ => (v, true)

mutual
/-- The function `ast.Walk`: visit the node; if the visitor returned is not nil,
walk the children in order and finish with `Visit(nil)`. -/
def Walk (v : IsReadyVisitor) : Node → IsReadyVisitor
  | .Ident n =>
    match v.Visit (some (.Ident n)) with
    | (v1, false) => v1
    | (v1, true) => (v1.Visit none).1
  | .BasicLit s =>
    match v.Visit (some (.BasicLit s)) with
    | (v1, false) => v1
    | (v1, true) => (v1.Visit none).1
  | .Other cs =>
    match v.Visit (some (.Other cs)) with
    | (v1, false) => v1
    | (v1, true) => ((WalkList v1 cs).Visit none).1
/-- The loop of `ast.Walk` over a list of children. -/
def WalkList (v : IsReadyVisitor) : List Node → IsReadyVisitor
  | [] => v
  | c :: cs => WalkList (Walk v c) cs
end

/-! ## The scheduling loop of translatePackage -/

/-- The two variables filled by the collection loop: `specs` and
`pendingObjects`. -/
structure Collected where
  specs : List ValueSpec
  pendingObjects : ObjectSet

/-- The loop `for i, name := range s.Names` of the collection: one single-name
spec is appended per name, with `s.Values[i]` when `i < len(s.Values)`, and
`pendingObjects[info.Objects[s.Names[0]]]` is set.  The first argument is the
index `i` of the next name. -/
def collectNames (s : ValueSpec) : Nat → List Ident → Collected → Collected
  | _, [], st => st
  | i, name :: rest, st =>
    collectNames s (i + 1) rest
      { specs := st.specs ++ [{ Names := [name], Type_ := s.Type_, Values := (s.Values.get? i).toList }]
        pendingObjects :=
          match s.Names with
          | first :: _ => st.pendingObjects.set first.obj
          | [] => st.pendingObjects }

/-- The loop `for _, spec := range genDecl.Specs`. -/
def collectSpecs : List ValueSpec → Collected → Collected
  | [], st => st
  | s :: rest, st => collectSpecs rest (collectNames s 0 s.Names st)

/-- The loop `for _, decl := range file.Decls`, which keeps the general
declarations whose token is `CONST` or `VAR`. -/
def collectDecls : List Decl → Collected → Collected
  | [], st => st
  | Decl.GenDecl tok specs :: rest, st =>
    if tok = Token.CONST ∨ tok = Token.VAR then collectDecls rest (collectSpecs specs st)
    else collectDecls rest st
  | Decl.FuncDecl _ :: rest, st => collectDecls rest st

/-- The loop `for _, file := range files`. -/
def collectFiles : List File → Collected → Collected
  | [], st => st
  | f :: rest, st => collectFiles rest (collectDecls f.Decls st)

/-- The collection loop from its initial state: `specs` empty and
`pendingObjects` an empty map. -/
def collect (files : List File) : Collected :=
  collectFiles files { specs := [], pendingObjects := fun _ => false }

/-- The variables of the scheduling loop other than the `specs` slice:
the pending map, the specs handed to `translateSpec` so far (in call order) and
the flag `complete`. -/
structure Sched where
  pendingObjects : ObjectSet
  emitted : List ValueSpec
  complete : Bool

/-- The readiness test of the loop body: a spec without values is ready, one
with values is ready when the walk of `spec.Values[0]` leaves `isReady` set. -/
def specIsReady (pending : ObjectSet) (spec : ValueSpec) : Bool :=
  match spec.Values with
  | [] => true
  | value :: _ => (Walk { pendingObjects := pending, isReady := true } value).isReady

/-- The body of `for i, spec := range specs` for one element: the state after
it and the new content of `specs[i]`.  A nil entry is skipped; a spec that is
not ready clears `complete`; a ready spec is handed to `translateSpec`, its
name `spec.Names[0]` is deleted from the pending map and its entry becomes nil
(every spec of the slice has exactly one name). -/
def loopBody (st : Sched) : Option ValueSpec → Sched × Option ValueSpec
  | none => (st, none)
  | some spec =>
    if !specIsReady st.pendingObjects spec then ({ st with complete := false }, some spec)
    else
      ({ st with
          emitted := st.emitted ++ [spec]
          pendingObjects :=
            match spec.Names with
            | name :: _ => st.pendingObjects.delete name.obj
            | [] => st.pendingObjects },
        none)

/-- The loop `for i, spec := range specs`: the state and the slice after it. -/
def rangeSpecs (st : Sched) : List (Option ValueSpec) → Sched × List (Option ValueSpec)
  | [] => (st, [])
  | s :: rest =>
    let r := loopBody st s
    let q := rangeSpecs r.1 rest
    (q.1, r.2 :: q.2)

/-- One iteration of `for !complete`: `complete = true`, then the scan. -/
def pass (x : Sched × List (Option ValueSpec)) : Sched × List (Option ValueSpec) :=
  rangeSpecs { x.1 with complete := true } x.2

/-- The state after `k` iterations of the outer loop, whatever `complete` says. -/
def passes : Nat → Sched × List (Option ValueSpec) → Sched × List (Option ValueSpec)
  | 0, x => x
  | k + 1, x => passes k (pass x)

/-- The loop `for !complete` entered with `complete == false`.  The result is
`none` when the loop has not ended within `fuel` iterations. -/
def scheduleLoop : Nat → Sched × List (Option ValueSpec) → Option (Sched × List (Option ValueSpec))
  | 0, _ => none
  | fuel + 1, x =>
    let y := pass x
    if y.1.complete then some y else scheduleLoop fuel y

/-- The state in which the scheduling loop is entered. -/
def initialSched (files : List File) : Sched × List (Option ValueSpec) :=
  ({ pendingObjects := (collect files).pendingObjects, emitted := [], complete := false },
    (collect files).specs.map some)

/-- The constants and variables of a package in the order in which they are
handed to `translateSpec`, or `none` when the loop does not end within `fuel`
iterations. -/
def schedule (fuel : Nat) (files : List File) : Option (List ValueSpec) :=
  (scheduleLoop fuel (initialSched files)).map (fun y => y.1.emitted)

/-- The names of a list of specs, in order. -/
def specNames (l : List ValueSpec) : List String :=
  l.flatMap (fun s => s.Names.map (fun n => n.Name))

/-- The objects declared by a list of specs, in order. -/
def specObjs (l : List ValueSpec) : List ObjId :=
  l.flatMap (fun s => s.Names.map (fun n => n.obj))

mutual
/-- The objects of the identifiers of a tree, in traversal order. -/
def Node.idents : Node → List ObjId
  | .Ident n => [n.obj]
  | .BasicLit _ => []
  | .Other cs => Node.identsList cs
/-- The objects of the identifiers of a list of trees. -/
def Node.identsList : List Node → List ObjId
  | [] => []
  | c :: cs => c.idents ++ Node.identsList cs
end

/-- The objects that the identifiers of `spec.Values[0]`, the expression walked
by the readiness test, resolve to. -/
def ValueSpec.refs (s : ValueSpec) : List ObjId :=
  match s.Values with
  | [] => []
  | value :: _ => value.idents

/-- The groups kept by the loop over the declarations of one file: the specs of
the general declarations whose token is `CONST` or `VAR`. -/
def declSpecs (decls : List Decl) : List ValueSpec :=
  decls.flatMap (fun d =>
    match d with
    | Decl.GenDecl tok specs => if tok = Token.CONST ∨ tok = Token.VAR then specs else []
    | Decl.FuncDecl _ => [])

/-- The `const` and `var` groups of the files, in source order. -/
def constVarSpecs (files : List File) : List ValueSpec :=
  files.flatMap (fun f => declSpecs f.Decls)

/-- The object of the first name of a group, if the group has a name. -/
def firstObj (s : ValueSpec) : Option ObjId :=
  s.Names.head?.map Ident.obj

/-- The specs of the slice that are not nil, in order. -/
def remaining (specs : List (Option ValueSpec)) : List ValueSpec :=
  specs.filterMap id

/-- The flattening of one group as the specification words it: one declaration
per name, the name at position `i` paired with the initializer at position `i`
when the group has one. -/
def flattenGroup (s : ValueSpec) : List ValueSpec :=
  s.Names.enum.map (fun p =>
    { Names := [p.2], Type_ := s.Type_, Values := (s.Values.get? p.1).toList })

/-- The flattened declaration list of the files: the flattening of every
`const` and `var` group, in source order. -/
def flattened (files : List File) : List ValueSpec :=
  (constVarSpecs files).flatMap flattenGroup

/-- Acyclic initializer dependencies: the declared objects can be ranked so that
every declaration ranks above each declared object its initializer refers
to. -/
def Acyclic (specs : List ValueSpec) : Prop :=
  ∃ rank : ObjId → Nat, ∀ s ∈ specs, ∀ n ∈ s.Names, ∀ o ∈ s.refs,
    o ∈ specObjs specs → rank o < rank n.obj

/-! ## Types -/

/-- The kinds of `types.Basic`. -/
inductive BasicKind where
  | Invalid
  | Bool
  | Int
  | Int8
  | Int16
  | Int32
  | Int64
  | Uint
  | Uint8
  | Uint16
  | Uint32
  | Uint64
  | Uintptr
  | Float32
  | Float64
  | Complex64
  | Complex128
  | String
  | UnsafePointer
  | UntypedBool
  | UntypedInt
  | UntypedRune
  | UntypedFloat
  | UntypedComplex
  | UntypedString
  | UntypedNil
  deriving DecidableEq

/-- The flag `IsBoolean` of `Basic.Info()`, as the table `types.Typ` of the type
checker gives it. -/
def IsBoolean : BasicKind → Bool
  | .Bool | .UntypedBool => true
  | _ => false

/-- The flag `IsInteger` of `Basic.Info()`. -/
def IsInteger : BasicKind → Bool
  | .Int | .Int8 | .Int16 | .Int32 | .Int64 => true
  | .Uint | .Uint8 | .Uint16 | .Uint32 | .Uint64 | .Uintptr => true
  | .UntypedInt | .UntypedRune => true
  | _ => false

/-- The flag `IsFloat` of `Basic.Info()`. -/
def IsFloat : BasicKind → Bool
  | .Float32 | .Float64 | .UntypedFloat => true
  | _ => false

/-- The flag `IsComplex` of `Basic.Info()`. -/
def IsComplex : BasicKind → Bool
  | .Complex64 | .Complex128 | .UntypedComplex => true
  | _ => false

/-- The flag `IsString` of `Basic.Info()`. -/
def IsString : BasicKind → Bool
  | .String | .UntypedString => true
  | _ => false

/-- The mask `IsNumeric = IsInteger | IsFloat | IsComplex`. -/
def IsNumeric (k : BasicKind) : Bool :=
  IsInteger k || IsFloat k || IsComplex k

mutual
/-- A `types.Type` as a finite tree.  A named type carries the path of its
package (`none` for a universe type), its name and its underlying type. -/
inductive GoType where
  | Basic (kind : BasicKind)
  | Named (pkg : Option String) (Name : String) (underlying : GoType)
  | Struct (fields : List Var)
  | Array (elem : GoType) (len : Nat)
  | Slice (elem : GoType)
  | Map (key : GoType) (elem : GoType)
  | Pointer (elem : GoType)
  | Interface (methods : List Var)
  | Chan (elem : GoType)
  | Signature (params : List Var) (IsVariadic : Bool)
  | Builtin (Name : String)
/-- A struct field, a parameter or an interface method: its name, whether it is
an anonymous (embedded) field, and its type. -/
inductive Var where
  | mk (Name : String) (Anonymous : Bool) (Type_ : GoType)
end

/-- The method `Var.Name`. -/
def Var.Name : Var → String
  | .mk n _ _ => n

/-- The method `Var.Type`. -/
def Var.Type_ : Var → GoType
  | .mk _ _ t => t

/-- The method `Type.Underlying`. -/
def GoType.Underlying : GoType → GoType
  | .Named _ _ u => u
  | t => t

/-- The fields of `PkgContext` read by the functions below: the path of
`c.pkg`, the map `pkgVars` (a missing key reads as the empty string),
`indentation` and the list `usedVarNames`. -/
structure PkgContext where
  pkg : String
  pkgVars : String → String
  indentation : Nat
  usedVarNames : List String

/-! ## Text helpers -/

/-- The library function `strings.Join`. -/
def Join : List String → String → String
  | [], _ => ""
  | [a], _ => a
  | a :: b :: rest, sep => a ++ sep ++ Join (b :: rest) sep

/-- The method `PkgContext.Printf` applied to an already formatted text: what it
writes is the indentation, the text and a newline. -/
def PkgContext.Printf (c : PkgContext) (text : String) : String :=
  String.join (List.replicate c.indentation "\t") ++ text ++ "\n"

/-! ## typeName, toTypedArray, zeroValue -/

/-- The method `PkgContext.typeName`; `none` stands for its panics. -/
def PkgContext.typeName (c : PkgContext) : GoType → Option String
  | .Basic k =>
    if IsInteger k then some "Integer"
    else if IsFloat k then some "Float"
    else if IsComplex k then some "Complex"
    else if IsBoolean k then some "Boolean"
    else if IsString k then some "String"
    else if k = BasicKind.UntypedNil then some "null"
    else none
  | .Named pkg name _ =>
    match pkg with
    | some path => if path ≠ c.pkg then some (c.pkgVars path ++ "." ++ name) else some name
    | none => some name
  | .Pointer elem =>
    match elem with
    | .Named pkg name u =>
      match u with
      | .Struct _ => c.typeName (.Named pkg name u)
      | _ => (c.typeName (.Named pkg name u)).map (fun n => n ++ "._Pointer")
    | _ => some "_Pointer"
  | .Array _ _ => some "Array"
  | .Slice _ => some "Slice"
  | .Map _ _ => some "Go$Map"
  | .Interface _ => some "Interface"
  | .Chan _ => some "Channel"
  | .Signature _ _ => some "Function"
  | _ => none

/-- The function `toTypedArray`. -/
def toTypedArray : GoType → String
  | .Basic .Int8 => "Int8Array"
  | .Basic .Uint8 => "Uint8Array"
  | .Basic .Int16 => "Int16Array"
  | .Basic .Uint16 => "Uint16Array"
  | .Basic .Int32 | .Basic .Int64 | .Basic .Int => "Int32Array"
  | .Basic .Uint32 | .Basic .Uint64 | .Basic .Uint => "Uint32Array"
  | .Basic .Float32 => "Float32Array"
  | .Basic .Float64 | .Basic .Complex64 | .Basic .Complex128 => "Float64Array"
  | _ => "Array"

/-- The array case of `zeroValue`: `Go$clear(new %s(%d))` with the typed array
of the element type and the length. -/
def zeroValueArray (elem : GoType) (len : Nat) : String :=
  "Go$clear(new " ++ toTypedArray elem ++ "(" ++ toString len ++ "))"

mutual
/-- The method `PkgContext.zeroValue`; `none` stands for a panic of `typeName`.
The call `c.zeroValue(types.NewArray(ut.Elem(), 0))` of the slice case is the
array case at length 0. -/
def PkgContext.zeroValue (c : PkgContext) : GoType → Option String
  | .Basic k =>
    if IsNumeric k then some "0"
    else if IsString k then some "\"\""
    else some "null"
  | .Array elem len => some (zeroValueArray elem len)
  | .Named pkg name ut =>
    match ut with
    | .Struct fields =>
      match PkgContext.zeroValues c fields, c.typeName (.Named pkg name (.Struct fields)) with
      | some zeros, some n => some ("new " ++ n ++ "(" ++ Join zeros ", " ++ ")")
      | _, _ => none
    | .Slice elem =>
      match c.typeName (.Named pkg name (.Slice elem)) with
      | some n => some ("new " ++ n ++ "(" ++ zeroValueArray elem 0 ++ ")")
      | none => none
    | u =>
      match c.typeName (.Named pkg name u), PkgContext.zeroValue c u with
      | some n, some z => some ("new " ++ n ++ "(" ++ z ++ ")")
      | _, _ => none
  | _ => some "null"
/-- The loop `zeros[i] = c.zeroValue(ut.Field(i).Type())` of `zeroValue`. -/
def PkgContext.zeroValues (c : PkgContext) : List Var → Option (List String)
  | [] => some []
  | .mk _ _ t :: rest =>
    match PkgContext.zeroValue c t, PkgContext.zeroValues c rest with
    | some z, some zs => some (z :: zs)
    | _, _ => none
end

/-! ## createListComposite, getVariadicInfo, translateArgs -/

/-- The function `createListComposite`; the element type is `none` for a nil
type. -/
def createListComposite (elementType : Option GoType) (elements : List String) : String :=
  match elementType with
  | some (.Basic k) =>
    if IsNumeric k then "new " ++ toTypedArray (.Basic k) ++ "([" ++ Join elements ", " ++ "])"
    else "[" ++ Join elements ", " ++ "]"
  | _ => "[" ++ Join elements ", " ++ "]"

/-- The function `getVariadicInfo` on `info.Types[call.Fun]` (`none` for a nil
type).  The result is `none` when `Params().At(Len() - 1)` is out of range; the
third component is `none` for the nil type of the last return statement. -/
def getVariadicInfo (funType : Option GoType) : Option (Bool × Nat × Option GoType) :=
  match funType with
  | some (.Signature params true) =>
    match params.getLast? with
    | some last => some (true, params.length, some last.Type_)
    | none => none
  | some (.Builtin name) =>
    if name = "append" then some (true, 2, some (.Interface []))
    else if name = "print" ∨ name = "println" then some (true, 1, some (.Interface []))
    else some (false, 0, none)
  | _ => some (false, 0, none)

/-- An `ast.Expr` together with `info.Types[expr]` (`none` when the map has no
entry). -/
structure Expr where
  node : Node
  type : Option GoType

/-- An `*ast.CallExpr`: the callee, the arguments and `Ellipsis.IsValid()`. -/
structure CallExpr where
  Fun : Expr
  Args : List Expr
  Ellipsis : Bool

/-- The expression translator of the package context, defined in another file
of the repository. -/
structure ExprTranslator where
  translateExpr : Expr → String
  translateExprToType : Expr → GoType → String

/-- The body of the first loop of `translateArgs`: argument `i` is translated to
the type of parameter `i` when the callee is a signature with more than `i`
parameters, and plainly otherwise. -/
def translateArg (tr : ExprTranslator) (funType : Option GoType) (i : Nat) (arg : Expr) : String :=
  match funType with
  | some (.Signature params _) =>
    match params.get? i with
    | some p => tr.translateExprToType arg p.Type_
    | none => tr.translateExpr arg
  | _ => tr.translateExpr arg

/-- The first loop of `translateArgs`, `for i, arg := range call.Args`.  The
first argument is the index of the next argument. -/
def translateArgsLoop (tr : ExprTranslator) (funType : Option GoType) : Nat → List Expr → List String
  | _, [] => []
  | i, arg :: rest => translateArg tr funType i arg :: translateArgsLoop tr funType (i + 1) rest

/-- The test `t, isBasic := typ.(*types.Basic); isBasic && t.Info()&types.IsString != 0`. -/
def isBasicString : Option GoType → Bool
  | some (.Basic k) => IsString k
  | _ => false

/-- The method `PkgContext.translateArgs`; `none` stands for a panic (an index or
a slice bound out of range). -/
def translateArgs (tr : ExprTranslator) (call : CallExpr) : Option (List String) :=
  let funType := call.Fun.type
  let args := translateArgsLoop tr funType 0 call.Args
  match getVariadicInfo funType with
  | none => none
  | some (isVariadic, numParams, variadicType) =>
    let packed : Option (List String) :=
      if isVariadic && !call.Ellipsis then
        if 1 ≤ numParams ∧ numParams - 1 ≤ args.length then
          some (args.take (numParams - 1) ++
            ["new Slice(" ++ createListComposite variadicType (args.drop (numParams - 1)) ++ ")"])
        else none
      else some args
    match packed with
    | none => none
    | some args1 =>
      if call.Ellipsis && decide (call.Args.length > 0) then
        let l := call.Args.length
        match call.Args.get? (l - 1) with
        | some last =>
          if isBasicString last.type then
            some (args1.set (l - 1) (args1.getD (l - 1) "" ++ ".toSlice()"))
          else some args1
        | none => none
      else some args1

/-- A translator for examples: a literal is rendered by its text and an
identifier by its name, whatever the target type. -/
def literalTranslator : ExprTranslator where
  translateExpr := fun e =>
    match e.node with
    | .BasicLit v => v
    | .Ident n => n.Name
    | .Other _ => ""
  translateExprToType := fun e _ =>
    match e.node with
    | .BasicLit v => v
    | .Ident n => n.Name
    | .Other _ => ""

/-! ## The implementer list of an interface -/

/-- The Go comparison `a >= x` of strings: bytewise lexical order, which on
UTF-8 text is the order of the code points. -/
def stringGE (a x : String) : Bool :=
  decide (x.toList ≤ a.toList)

/-- The loop of `sort.Search` from the bounds `i` and `j`; `fuel` bounds the
number of iterations and `j - i` is always enough. -/
def searchLoop (f : Nat → Bool) : Nat → Nat → Nat → Nat
  | 0, i, _ => i
  | fuel + 1, i, j =>
    if i < j then
      let h := i + (j - i) / 2
      if !f h then searchLoop f fuel (h + 1) j else searchLoop f fuel i h
    else i

/-- The library function `sort.SearchStrings`: the binary search
`sort.Search(len(a), func(i) { return a[i] >= x })`. -/
def SearchStrings (a : List String) (x : String) : Nat :=
  searchLoop (fun i => stringGE (a.getD i "") x) a.length 0 a.length

/-- The library function `sort.Strings`: the ascending rearrangement of the
list, computed here by insertion. -/
def sortStrings (a : List String) : List String :=
  a.insertionSort (fun x y => x.toList ≤ y.toList)

/-- A `types.Object` as `translateSpec` reads it: a type name with its name and
type, or an object of another kind. -/
inductive Object where
  | TypeName (Name : String) (Type_ : GoType)
  | Other (Name : String)

/-- The body of the loop `for _, other := range c.info.Objects` in the
interface case of `translateSpec`.  The parameter `IsAssignableTo` is the
function of that name of the type checker. -/
def implementedByStep (IsAssignableTo : GoType → GoType → Bool) (t : GoType)
    (implementedBy : List String) : Object → List String
  | .TypeName name ty =>
    let index := SearchStrings implementedBy name
    if (index == implementedBy.length || implementedBy.getD index "" != name)
        && IsAssignableTo ty t then
      sortStrings (implementedBy ++ [name])
    else implementedBy
  | .Other _ => implementedBy

/-- The list `implementedBy` after the loop has visited `objects` in the given
order. -/
def implementedBy (IsAssignableTo : GoType → GoType → Bool) (t : GoType)
    (objects : List Object) : List String :=
  objects.foldl (implementedByStep IsAssignableTo t) []

/-- The slice `conditions` of the interface case: one comparison per
implementer, or the single text `false` when there is none. -/
def interfaceConditions (implementedBy : List String) : List String :=
  let conditions := implementedBy.map (fun other => "t === " ++ other)
  if conditions.length = 0 then ["false"] else conditions

/-- The number `t.MethodSet().Len()` of an interface type. -/
def methodSetLen : GoType → Nat
  | .Interface methods => methods.length
  | _ => 0

/-- The interface case of `translateSpec` for a type specification: the text it
writes for the interface `t` named `name` when the resolved objects are visited
in the order `objects`. -/
def translateSpecInterface (c : PkgContext) (IsAssignableTo : GoType → GoType → Bool)
    (objects : List Object) (name : String) (t : GoType) : String :=
  if methodSetLen t = 0 then
    c.Printf ("var " ++ name ++ " = function(t) \x7b return true \x7d;")
  else
    c.Printf ("var " ++ name ++ " = function(t) \x7b return " ++
      Join (interfaceConditions (implementedBy IsAssignableTo t objects)) " || " ++ " \x7d;")

/-- How a disjunct of the emitted condition reads as a test of the type tag:
the comparison `t === N` holds for the tag of the type named `N` and for no
other, and the text `false` holds for none. -/
def disjunctHolds (tag : String) (condition : String) : Bool :=
  condition == "t === " ++ tag

/-- The emitted condition as a function of the type tag: the disjunction of its
disjuncts. -/
def conditionHolds (conditions : List String) (tag : String) : Bool :=
  conditions.any (disjunctHolds tag)

/-! ## Invariants of the scheduling loop -/

/-- What a pair of mutually referring pending objects keeps true of a state of
the scheduling loop. -/
structure CycleInv (A B : ObjId) (x : Sched × List (Option ValueSpec)) : Prop where
  pendA : x.1.pendingObjects A = true
  pendB : x.1.pendingObjects B = true
  refsA : ∀ s, some s ∈ x.2 → (∃ n ∈ s.Names, n.obj = A) → B ∈ s.refs
  refsB : ∀ s, some s ∈ x.2 → (∃ n ∈ s.Names, n.obj = B) → A ∈ s.refs
  clean : ∀ s ∈ x.1.emitted, ∀ n ∈ s.Names, n.obj ≠ A ∧ n.obj ≠ B
  hasA : ∃ s, some s ∈ x.2 ∧ ∃ n ∈ s.Names, n.obj = A

/-- The invariant of the scheduling loop on acyclic input. -/
structure SchedInv (x : Sched × List (Option ValueSpec)) : Prop where
  single : ∀ s, some s ∈ x.2 → ∃ n, s.Names = [n]
  pend : ∀ o, x.1.pendingObjects o = true → o ∈ specObjs (remaining x.2)
  acyclic : Acyclic (remaining x.2)

/-! ## Example inputs -/

/-- The list with which `translatePackage` seeds `usedVarNames`. -/
def reservedNames : List String :=
  ["class", "delete", "eval", "export", "false", "implements", "in", "new", "static", "this",
   "true", "try", "packages", "Array", "Boolean", "Channel", "Float", "Integer", "Slice",
   "String"]

/-- A package context for examples: the package `main`, no imports, no
indentation, and the seed list of used names. -/
def exampleContext : PkgContext :=
  { pkg := "main", pkgVars := fun _ => "", indentation := 0, usedVarNames := reservedNames }

/-- The interface `I` with the single method `M()`. -/
def interfaceI : GoType :=
  GoType.Interface [Var.mk "M" false (GoType.Signature [] false)]

/-- An assignability oracle for examples: exactly the named type `A` is
assignable (it declares `M`). -/
def assignableA : GoType → GoType → Bool
  | GoType.Named _ name _, _ => name = "A"
  | _, _ => false

/-- The resolved objects of a package that declares the types `A` and `B` and a
variable `v`, in one visiting order. -/
def objectsAB : List Object :=
  [Object.TypeName "B" (GoType.Named (some "main") "B" (GoType.Basic BasicKind.Int)),
   Object.Other "v",
   Object.TypeName "A" (GoType.Named (some "main") "A" (GoType.Basic BasicKind.Int)),
   Object.TypeName "B" (GoType.Named (some "main") "B" (GoType.Basic BasicKind.Int))]

/-- The same objects in another visiting order. -/
def objectsBA : List Object :=
  [Object.TypeName "A" (GoType.Named (some "main") "A" (GoType.Basic BasicKind.Int)),
   Object.TypeName "B" (GoType.Named (some "main") "B" (GoType.Basic BasicKind.Int)),
   Object.Other "v"]

/-- The call `f(1, 2, 3)` of a function `f(xs ...int32)`.  The type recorded for
the variadic parameter is its element type, which is what `translateArgs` passes
to `createListComposite` as the element type. -/
def callF123 : CallExpr :=
  { Fun := ⟨Node.Ident ⟨"f", 0⟩,
      some (GoType.Signature [Var.mk "xs" false (GoType.Basic BasicKind.Int32)] true)⟩
    Args := [⟨Node.BasicLit "1", none⟩, ⟨Node.BasicLit "2", none⟩, ⟨Node.BasicLit "3", none⟩]
    Ellipsis := false }

/-- The call `f(1, 2, 3)` of a variable `f` of the named function type
`type F func(xs ...int32)`: the type recorded for the callee is the named type
`F`, whose underlying type is the variadic signature. -/
def callNamedF123 : CallExpr :=
  { Fun := ⟨Node.Ident ⟨"f", 0⟩,
      some (GoType.Named (some "main") "F"
        (GoType.Signature [Var.mk "xs" false (GoType.Basic BasicKind.Int32)] true))⟩
    Args := [⟨Node.BasicLit "1", none⟩, ⟨Node.BasicLit "2", none⟩, ⟨Node.BasicLit "3", none⟩]
    Ellipsis := false }

/-- The call `append(b, s...)` with `b` a byte slice and `s` a string. -/
def callAppendString : CallExpr :=
  { Fun := ⟨Node.Ident ⟨"append", 0⟩, some (GoType.Builtin "append")⟩
    Args := [⟨Node.Ident ⟨"b", 1⟩, some (GoType.Slice (GoType.Basic BasicKind.Uint8))⟩,
             ⟨Node.Ident ⟨"s", 2⟩, some (GoType.Basic BasicKind.String)⟩]
    Ellipsis := true }

/-- The declarations `const A = B + 1` and, after a function, `const B = 2`;
`A` is object 1 and `B` is object 2. -/
def constantsOutOfOrder : List File :=
  [{ Decls :=
      [Decl.GenDecl Token.CONST
        [{ Names := [⟨"A", 1⟩], Type_ := none
           Values := [Node.Other [Node.Ident ⟨"B", 2⟩, Node.BasicLit "1"]] }],
       Decl.FuncDecl "f",
       Decl.GenDecl Token.CONST
        [{ Names := [⟨"B", 2⟩], Type_ := none, Values := [Node.BasicLit "2"] }]] }]

/-- The declarations `var a = y` and `var x, y = 1, 2`; `a`, `x` and `y` are the
objects 1, 2 and 3. -/
def groupedSecondName : List File :=
  [{ Decls :=
      [Decl.GenDecl Token.VAR
        [{ Names := [⟨"a", 1⟩], Type_ := none, Values := [Node.Ident ⟨"y", 3⟩] },
         { Names := [⟨"x", 2⟩, ⟨"y", 3⟩], Type_ := none
           Values := [Node.BasicLit "1", Node.BasicLit "2"] }]] }]

/-- The declarations `var A = B` and `var B = A`; `A` is object 1 and `B` is
object 2. -/
def cyclicPair : List File :=
  [{ Decls :=
      [Decl.GenDecl Token.VAR
        [{ Names := [⟨"A", 1⟩], Type_ := none, Values := [Node.Ident ⟨"B", 2⟩] }],
       Decl.GenDecl Token.VAR
        [{ Names := [⟨"B", 2⟩], Type_ := none, Values := [Node.Ident ⟨"A", 1⟩] }]] }]

/-! ## newVarName -/

/-- The candidate name of iteration `n` of `newVarName`: the prefix, followed by
the decimal form of `n` when `n` is not zero. -/
def candidateName (pfx : String) (n : Nat) : String :=
  if n ≠ 0 then pfx ++ toString n else pfx

/-- The inner loop of `newVarName`: whether some element of `usedVarNames`
equals the name. -/
def isUsed : List String → String → Bool
  | [], _ => false
  | usedName :: rest, name => if usedName = name then true else isUsed rest name

/-- The outer loop of `newVarName` from the counter `n`: the name found and the
counter at which it was found.  The first argument bounds the number of
candidates tested; the result is `none` when all of them are used. -/
def newVarNameLoop (usedVarNames : List String) (pfx : String) :
    Nat → Nat → Option (String × Nat)
  | 0, _ => none
  | fuel + 1, n =>
    if !isUsed usedVarNames (candidateName pfx n) then some (candidateName pfx n, n)
    else newVarNameLoop usedVarNames pfx fuel (n + 1)

/-- The method `PkgContext.newVarName`: the name returned and the context after
the call.  The loop is given one candidate more than there are used names. -/
def PkgContext.newVarName (c : PkgContext) (pfx : String) : Option (String × PkgContext) :=
  (newVarNameLoop c.usedVarNames pfx (c.usedVarNames.length + 1) 0).map
    (fun r => (r.1, { c with usedVarNames := c.usedVarNames ++ [r.1] }))

/-- Successive calls of `newVarName` on the same context, one per prefix: the
names returned, in call order, and the context after the last call. -/
def PkgContext.newVarNames (c : PkgContext) : List String → Option (List String × PkgContext)
  | [] => some ([], c)
  | pfx :: rest =>
    match c.newVarName pfx with
    | none => none
    | some (name, c1) =>
      match PkgContext.newVarNames c1 rest with
      | none => none
      | some (names, c2) => some (name :: names, c2)

/-- The value of a list of decimal digits, most significant first. -/
def digitsValue (ds : List Char) : Nat :=
  ds.foldl (fun acc d => acc * 10 + (d.toNat - 48)) 0

/-! ## The export mapping -/

/-- The library function `ast.IsExported`: whether the first character of the
name is an upper-case letter.  The parameter is `unicode.IsUpper`. -/
def IsExported (IsUpper : Char → Bool) (name : String) : Bool :=
  match name.data with
  | [] => false
  | ch :: _ => IsUpper ch

/-- The loop `for _, name := range c.pkg.Scope().Names()` at the end of
`translatePackage`: the slice `exports` after it. -/
def exportsLoop (IsUpper : Char → Bool) : List String → List String → List String
  | [], exports => exports
  | name :: rest, exports =>
    if IsExported IsUpper name then exportsLoop IsUpper rest (exports ++ [name ++ ": " ++ name])
    else exportsLoop IsUpper rest exports

/-- The text written by the statement that prints the export mapping of a package
whose scope has the names `names`. -/
def exportLine (c : PkgContext) (IsUpper : Char → Bool) (names : List String) : String :=
  c.Printf ("return \x7b " ++ Join (exportsLoop IsUpper names []) ", " ++ " \x7d;")

/-! ## The walk over the import graph -/

/-- The fields of `Translator` that the walk over the imports changes: the keys
of the map `packages`, and the import paths of the module definitions
`packages["<path>"] = ...` written so far, in the order in which they were
written. -/
structure Translator where
  packages : List String
  written : List String
  deriving DecidableEq

/-- The translator that `main` hands to `translatePackage`: the keys `reflect`
and `go/doc` are registered and nothing is written. -/
def initialTranslator : Translator :=
  { packages := ["reflect", "go/doc"], written := [] }

/-- The loop `for _, importedPkg := range typesPkg.Imports()` of
`translatePackage`: an import whose path is a key of `packages` is skipped, any
other is translated by `f`. -/
def forEachImport (f : Translator → String → Option Translator) :
    List String → Translator → Option Translator
  | [], t => some t
  | path :: rest, t =>
    if path ∈ t.packages then forEachImport f rest t
    else
      match f t path with
      | none => none
      | some t1 => forEachImport f rest t1

/-- What `translatePackage` meets at each import path.  `Import` tells whether
`build.Import` finds the package.  `Check` is the outcome of `parser.ParseFile`
and `config.Check`: `some true` when the files parse and type-check,
`some false` when an error list or a type error is reported (the method prints
it and returns), `none` when it panics (a parse error that is not an error list,
or `files[0]` of a package without files).  `Imports` gives the paths of
`typesPkg.Imports()`.  `Body` tells whether the rest of the method, from the
grouping of the functions to the export line, runs to its end; it is `false`
when that part panics (the default case of `translateSpec`, `translateFunction`
on a declaration without a body, the statement and expression translators) or
does not end (the scheduling loop on a cyclic initialization). -/
structure Sources where
  Import : String → Bool
  Check : String → Option Bool
  Imports : String → List String
  Body : String → Bool

/-- The method `Translator.translatePackage`: after parsing and type-checking,
the imports that are not yet keys of `packages` are found with `build.Import`
and translated first, then the package is registered under its path, its module
definition is written and the rest of the method runs.  The result is `none`
when the method panics or does not return, which nothing recovers from; the
first argument bounds the depth of the recursion. -/
def translatePackage (src : Sources) : Nat → Translator → String → Option Translator
  | 0, _, _ => none
  | fuel + 1, t, path =>
    match src.Check path with
    | none => none
    | some false => some t
    | some true =>
      match forEachImport
          (fun t1 p => if src.Import p then translatePackage src fuel t1 p else none)
          (src.Imports path) t with
      | none => none
      | some t1 =>
        if src.Body path then
          some { packages := path :: t1.packages, written := t1.written ++ [path] }
        else none

/-- An acyclic import graph: the packages can be ranked so that every package
ranks above the packages it imports. -/
def AcyclicImports (Imports : String → List String) : Prop :=
  ∃ rank : String → Nat, ∀ p q, q ∈ Imports p → rank q < rank p

/-- The packages reached from the entry package through imports, not entering a
package that is registered beforehand. -/
inductive Reaches (Imports : String → List String) (registered : List String) (entry : String) :
    String → Prop where
  | entry : Reaches Imports registered entry entry
  | step (p q : String) : Reaches Imports registered entry p → q ∈ Imports p →
      q ∉ registered → Reaches Imports registered entry q

/-- The packages reachable from the entry package through imports. -/
inductive Reachable (Imports : String → List String) (entry : String) : String → Prop where
  | entry : Reachable Imports entry entry
  | step (p q : String) : Reachable Imports entry p → q ∈ Imports p →
      Reachable Imports entry q

/-- A list of packages in which the imports of every member are visited
beforehand or stand earlier in the list. -/
def Topo (Imports : String → List String) : List String → List String → Prop
  | _, [] => True
  | visited, x :: rest => (∀ y ∈ Imports x, y ∈ visited) ∧ Topo Imports (x :: visited) rest

/-- An import graph for examples: `main` imports `reflect` and `fmt`, and `fmt`
imports `reflect`. -/
def importsReflect : String → List String :=
  fun p => if p = "main" then ["reflect", "fmt"] else if p = "fmt" then ["reflect"] else []

/-- A diamond for examples: `main` imports `b` and `c`, which both import `d`. -/
def importsDiamond : String → List String :=
  fun p => if p = "main" then ["b", "c"] else if p = "b" then ["d"]
    else if p = "c" then ["d"] else []

/-- Sources for examples in which every package is found, parses, type-checks
and is translated to its end. -/
def checkedSources (Imports : String → List String) : Sources :=
  { Import := fun _ => true, Check := fun _ => some true, Imports := Imports,
    Body := fun _ => true }

/-- What a visit of the walk adds to a translator `t`, giving `t2`: the list
`L` of module definitions, without repeats, each new and of rank below `bound`
unless it is the package `top`, in an order in which imports come first, and
reached from `source`. -/
structure Visited (Imports : String → List String) (S : List String) (rank : String → Nat)
    (t t2 : Translator) (L : List String) (top : Option String) (bound : Nat)
    (source : String) : Prop where
  written : t2.written = t.written ++ L
  packages : ∀ x, x ∈ t2.packages ↔ (x ∈ t.packages ∨ x ∈ L)
  nodup : L.Nodup
  fresh : ∀ x ∈ L, some x = top ∨ (x ∉ t.packages ∧ rank x < bound)
  topo : Topo Imports t.packages L
  reach : ∀ x ∈ L, Reaches Imports S source x

/-! ## translateSpec for a type specification -/

/-- A method of a method set (`*types.Selection`): the name of its object and
the parameters of its signature. -/
structure Selection where
  Name : String
  Params : List Var

/-- The method `PkgContext.Indent`: the context inside the indented block. -/
def PkgContext.Indent (c : PkgContext) : PkgContext :=
  { c with indentation := c.indentation + 1 }

/-- The text of one forwarding method: `Outer.prototype.M` calls `M` on `value`
with the parameter names of the signature. -/
def forwarder (c : PkgContext) (outerName : String) (value : String) (m : Selection) : String :=
  c.Printf (outerName ++ ".prototype." ++ m.Name ++ " = function(" ++
    Join (m.Params.map Var.Name) ", " ++ ") \x7b return " ++ value ++ "." ++ m.Name ++ "(" ++
    Join (m.Params.map Var.Name) ", " ++ "); \x7d;")

/-- The type whose method set the struct case of `translateSpec` takes for an
anonymous field: the pointer to the field type, unless the field type is a
pointer or its underlying type is an interface. -/
def promotedType (fieldType : GoType) : GoType :=
  let isPointer := match fieldType with
    | .Pointer _ => true
    | _ => false
  let isUnderlyingInterface := match fieldType.Underlying with
    | .Interface _ => true
    | _ => false
  if !isPointer && !isUnderlyingInterface then GoType.Pointer fieldType else fieldType

/-- The receiver expression of the forwarders of a field: `this.F`, wrapped as
`new F(this.F)` when the underlying type of the field type is basic. -/
def forwardedValue (fieldName : String) (fieldType : GoType) : String :=
  let isUnderlyingBasic := match fieldType.Underlying with
    | .Basic _ => true
    | _ => false
  if isUnderlyingBasic then "new " ++ fieldName ++ "(" ++ ("this." ++ fieldName) ++ ")"
  else "this." ++ fieldName

/-- The body of the second loop over the fields in the struct case of
`translateSpec`: an anonymous field gives one forwarder for each method of the
method set of `promotedType`, in the order of the method set; any other field
gives nothing.  `MethodSet` is the method of that name of the type checker. -/
def fieldForwarders (c : PkgContext) (MethodSet : GoType → List Selection) (outerName : String) :
    Var → List String
  | .mk fieldName anonymous fieldType =>
    if anonymous then
      (MethodSet (promotedType fieldType)).map
        (forwarder c outerName (forwardedValue fieldName fieldType))
    else []

/-- The method `translateSpec` for a type specification whose name resolves to
the named type `nt`: the texts it writes, one per call of `Printf`, or `none`
when it panics (a type that is not named, or an underlying type it does not
handle). -/
def translateSpecType (c : PkgContext) (MethodSet : GoType → List Selection)
    (IsAssignableTo : GoType → GoType → Bool) (objects : List Object) :
    GoType → Option (List String)
  | .Named _ name u =>
    match u with
    | .Basic _ => some [c.Printf ("var " ++ name ++ " = function(v) \x7b this.v = v; \x7d;")]
    | .Array _ _ => some [c.Printf ("var " ++ name ++ " = function(v) \x7b this.v = v; \x7d;")]
    | .Signature _ _ =>
      some [c.Printf ("var " ++ name ++ " = function(v) \x7b this.v = v; \x7d;")]
    | .Struct fields =>
      some ([c.Printf ("var " ++ name ++ " = function(" ++
                Join (fields.map (fun f => f.Name ++ "_")) ", " ++ ") \x7b")] ++
            [c.Indent.Printf "this._id = _idCounter++;"] ++
            fields.map (fun f => c.Indent.Printf ("this." ++ f.Name ++ " = " ++ f.Name ++ "_;")) ++
            [c.Printf "\x7d;"] ++
            fields.flatMap (fieldForwarders c MethodSet name))
    | .Slice _ =>
      some [c.Printf ("var " ++ name ++ " = function() \x7b Slice.apply(this, arguments); \x7d;"),
            c.Printf (name ++ ".prototype = Slice.prototype;")]
    | .Map _ _ =>
      some [c.Printf ("var " ++ name ++ " = function() \x7b Go$Map.apply(this, arguments); \x7d;")]
    | .Interface methods =>
      some [translateSpecInterface c IsAssignableTo objects name (.Interface methods)]
    | _ => none
  | _ => none

/-- The underlying types that the type case of `translateSpec` handles. -/
def handledUnderlying : GoType → Bool
  | .Basic _ | .Array _ _ | .Signature _ _ | .Struct _ | .Slice _ | .Map _ _
  | .Interface _ => true
  | _ => false

/-- The test `_, isStruct := t.(*types.Struct)`. -/
def isStruct : GoType → Bool
  | .Struct _ => true
  | _ => false

/-! ## translateFunction -/

/-- An `*ast.Field` of a receiver or parameter list: its names. -/
structure Field where
  Names : List Ident

/-- An `*ast.FuncDecl`: the receiver field `fun.Recv.List[0]` (`none` when
`fun.Recv` is nil), the name, the parameter fields and whether there is a
body. -/
structure FuncDecl where
  Recv : Option Field
  Name : String
  Params : List Field
  hasBody : Bool

/-- The statement translator of the package context, defined in another file of
the repository: the texts written by `translateStmt` for the assignment
`<lhs> = func...` of `translateFunction` and for the definition
`<name> := func...` of a package function, each with the context after the
call. -/
structure StmtTranslator where
  translateMethod : PkgContext → String → FuncDecl → List String × PkgContext
  translateBinding : PkgContext → FuncDecl → List String × PkgContext

/-- The loops of `translateParams` over the identifiers of the parameter
fields: an underscore is replaced by a fresh name with the prefix `param`, any
other identifier is translated as an expression. -/
def translateParamNames (tr : ExprTranslator) :
    List Ident → PkgContext → Option (List String × PkgContext)
  | [], c => some ([], c)
  | ident :: rest, c =>
    if ident.Name = "_" then
      match c.newVarName "param" with
      | none => none
      | some (name, c1) =>
        match translateParamNames tr rest c1 with
        | none => none
        | some (names, c2) => some (name :: names, c2)
    else
      match translateParamNames tr rest c with
      | none => none
      | some (names, c2) => some (tr.translateExpr ⟨Node.Ident ident, none⟩ :: names, c2)

/-- The method `PkgContext.translateParams`: the parameter names joined by
`, `, and the context after the call. -/
def translateParams (tr : ExprTranslator) (params : List Field) (c : PkgContext) :
    Option (String × PkgContext) :=
  match translateParamNames tr (params.flatMap (fun f => f.Names)) c with
  | none => none
  | some (names, c1) => some (Join names ", ", c1)

/-- The shim that `translateFunction` installs on `T._Pointer.prototype` for a
method with a value receiver. -/
def valueReceiverShim (c : PkgContext) (typeName : String) (isUnderlyingBasic : Bool)
    (name params : String) : String :=
  c.Printf (typeName ++ "._Pointer.prototype." ++ name ++ " = function(" ++ params ++
    ") \x7b return " ++
    (if isUnderlyingBasic then "new " ++ typeName ++ "(" ++ "this.get()" ++ ")" else "this.get()")
    ++ "." ++ name ++ "(" ++ params ++ "); \x7d;")

/-- The shim that `translateFunction` installs on `T.prototype` for a method
with a pointer receiver. -/
def pointerReceiverShim (c : PkgContext) (typeName : String) (isUnderlyingBasic : Bool)
    (name params : String) : String :=
  c.Printf (typeName ++ ".prototype." ++ name ++ " = function(" ++ params ++
    ") \x7b var obj = " ++ (if isUnderlyingBasic then "this.v" else "this") ++
    "; return (new " ++ typeName ++ "._Pointer(function() \x7b return obj; \x7d, null))." ++
    name ++ "(" ++ params ++ "); \x7d;")

/-- The test `_, isBasic := t.Underlying().(*types.Basic)`. -/
def isUnderlyingBasic (t : GoType) : Bool :=
  match t.Underlying with
  | .Basic _ => true
  | _ => false

/-- The method `PkgContext.translateFunction`: the texts written and the context
after the call, or `none` for a panic: a receiver without a name
(`Names[0]`), a receiver type that `typeName` does not handle, or a declaration
without a body (`fun.Body.List` on a nil body).  `info` gives the type of the
object an identifier resolves to (`c.info.Objects[ident].Type()`). -/
def translateFunction (c : PkgContext) (info : ObjId → GoType) (tr : ExprTranslator)
    (st : StmtTranslator) (decl : FuncDecl) (hasPtrType : Bool) :
    Option (List String × PkgContext) :=
  match decl.Recv with
  | none => none
  | some field =>
    match field.Names with
    | [] => none
    | recv :: _ =>
      let recvType := info recv.obj
      match c.typeName recvType with
      | none => none
      | some lhsType =>
        if !decl.hasBody then none
        else
          let installed := st.translateMethod c (lhsType ++ ".prototype." ++ decl.Name) decl
          if hasPtrType then
            match translateParams tr decl.Params installed.2 with
            | none => none
            | some (params, c2) =>
              match recvType with
              | .Pointer elem =>
                match c2.typeName elem with
                | none => none
                | some typeName =>
                  some (installed.1 ++
                    [pointerReceiverShim c2 typeName (isUnderlyingBasic elem) decl.Name params],
                    c2)
              | _ =>
                match c2.typeName recvType with
                | none => none
                | some typeName =>
                  some (installed.1 ++
                    [valueReceiverShim c2 typeName (isUnderlyingBasic recvType) decl.Name params],
                    c2)
          else some installed

/-! ## The loops of translatePackage over types and functions -/

/-- The receiver type under which the first loop of `translatePackage` files a
function declaration: nil (`none`) unless the receiver has exactly one name,
else the type of that name, with a pointer replaced by its element type. -/
def receiverKey (info : ObjId → GoType) (decl : FuncDecl) : Option GoType :=
  match decl.Recv with
  | none => none
  | some field =>
    match field.Names with
    | [recv] =>
      match info recv.obj with
      | .Pointer elem => some elem
      | t => some t
    | _ => none

/-- The map `functions` after the first loop of `translatePackage`: every
function declaration, in source order, with the key under which it is filed. -/
def groupFunctions (info : ObjId → GoType) (decls : List FuncDecl) :
    List (Option GoType × FuncDecl) :=
  decls.map (fun decl => (receiverKey info decl, decl))

/-- Equality of two keys of the map `functions`.  Go compares the types by
identity: a named type is the same as itself, which is decided here by package
and name, and nil equals nil. -/
def sameKey : Option GoType → Option GoType → Bool
  | none, none => true
  | some (.Named p n _), some (.Named q m _) => p = q ∧ n = m
  | some (.Basic k), some (.Basic l) => k = l
  | _, _ => false

/-- The entry `functions[key]`: the declarations filed under the key, in source
order. -/
def functionsAt (functions : List (Option GoType × FuncDecl)) (key : Option GoType) :
    List FuncDecl :=
  (functions.filter (fun e => sameKey e.1 key)).map (fun e => e.2)

/-- The loop `for _, fun := range functions[recvType]` of the type loop: the
texts written by the calls of `translateFunction` and the context after
them. -/
def translateFunctions (info : ObjId → GoType) (tr : ExprTranslator) (st : StmtTranslator)
    (hasPtrType : Bool) : List FuncDecl → PkgContext → Option (List String × PkgContext)
  | [], c => some ([], c)
  | decl :: rest, c =>
    match translateFunction c info tr st decl hasPtrType with
    | none => none
    | some (lines, c1) =>
      match translateFunctions info tr st hasPtrType rest c1 with
      | none => none
      | some (more, c2) => some (lines ++ more, c2)

/-- The text of the pointer-boxing definition of the type named `name`. -/
def pointerDefinition (c : PkgContext) (name : String) : String :=
  c.Printf (name ++
    "._Pointer = function(getter, setter) \x7b this.get = getter; this.set = setter; \x7d;")

/-- An `*ast.TypeSpec`: its name. -/
structure TypeSpec where
  Name : Ident

/-- The body of the loop over the specs of a type declaration in
`translatePackage`: `translateSpec`, then the pointer-boxing definition unless
the underlying type is a struct, then `translateFunction` for the functions
filed under the type.  The result is `none` for a panic. -/
def translateTypeSpec (c : PkgContext) (info : ObjId → GoType)
    (MethodSet : GoType → List Selection) (IsAssignableTo : GoType → GoType → Bool)
    (objects : List Object) (tr : ExprTranslator) (st : StmtTranslator)
    (functions : List (Option GoType × FuncDecl)) (spec : TypeSpec) :
    Option (List String × PkgContext) :=
  match info spec.Name.obj with
  | .Named pkg name u =>
    let hasPtrType := !isStruct u
    match translateSpecType c MethodSet IsAssignableTo objects (.Named pkg name u) with
    | none => none
    | some specLines =>
      match translateFunctions info tr st hasPtrType
          (functionsAt functions (some (.Named pkg name u))) c with
      | none => none
      | some (funLines, c1) =>
        some (specLines ++ (if hasPtrType then [pointerDefinition c name] else []) ++ funLines,
          c1)
  | _ => none

/-- The state of the loop over the package functions: the flag `hasInit`, the
texts written and the context. -/
structure PackageFunctions where
  hasInit : Bool
  lines : List String
  context : PkgContext

/-- The loop `for _, fun := range functions[nil]` of `translatePackage`: a
function named `init` sets `hasInit`; a function without body is written as a
native placeholder, any other as the binding of its name to a function
literal. -/
def translatePackageFunctions (st : StmtTranslator) :
    List FuncDecl → PackageFunctions → PackageFunctions
  | [], s => s
  | decl :: rest, s =>
    let hasInit := if decl.Name = "init" then true else s.hasInit
    if !decl.hasBody then
      translatePackageFunctions st rest
        { hasInit := hasInit
          lines := s.lines ++ [s.context.Printf ("var " ++ decl.Name ++
            " = function() \x7b throw new GoError(\"Native function not implemented: " ++
            decl.Name ++ "\"); \x7d;")]
          context := s.context }
    else
      translatePackageFunctions st rest
        { hasInit := hasInit
          lines := s.lines ++ (st.translateBinding s.context decl).1
          context := (st.translateBinding s.context decl).2 }

/-! ## Examples of types and methods -/

/-- The named type `T` of the package `main` with underlying type `int`. -/
def typeT : GoType :=
  GoType.Named (some "main") "T" (GoType.Basic BasicKind.Int)

/-- The type information of the examples: object 1 has the type `T`, object 2
the type `*T`, object 3 the named type `P` with underlying type `*int`, any
other object the type `int`. -/
def exampleInfo : ObjId → GoType :=
  fun o =>
    if o = 1 then typeT
    else if o = 2 then GoType.Pointer typeT
    else if o = 3 then
      GoType.Named (some "main") "P" (GoType.Pointer (GoType.Basic BasicKind.Int))
    else GoType.Basic BasicKind.Int

/-- A statement translator for examples: it writes one text naming what it was
asked to translate and leaves the context as it is. -/
def exampleStmtTranslator : StmtTranslator where
  translateMethod := fun c lhs _ => ([c.Printf (lhs ++ " = ...;")], c)
  translateBinding := fun c decl => ([c.Printf ("var " ++ decl.Name ++ " = ...;")], c)

/-- The method `func (p *T) M(x int)` with a body. -/
def methodPointerM : FuncDecl :=
  { Recv := some ⟨[⟨"p", 2⟩]⟩, Name := "M", Params := [⟨[⟨"x", 4⟩]⟩], hasBody := true }

/-- The methods `func (T) M()` and `func (T) init()`, written without a receiver
name. -/
def methodsUnnamedReceiver : List FuncDecl :=
  [{ Recv := some ⟨[]⟩, Name := "M", Params := [], hasBody := true },
   { Recv := some ⟨[]⟩, Name := "init", Params := [], hasBody := true }]

/-- A method set for examples: the pointer to a named type has the single method
`M(x)`, every other type has none. -/
def methodSetM : GoType → List Selection
  | .Pointer (.Named _ _ _) =>
    [{ Name := "M", Params := [Var.mk "x" false (GoType.Basic BasicKind.Int)] }]
  | _ => []

/-- The named type `Outer` with underlying type `struct { A; B; n int }`, where
`A` and `B` are embedded named struct types. -/
def typeOuter : GoType :=
  GoType.Named (some "main") "Outer" (GoType.Struct
    [Var.mk "A" true (GoType.Named (some "main") "A" (GoType.Struct [])),
     Var.mk "B" true (GoType.Named (some "main") "B" (GoType.Struct [])),
     Var.mk "n" false (GoType.Basic BasicKind.Int)])

/-- The named type `Holder` with underlying type `struct { Inner; Num; n int }`,
where `Inner` is an embedded named struct type and `Num` an embedded named type
with underlying type `int`. -/
def typeHolder : GoType :=
  GoType.Named (some "main") "Holder" (GoType.Struct
    [Var.mk "Inner" true (GoType.Named (some "main") "Inner" (GoType.Struct [])),
     Var.mk "Num" true (GoType.Named (some "main") "Num" (GoType.Basic BasicKind.Int)),
     Var.mk "n" false (GoType.Basic BasicKind.Int)])

/-- Sources for examples: `main` imports `q`, which declares `type P *int`;
the rest of the translation of `q` runs to its end exactly when the loop body
over its type declaration does. -/
def sourcesUnhandledType : Sources :=
  { Import := fun _ => true
    Check := fun _ => some true
    Imports := fun p => if p = "main" then ["q"] else []
    Body := fun p =>
      if p = "q" then
        (translateTypeSpec exampleContext exampleInfo methodSetM assignableA [] literalTranslator
          exampleStmtTranslator [] ⟨⟨"P", 3⟩⟩).isSome
      else true }

/-! # Theorems -/

/-! ## The walk -/

mutual
/-- The walk keeps the pending map and leaves `isReady` set exactly when it was
set before and no identifier of the tree resolves to a pending object. -/
theorem Walk_spec : ∀ (n : Node) (v : IsReadyVisitor),
    Walk v n = { pendingObjects := v.pendingObjects
                 isReady := v.isReady && n.idents.all (fun o => !v.pendingObjects o) }
  | .Ident id, v => by
    obtain ⟨p, r⟩ := v
    cases r <;> cases hp : p id.obj <;>
      simp [Walk, IsReadyVisitor.Visit, Node.idents, hp]
  | .BasicLit s, v => by
    obtain ⟨p, r⟩ := v
    cases r <;> simp [Walk, IsReadyVisitor.Visit, Node.idents]
  | .Other cs, v => by
    obtain ⟨p, r⟩ := v
    have ih := WalkList_spec cs ⟨p, r⟩
    cases r
    · simp [Walk, IsReadyVisitor.Visit, Node.idents]
    · simp only [Walk, IsReadyVisitor.Visit, Node.idents, Bool.not_true, Bool.false_eq_true,
        if_false]
      rw [ih]
      cases h : (Node.identsList cs).all (fun o => !p o) <;> simp [h]
/-- The walk of a list of children, likewise. -/
theorem WalkList_spec : ∀ (cs : List Node) (v : IsReadyVisitor),
    WalkList v cs = { pendingObjects := v.pendingObjects
                      isReady := v.isReady &&
                        (Node.identsList cs).all (fun o => !v.pendingObjects o) }
  | [], v => by simp [WalkList, Node.identsList]
  | c :: cs, v => by
    rw [WalkList, Walk_spec c v, WalkList_spec cs _]
    simp [Node.identsList, Bool.and_assoc]
end

/-- A spec is ready exactly when no object its initializer refers to is
pending. -/
theorem specIsReady_iff (p : ObjectSet) (s : ValueSpec) :
    specIsReady p s = true ↔ ∀ o ∈ s.refs, p o = false := by
  unfold specIsReady ValueSpec.refs
  cases s.Values with
  | nil => simp
  | cons v rest => simp [Walk_spec]

/-! ## The collection loop -/

theorem collectNames_specs (s : ValueSpec) (names : List Ident) :
    ∀ (i : Nat) (st : Collected),
      (collectNames s i names st).specs = st.specs ++ (names.enumFrom i).map (fun p =>
        { Names := [p.2], Type_ := s.Type_, Values := (s.Values.get? p.1).toList }) := by
  induction names with
  | nil => intro i st; simp [collectNames]
  | cons n rest ih =>
    intro i st
    rw [collectNames, ih]
    simp [List.enumFrom]

theorem collectNames_pending (s : ValueSpec) (names : List Ident) :
    ∀ (i : Nat) (st : Collected) (o : ObjId),
      (collectNames s i names st).pendingObjects o = true ↔
        (st.pendingObjects o = true ∨ (names ≠ [] ∧ firstObj s = some o)) := by
  induction names with
  | nil => intro i st o; simp [collectNames]
  | cons n rest ih =>
    intro i st o
    rw [collectNames, ih]
    cases hN : s.Names with
    | nil => simp [firstObj, hN]
    | cons first more =>
      simp only [firstObj, hN, ObjectSet.set, List.head?_cons, Option.map_some', Option.some.injEq,
        ne_eq, reduceCtorEq, not_false_eq_true, true_and]
      by_cases ho : o = first.obj
      · simp [ho]
      · have : ¬ first.obj = o := fun h => ho h.symm
        simp [ho, this]

theorem collectSpecs_specs (specs : List ValueSpec) :
    ∀ st : Collected, (collectSpecs specs st).specs = st.specs ++ specs.flatMap flattenGroup := by
  induction specs with
  | nil => intro st; simp [collectSpecs]
  | cons s rest ih =>
    intro st
    rw [collectSpecs, ih, collectNames_specs]
    simp [flattenGroup, List.enum]

theorem collectSpecs_pending (specs : List ValueSpec) :
    ∀ (st : Collected) (o : ObjId),
      (collectSpecs specs st).pendingObjects o = true ↔
        (st.pendingObjects o = true ∨ ∃ s ∈ specs, firstObj s = some o) := by
  induction specs with
  | nil => intro st o; simp [collectSpecs]
  | cons s rest ih =>
    intro st o
    rw [collectSpecs, ih, collectNames_pending]
    have hne : firstObj s = some o → s.Names ≠ [] := by
      intro h hn
      simp [firstObj, hn] at h
    constructor
    · rintro ((h | ⟨_, h⟩) | ⟨s2, hs2, h⟩)
      · exact Or.inl h
      · exact Or.inr ⟨s, List.mem_cons_self _ _, h⟩
      · exact Or.inr ⟨s2, List.mem_cons_of_mem _ hs2, h⟩
    · rintro (h | ⟨s2, hs2, h⟩)
      · exact Or.inl (Or.inl h)
      · rcases List.mem_cons.mp hs2 with heq | hmem
        · subst heq
          exact Or.inl (Or.inr ⟨hne h, h⟩)
        · exact Or.inr ⟨s2, hmem, h⟩

theorem collectDecls_spec (decls : List Decl) :
    ∀ st : Collected, collectDecls decls st = collectSpecs (declSpecs decls) st := by
  induction decls with
  | nil => intro st; simp [collectDecls, declSpecs, collectSpecs]
  | cons d rest ih =>
    intro st
    have happ : ∀ (l1 l2 : List ValueSpec) (st : Collected),
        collectSpecs (l1 ++ l2) st = collectSpecs l2 (collectSpecs l1 st) := by
      intro l1
      induction l1 with
      | nil => intro l2 st; simp [collectSpecs]
      | cons a l1 ih1 => intro l2 st; simp [collectSpecs, ih1]
    cases d with
    | FuncDecl nm =>
      simp only [collectDecls, declSpecs, List.flatMap_cons, List.nil_append]
      exact ih st
    | GenDecl tok specs =>
      simp only [collectDecls, declSpecs, List.flatMap_cons]
      split_ifs with h
      · rw [happ, ih]; rfl
      · rw [List.nil_append]; exact ih st

theorem collectFiles_spec (files : List File) :
    ∀ st : Collected, collectFiles files st = collectSpecs (constVarSpecs files) st := by
  have happ : ∀ (l1 l2 : List ValueSpec) (st : Collected),
      collectSpecs (l1 ++ l2) st = collectSpecs l2 (collectSpecs l1 st) := by
    intro l1
    induction l1 with
    | nil => intro l2 st; simp [collectSpecs]
    | cons a l1 ih1 => intro l2 st; simp [collectSpecs, ih1]
  induction files with
  | nil => intro st; simp [collectFiles, constVarSpecs, collectSpecs]
  | cons f rest ih =>
    intro st
    rw [collectFiles, ih, collectDecls_spec]
    simp only [constVarSpecs, List.flatMap_cons]
    rw [happ]

/-- The list built by the collection loop is the flattened declaration list. -/
theorem collect_specs (files : List File) : (collect files).specs = flattened files := by
  rw [collect, collectFiles_spec, collectSpecs_specs]
  simp [flattened]

/-- The collection loop marks exactly the first names of the groups as
pending. -/
theorem collect_pending (files : List File) (o : ObjId) :
    (collect files).pendingObjects o = true ↔ ∃ s ∈ constVarSpecs files, firstObj s = some o := by
  rw [collect, collectFiles_spec, collectSpecs_pending]
  simp

/-! ## A cyclic pair never leaves the pending set -/

theorem loopBody_cycle (A B : ObjId) (st : Sched) (os : Option ValueSpec)
    (hA : st.pendingObjects A = true) (hB : st.pendingObjects B = true)
    (hrA : ∀ s, os = some s → (∃ n ∈ s.Names, n.obj = A) → B ∈ s.refs)
    (hrB : ∀ s, os = some s → (∃ n ∈ s.Names, n.obj = B) → A ∈ s.refs)
    (hclean : ∀ s ∈ st.emitted, ∀ n ∈ s.Names, n.obj ≠ A ∧ n.obj ≠ B) :
    (loopBody st os).1.pendingObjects A = true ∧
    (loopBody st os).1.pendingObjects B = true ∧
    (∀ s ∈ (loopBody st os).1.emitted, ∀ n ∈ s.Names, n.obj ≠ A ∧ n.obj ≠ B) ∧
    ((loopBody st os).2 = none ∨ (loopBody st os).2 = os) ∧
    (st.complete = false → (loopBody st os).1.complete = false) ∧
    (∀ s, os = some s → (∃ n ∈ s.Names, n.obj = A) →
      (loopBody st os).2 = os ∧ (loopBody st os).1.complete = false) := by
  cases os with
  | none =>
    simp only [loopBody]
    exact ⟨hA, hB, hclean, Or.inl (by first | rfl | trivial), fun h => h, fun s h => by cases h⟩
  | some s =>
    simp only [loopBody]
    by_cases hr : specIsReady st.pendingObjects s = true
    · have hready := (specIsReady_iff _ _).mp hr
      have hnoA : ∀ n ∈ s.Names, n.obj ≠ A := by
        intro n hn heq
        have := hready B (hrA s rfl ⟨n, hn, heq⟩)
        rw [hB] at this; cases this
      have hnoB : ∀ n ∈ s.Names, n.obj ≠ B := by
        intro n hn heq
        have := hready A (hrB s rfl ⟨n, hn, heq⟩)
        rw [hA] at this; cases this
      simp only [hr, Bool.not_true, Bool.false_eq_true, if_false]
      refine ⟨?_, ?_, ?_, Or.inl (by first | rfl | trivial), fun h => h, ?_⟩
      · cases hN : s.Names with
        | nil => exact hA
        | cons n rest =>
          have := hnoA n (by rw [hN]; exact List.mem_cons_self _ _)
          simp only [ObjectSet.delete]
          rw [if_neg (fun h => this h.symm)]
          exact hA
      · cases hN : s.Names with
        | nil => exact hB
        | cons n rest =>
          have := hnoB n (by rw [hN]; exact List.mem_cons_self _ _)
          simp only [ObjectSet.delete]
          rw [if_neg (fun h => this h.symm)]
          exact hB
      · intro s2 hs2 n hn
        rcases List.mem_append.mp hs2 with h | h
        · exact hclean s2 h n hn
        · have : s2 = s := by simpa using h
          subst this
          exact ⟨hnoA n hn, hnoB n hn⟩
      · intro s2 hs2 hex
        cases hs2
        obtain ⟨n, hn, heq⟩ := hex
        exact absurd heq (hnoA n hn)
    · have hr2 : specIsReady st.pendingObjects s = false := by
        cases h : specIsReady st.pendingObjects s
        · rfl
        · exact absurd h hr
      simp only [hr2, Bool.not_false, if_true]
      exact ⟨hA, hB, hclean, Or.inr (by first | rfl | trivial), fun _ => (by first | rfl | trivial), fun _ _ _ => ⟨(by first | rfl | trivial), (by first | rfl | trivial)⟩⟩

theorem rangeSpecs_cycle (A B : ObjId) (specs : List (Option ValueSpec)) :
    ∀ (st : Sched),
      st.pendingObjects A = true → st.pendingObjects B = true →
      (∀ s, some s ∈ specs → (∃ n ∈ s.Names, n.obj = A) → B ∈ s.refs) →
      (∀ s, some s ∈ specs → (∃ n ∈ s.Names, n.obj = B) → A ∈ s.refs) →
      (∀ s ∈ st.emitted, ∀ n ∈ s.Names, n.obj ≠ A ∧ n.obj ≠ B) →
      (rangeSpecs st specs).1.pendingObjects A = true ∧
      (rangeSpecs st specs).1.pendingObjects B = true ∧
      (∀ s ∈ (rangeSpecs st specs).1.emitted, ∀ n ∈ s.Names, n.obj ≠ A ∧ n.obj ≠ B) ∧
      (∀ s, some s ∈ (rangeSpecs st specs).2 → some s ∈ specs) ∧
      (st.complete = false → (rangeSpecs st specs).1.complete = false) ∧
      ((∃ s, some s ∈ specs ∧ ∃ n ∈ s.Names, n.obj = A) →
        (rangeSpecs st specs).1.complete = false ∧
        ∃ s, some s ∈ (rangeSpecs st specs).2 ∧ ∃ n ∈ s.Names, n.obj = A) := by
  induction specs with
  | nil =>
    intro st hA hB _ _ hclean
    simp only [rangeSpecs]
    exact ⟨hA, hB, hclean, fun s h => h, fun h => h, fun ⟨s, h, _⟩ => by simp at h⟩
  | cons os rest ih =>
    intro st hA hB hrA hrB hclean
    obtain ⟨h1, h2, h3, h4, h5, h6⟩ := loopBody_cycle A B st os hA hB
      (fun s hs => hrA s (by rw [hs]; exact List.mem_cons_self _ _))
      (fun s hs => hrB s (by rw [hs]; exact List.mem_cons_self _ _)) hclean
    obtain ⟨k1, k2, k3, k4, k5, k6⟩ := ih (loopBody st os).1 h1 h2
      (fun s hs => hrA s (List.mem_cons_of_mem _ hs))
      (fun s hs => hrB s (List.mem_cons_of_mem _ hs)) h3
    simp only [rangeSpecs]
    refine ⟨k1, k2, k3, ?_, fun h => k5 (h5 h), ?_⟩
    · intro s hs
      rcases List.mem_cons.mp hs with h | h
      · rcases h4 with h4 | h4
        · rw [h4] at h; cases h
        · rw [h4] at h; rw [h]; exact List.mem_cons_self _ _
      · exact List.mem_cons_of_mem _ (k4 s h)
    · rintro ⟨s, hs, hex⟩
      rcases List.mem_cons.mp hs with h | h
      · obtain ⟨e1, e2⟩ := h6 s h.symm hex
        exact ⟨k5 e2, s, by rw [e1, ← h]; exact List.mem_cons_self _ _, hex⟩
      · obtain ⟨e1, s2, e2, e3⟩ := k6 ⟨s, h, hex⟩
        exact ⟨e1, s2, List.mem_cons_of_mem _ e2, e3⟩

theorem pass_cycle (A B : ObjId) (x : Sched × List (Option ValueSpec)) (h : CycleInv A B x) :
    CycleInv A B (pass x) ∧ (pass x).1.complete = false := by
  obtain ⟨k1, k2, k3, k4, _, k6⟩ := rangeSpecs_cycle A B x.2 { x.1 with complete := true }
    h.pendA h.pendB h.refsA h.refsB h.clean
  obtain ⟨e1, e2⟩ := k6 h.hasA
  exact ⟨⟨k1, k2, fun s hs => h.refsA s (k4 s hs), fun s hs => h.refsB s (k4 s hs), k3, e2⟩, e1⟩

theorem passes_cycle (A B : ObjId) (k : Nat) :
    ∀ x : Sched × List (Option ValueSpec), CycleInv A B x → CycleInv A B (passes k x) := by
  induction k with
  | zero => intro x h; exact h
  | succ k ih => intro x h; exact ih _ (pass_cycle A B x h).1

/-- With a cyclic pair pending, the loop does not end, whatever the fuel. -/
theorem scheduleLoop_cycle (A B : ObjId) (fuel : Nat) :
    ∀ x : Sched × List (Option ValueSpec), CycleInv A B x → scheduleLoop fuel x = none := by
  induction fuel with
  | zero => intro x _; rfl
  | succ fuel ih =>
    intro x h
    obtain ⟨h1, h2⟩ := pass_cycle A B x h
    simp only [scheduleLoop, h2, Bool.false_eq_true, if_false]
    exact ih _ h1

/-! ## One pass of the scheduling loop -/

theorem remaining_cons_some (s : ValueSpec) (rest : List (Option ValueSpec)) :
    remaining (some s :: rest) = s :: remaining rest := by
  simp [remaining]

theorem remaining_cons_none (rest : List (Option ValueSpec)) :
    remaining (none :: rest) = remaining rest := by
  simp [remaining]

theorem mem_remaining (s : ValueSpec) (specs : List (Option ValueSpec)) :
    s ∈ remaining specs ↔ some s ∈ specs := by
  simp [remaining]

theorem specObjs_append (l1 l2 : List ValueSpec) :
    specObjs (l1 ++ l2) = specObjs l1 ++ specObjs l2 := by
  simp [specObjs]

theorem mem_specObjs (o : ObjId) (l : List ValueSpec) :
    o ∈ specObjs l ↔ ∃ s ∈ l, ∃ n ∈ s.Names, n.obj = o := by
  simp [specObjs]

/-- What one scan of the slice does, from any state: the specs it hands over
(`E`) together with those it leaves are the non-nil specs it started from; the
pending map loses exactly the objects of `E`; `complete` survives only if
nothing is left; and a spec that is ready when the scan starts is handed
over. -/
theorem rangeSpecs_spec (specs : List (Option ValueSpec)) :
    ∀ (st : Sched), (∀ s, some s ∈ specs → ∃ n, s.Names = [n]) →
      ∃ E : List ValueSpec,
        (rangeSpecs st specs).1.emitted = st.emitted ++ E ∧
        (E ++ remaining (rangeSpecs st specs).2).Perm (remaining specs) ∧
        (∀ o, (rangeSpecs st specs).1.pendingObjects o = true ↔
          (st.pendingObjects o = true ∧ o ∉ specObjs E)) ∧
        ((rangeSpecs st specs).1.complete = true ↔
          (st.complete = true ∧ remaining (rangeSpecs st specs).2 = [])) ∧
        (∀ s, some s ∈ specs → (∀ o ∈ s.refs, st.pendingObjects o = false) → s ∈ E) := by
  induction specs with
  | nil =>
    intro st _
    exact ⟨[], by simp [rangeSpecs], by simp [rangeSpecs, remaining],
      by simp [rangeSpecs, specObjs], by simp [rangeSpecs, remaining], by simp⟩
  | cons os rest ih =>
    intro st hsingle
    have hsr : ∀ s, some s ∈ rest → ∃ n, s.Names = [n] :=
      fun s hs => hsingle s (List.mem_cons_of_mem _ hs)
    cases os with
    | none =>
      obtain ⟨E, h1, h2, h3, h4, h5⟩ := ih st hsr
      refine ⟨E, ?_, ?_, ?_, ?_, ?_⟩
      · simpa [rangeSpecs, loopBody] using h1
      · simpa [rangeSpecs, loopBody, remaining_cons_none] using h2
      · simpa [rangeSpecs, loopBody] using h3
      · simpa [rangeSpecs, loopBody, remaining_cons_none] using h4
      · intro s hs hr
        rcases List.mem_cons.mp hs with h | h
        · cases h
        · exact h5 s h hr
    | some s =>
      obtain ⟨n, hn⟩ := hsingle s (List.mem_cons_self _ _)
      by_cases hr : specIsReady st.pendingObjects s = true
      · have hlb : loopBody st (some s) =
            ({ st with emitted := st.emitted ++ [s]
                       pendingObjects := st.pendingObjects.delete n.obj }, none) := by
          simp [loopBody, hr, hn]
        obtain ⟨E, h1, h2, h3, h4, h5⟩ := ih (loopBody st (some s)).1 hsr
        rw [hlb] at h1 h2 h3 h4 h5
        refine ⟨s :: E, ?_, ?_, ?_, ?_, ?_⟩
        · simp only [rangeSpecs, hlb]
          rw [h1]; simp
        · simp only [rangeSpecs, hlb, remaining_cons_none, remaining_cons_some]
          exact List.Perm.cons _ h2
        · intro o
          simp only [rangeSpecs, hlb]
          rw [h3]
          simp only [ObjectSet.delete]
          have hso : specObjs (s :: E) = n.obj :: specObjs E := by
            simp [specObjs, hn]
          rw [hso]
          by_cases ho : o = n.obj
          · simp [ho]
          · simp [ho]
        · simp only [rangeSpecs, hlb, remaining_cons_none]
          exact h4
        · intro s2 hs2 hr2
          rcases List.mem_cons.mp hs2 with h | h
          · cases h; exact List.mem_cons_self _ _
          · refine List.mem_cons_of_mem _ (h5 s2 h ?_)
            intro o ho
            have := hr2 o ho
            simp [ObjectSet.delete, this]
      · have hr2 : specIsReady st.pendingObjects s = false := by
          cases h : specIsReady st.pendingObjects s
          · rfl
          · exact absurd h hr
        have hlb : loopBody st (some s) = ({ st with complete := false }, some s) := by
          simp [loopBody, hr2]
        obtain ⟨E, h1, h2, h3, h4, h5⟩ := ih (loopBody st (some s)).1 hsr
        rw [hlb] at h1 h2 h3 h4 h5
        refine ⟨E, ?_, ?_, ?_, ?_, ?_⟩
        · simp only [rangeSpecs, hlb]; exact h1
        · simp only [rangeSpecs, hlb, remaining_cons_some]
          exact (List.perm_middle).trans (List.Perm.cons _ h2)
        · intro o
          simp only [rangeSpecs, hlb]
          exact h3 o
        · simp only [rangeSpecs, hlb, remaining_cons_some]
          rw [h4]
          simp
        · intro s2 hs2 hready
          rcases List.mem_cons.mp hs2 with h | h
          · cases h
            exact absurd ((specIsReady_iff _ _).mpr hready) hr
          · exact h5 s2 h hready

/-! ## Termination on acyclic input -/

theorem Acyclic_subset (l1 l2 : List ValueSpec) (hsub : ∀ s ∈ l1, s ∈ l2) (h : Acyclic l2) :
    Acyclic l1 := by
  obtain ⟨rank, hr⟩ := h
  refine ⟨rank, ?_⟩
  intro s hs n hn o ho hmem
  apply hr s (hsub s hs) n hn o ho
  rw [mem_specObjs] at hmem ⊢
  obtain ⟨s2, hs2, h2⟩ := hmem
  exact ⟨s2, hsub s2 hs2, h2⟩

/-- A non-empty list of specs has a member of least measure. -/
theorem exists_min_spec (f : ValueSpec → Nat) (l : List ValueSpec) (hne : l ≠ []) :
    ∃ a ∈ l, ∀ b ∈ l, f a ≤ f b := by
  induction l with
  | nil => exact absurd rfl hne
  | cons x rest ih =>
    by_cases hrest : rest = []
    · subst hrest
      exact ⟨x, List.mem_cons_self _ _, by intro b hb; simp at hb; rw [hb]⟩
    · obtain ⟨a, ha, hmin⟩ := ih hrest
      by_cases hxa : f x ≤ f a
      · refine ⟨x, List.mem_cons_self _ _, ?_⟩
        intro b hb
        rcases List.mem_cons.mp hb with h | h
        · rw [h]
        · exact le_trans hxa (hmin b h)
      · refine ⟨a, List.mem_cons_of_mem _ ha, ?_⟩
        intro b hb
        rcases List.mem_cons.mp hb with h | h
        · rw [h]; omega
        · exact hmin b h

/-- On acyclic input some spec that is left refers to no pending object. -/
theorem exists_ready (x : Sched × List (Option ValueSpec)) (h : SchedInv x)
    (hne : remaining x.2 ≠ []) :
    ∃ s, some s ∈ x.2 ∧ ∀ o ∈ s.refs, x.1.pendingObjects o = false := by
  obtain ⟨rank, hr⟩ := h.acyclic
  obtain ⟨a, ha, hmin⟩ := exists_min_spec
    (fun s => match s.Names with | n :: _ => rank n.obj | [] => 0) _ hne
  have ha2 := (mem_remaining a x.2).mp ha
  refine ⟨a, ha2, ?_⟩
  intro o ho
  cases hp : x.1.pendingObjects o with
  | false => rfl
  | true =>
    exfalso
    have hmem := h.pend o hp
    obtain ⟨na, hna⟩ := h.single a ha2
    have hlt := hr a ha na (by rw [hna]; exact List.mem_singleton_self _) o ho hmem
    obtain ⟨s2, hs2, n2, hn2, heq⟩ := (mem_specObjs o _).mp hmem
    obtain ⟨nb, hnb⟩ := h.single s2 ((mem_remaining s2 x.2).mp hs2)
    have hle := hmin s2 hs2
    simp only [hna, hnb] at hle
    rw [hnb] at hn2
    have : n2 = nb := by simpa using hn2
    subst this
    rw [heq] at hle
    omega

/-- One pass on acyclic input: it keeps the invariant, hands over a sublist of
the specs left, sets `complete` exactly when nothing is left, and hands over at
least one spec when one was left. -/
theorem pass_spec (x : Sched × List (Option ValueSpec)) (h : SchedInv x) :
    ∃ E : List ValueSpec,
      (pass x).1.emitted = x.1.emitted ++ E ∧
      (E ++ remaining (pass x).2).Perm (remaining x.2) ∧
      SchedInv (pass x) ∧
      ((pass x).1.complete = true ↔ remaining (pass x).2 = []) ∧
      (remaining x.2 ≠ [] → E ≠ []) := by
  obtain ⟨E, h1, h2, h3, h4, h5⟩ := rangeSpecs_spec x.2 { x.1 with complete := true } h.single
  have hsub : ∀ s ∈ remaining (pass x).2, s ∈ remaining x.2 := by
    intro s hs
    exact h2.subset (List.mem_append_right _ hs)
  refine ⟨E, h1, h2, ⟨?_, ?_, ?_⟩, ?_, ?_⟩
  · intro s hs
    exact h.single s ((mem_remaining _ _).mp (hsub s ((mem_remaining _ _).mpr hs)))
  · intro o ho
    obtain ⟨hp, hnot⟩ := (h3 o).mp ho
    have hmem := h.pend o hp
    obtain ⟨s, hs, hn⟩ := (mem_specObjs o _).mp hmem
    rcases List.mem_append.mp (h2.symm.subset hs) with hE | hR
    · exact absurd ((mem_specObjs o _).mpr ⟨s, hE, hn⟩) hnot
    · exact (mem_specObjs o _).mpr ⟨s, hR, hn⟩
  · exact Acyclic_subset _ _ hsub h.acyclic
  · rw [show (pass x).1.complete = (rangeSpecs { x.1 with complete := true } x.2).1.complete
      from rfl, h4]
    simp [pass]
  · intro hne hE
    obtain ⟨s, hs, hready⟩ := exists_ready x h hne
    have := h5 s hs hready
    rw [hE] at this
    simp at this

/-- On acyclic input, fuel above the number of specs left is enough: the loop
ends and has handed over a permutation of what was left. -/
theorem scheduleLoop_terminates (fuel : Nat) :
    ∀ x : Sched × List (Option ValueSpec), SchedInv x → (remaining x.2).length < fuel →
      ∃ y, scheduleLoop fuel x = some y ∧
        y.1.emitted.Perm (x.1.emitted ++ remaining x.2) ∧ remaining y.2 = [] := by
  induction fuel with
  | zero => intro x _ h; omega
  | succ fuel ih =>
    intro x hinv hlen
    obtain ⟨E, h1, h2, h3, h4, h5⟩ := pass_spec x hinv
    by_cases hc : (pass x).1.complete = true
    · have hnil := h4.mp hc
      refine ⟨pass x, by simp [scheduleLoop, hc], ?_, hnil⟩
      rw [h1]
      rw [hnil, List.append_nil] at h2
      exact List.Perm.append_left _ h2
    · have hne : remaining (pass x).2 ≠ [] := fun h => hc (h4.mpr h)
      have hne2 : remaining x.2 ≠ [] := by
        intro h
        rw [h] at h2
        have := h2.length_eq
        simp at this
        exact hne this.2
      have hE := h5 hne2
      have hlen2 := h2.length_eq
      rw [List.length_append] at hlen2
      have hEpos : 0 < E.length := List.length_pos.mpr hE
      obtain ⟨y, hy1, hy2, hy3⟩ := ih (pass x) h3 (by omega)
      refine ⟨y, ?_, ?_, hy3⟩
      · have hc2 : (pass x).1.complete = false := by
          cases h : (pass x).1.complete
          · rfl
          · exact absurd h hc
        simp only [scheduleLoop, hc2, Bool.false_eq_true, if_false]
        exact hy1
      · refine hy2.trans ?_
        rw [h1, List.append_assoc]
        exact List.Perm.append_left _ h2

/-- More fuel does not change a result. -/
theorem scheduleLoop_mono (fuel : Nat) :
    ∀ (x y : Sched × List (Option ValueSpec)), scheduleLoop fuel x = some y →
      ∀ fuel2, fuel ≤ fuel2 → scheduleLoop fuel2 x = some y := by
  induction fuel with
  | zero => intro x y h; simp [scheduleLoop] at h
  | succ fuel ih =>
    intro x y h fuel2 hle
    obtain ⟨k, rfl⟩ : ∃ k, fuel2 = k + 1 := ⟨fuel2 - 1, by omega⟩
    simp only [scheduleLoop] at h ⊢
    split_ifs at h ⊢ with hc
    · exact h
    · exact ih _ _ h k (by omega)

theorem flattenGroup_single (g s : ValueSpec) (h : s ∈ flattenGroup g) : ∃ n, s.Names = [n] := by
  simp only [flattenGroup, List.mem_map] at h
  obtain ⟨p, _, rfl⟩ := h
  exact ⟨p.2, rfl⟩

theorem flattenGroup_first (g : ValueSpec) (o : ObjId) (h : firstObj g = some o) :
    ∃ s ∈ flattenGroup g, ∃ n ∈ s.Names, n.obj = o := by
  unfold firstObj at h
  cases hN : g.Names with
  | nil => simp [hN] at h
  | cons first rest =>
    simp [hN] at h
    refine ⟨{ Names := [first], Type_ := g.Type_, Values := (g.Values.get? 0).toList }, ?_,
      first, List.mem_singleton_self _, h⟩
    simp [flattenGroup, hN, List.enum, List.enumFrom]

theorem remaining_map_some (l : List ValueSpec) : remaining (l.map some) = l := by
  simp [remaining, List.filterMap_map]

theorem initialSched_inv (files : List File) (h : Acyclic (flattened files)) :
    SchedInv (initialSched files) := by
  refine ⟨?_, ?_, ?_⟩
  · intro s hs
    simp only [initialSched, collect_specs, List.mem_map, Option.some.injEq, exists_eq_right] at hs
    simp only [flattened, List.mem_flatMap] at hs
    obtain ⟨g, _, hg⟩ := hs
    exact flattenGroup_single g s hg
  · intro o ho
    simp only [initialSched] at ho ⊢
    rw [remaining_map_some, collect_specs]
    obtain ⟨g, hg, hfirst⟩ := (collect_pending files o).mp ho
    obtain ⟨s, hs, hn⟩ := flattenGroup_first g o hfirst
    exact (mem_specObjs o _).mpr ⟨s, by
      simp only [flattened, List.mem_flatMap]; exact ⟨g, hg, hs⟩, hn⟩
  · simp only [initialSched]
    rw [remaining_map_some, collect_specs]
    exact h

/-- Claim C3: on acyclic input the list built by the collection loop is the
flattened declaration list (one declaration per name, each name with the
initializer at its own position when there is one), the scheduling loop ends
within one more iteration than there are declarations, and the sequence it hands
to `translateSpec` is a permutation of the flattened list, with one entry per
declared name. -/
theorem schedule_permutation (files : List File) (h : Acyclic (flattened files)) :
    (collect files).specs = flattened files ∧
    ∃ out : List ValueSpec,
      (∀ fuel, (flattened files).length < fuel → schedule fuel files = some out) ∧
      out.Perm (flattened files) ∧
      out.length = ((constVarSpecs files).map (fun g => g.Names.length)).sum := by
  refine ⟨collect_specs files, ?_⟩
  have hinv := initialSched_inv files h
  have hrem : remaining (initialSched files).2 = flattened files := by
    simp only [initialSched]
    rw [remaining_map_some, collect_specs]
  obtain ⟨y, hy1, hy2, _⟩ := scheduleLoop_terminates ((flattened files).length + 1)
    (initialSched files) hinv (by rw [hrem]; omega)
  have hperm : y.1.emitted.Perm (flattened files) := by
    rw [hrem] at hy2
    simpa [initialSched] using hy2
  refine ⟨y.1.emitted, ?_, hperm, ?_⟩
  · intro fuel hf
    have := scheduleLoop_mono _ _ _ hy1 fuel (by omega)
    simp [schedule, this]
  · rw [hperm.length_eq]
    have hg : ∀ g : ValueSpec, (flattenGroup g).length = g.Names.length := by
      intro g; simp [flattenGroup]
    simp only [flattened, List.length_flatMap]
    congr 1
    exact List.map_congr_left (fun g _ => hg g)

theorem initialSched_cycle (files : List File) (A B : ObjId)
    (hA : ∃ g ∈ constVarSpecs files, firstObj g = some A)
    (hB : ∃ g ∈ constVarSpecs files, firstObj g = some B)
    (hAB : ∀ s ∈ flattened files, (∃ n ∈ s.Names, n.obj = A) → B ∈ s.refs)
    (hBA : ∀ s ∈ flattened files, (∃ n ∈ s.Names, n.obj = B) → A ∈ s.refs) :
    CycleInv A B (initialSched files) := by
  have hmem : ∀ s, some s ∈ (initialSched files).2 → s ∈ flattened files := by
    intro s hs
    simpa [initialSched, collect_specs] using hs
  refine ⟨(collect_pending files A).mpr hA, (collect_pending files B).mpr hB,
    fun s hs => hAB s (hmem s hs), fun s hs => hBA s (hmem s hs), ?_, ?_⟩
  · intro s hs
    simp [initialSched] at hs
  · obtain ⟨g, hg, hfirst⟩ := hA
    obtain ⟨s, hs, hn⟩ := flattenGroup_first g A hfirst
    refine ⟨s, ?_, hn⟩
    simp only [initialSched, collect_specs, List.mem_map, Option.some.injEq, exists_eq_right]
    simp only [flattened, List.mem_flatMap]
    exact ⟨g, hg, hs⟩

/-- Claim C2 as the code has it: when `A` and `B` are each the first name of a
group, every declaration of `A` refers to `B` and every declaration of `B`
refers to `A`, no pass of the scheduling loop hands a declaration of `A` or of
`B` to `translateSpec`; but the loop does not stop and reports nothing: every
pass leaves `complete` false, so no number of iterations ends it. -/
theorem schedule_cyclic_pair (files : List File) (A B : ObjId)
    (hA : ∃ g ∈ constVarSpecs files, firstObj g = some A)
    (hB : ∃ g ∈ constVarSpecs files, firstObj g = some B)
    (hAB : ∀ s ∈ flattened files, (∃ n ∈ s.Names, n.obj = A) → B ∈ s.refs)
    (hBA : ∀ s ∈ flattened files, (∃ n ∈ s.Names, n.obj = B) → A ∈ s.refs) :
    (∀ fuel, schedule fuel files = none) ∧
    (∀ k, (passes (k + 1) (initialSched files)).1.complete = false) ∧
    (∀ k, ∀ s ∈ (passes k (initialSched files)).1.emitted,
      ∀ n ∈ s.Names, n.obj ≠ A ∧ n.obj ≠ B) := by
  have hinv := initialSched_cycle files A B hA hB hAB hBA
  refine ⟨?_, ?_, ?_⟩
  · intro fuel
    simp [schedule, scheduleLoop_cycle A B fuel _ hinv]
  · intro k
    have : ∀ (k : Nat) (x : Sched × List (Option ValueSpec)), CycleInv A B x →
        (passes (k + 1) x).1.complete = false := by
      intro k
      induction k with
      | zero => intro x hx; exact (pass_cycle A B x hx).2
      | succ k ih => intro x hx; exact ih _ (pass_cycle A B x hx).1
    exact this k _ hinv
  · intro k
    exact (passes_cycle A B k _ hinv).clean

/-- The cyclic pair `var A = B; var B = A` satisfies the hypotheses of
`schedule_cyclic_pair`, and its conclusion holds there. -/
theorem schedule_cyclic_pair_witness :
    ((∃ g ∈ constVarSpecs cyclicPair, firstObj g = some 1) ∧
     (∃ g ∈ constVarSpecs cyclicPair, firstObj g = some 2) ∧
     (∀ s ∈ flattened cyclicPair, (∃ n ∈ s.Names, n.obj = 1) → 2 ∈ s.refs) ∧
     (∀ s ∈ flattened cyclicPair, (∃ n ∈ s.Names, n.obj = 2) → 1 ∈ s.refs)) ∧
    ((∀ fuel, schedule fuel cyclicPair = none) ∧
     (∀ k, (passes (k + 1) (initialSched cyclicPair)).1.complete = false) ∧
     (∀ k, ∀ s ∈ (passes k (initialSched cyclicPair)).1.emitted,
       ∀ n ∈ s.Names, n.obj ≠ 1 ∧ n.obj ≠ 2)) :=
  ⟨⟨by decide, by decide, by decide, by decide⟩,
    schedule_cyclic_pair cyclicPair 1 2 (by decide) (by decide) (by decide) (by decide)⟩

/-- Against claim C2 as stated: for `var A = B; var B = A` the scheduling loop
does not stop, whatever the number of iterations allowed; it returns nothing and
so reports no error. -/
theorem schedule_cyclic_pair_never_stops :
    ¬ ∃ fuel, (schedule fuel cyclicPair).isSome = true := by
  rintro ⟨fuel, h⟩
  have hinv := initialSched_cycle cyclicPair 1 2 (by decide) (by decide) (by decide) (by decide)
  simp [schedule, scheduleLoop_cycle 1 2 fuel _ hinv] at h

/-- Claim C1 fails on the code, which marks `s.Names[0]` pending for every name
of a group, so that a second name is never pending: for `var a = y` followed by
`var x, y = 1, 2`, whose dependencies are acyclic, the scheduling loop ends in
its first pass and hands over `a`, `x`, `y` in this order, although the
initializer of `a` refers to `y` (object 3), which is handed over last.  A first
name is ordered as claimed: `const A = B + 1` before `const B = 2` is handed
over as `B`, `A`. -/
theorem schedule_grouped_second_name :
    Acyclic (flattened groupedSecondName) ∧
    (schedule 1 groupedSecondName).map
        (fun out => out.map (fun s => (specNames [s], specObjs [s], s.refs)))
      = some [(["a"], [1], [3]), (["x"], [2], []), (["y"], [3], [])] ∧
    (schedule 2 constantsOutOfOrder).map specNames = some ["B", "A"] := by
  refine ⟨⟨fun o => if o = 1 then 1 else 0, by decide⟩, by decide, by decide⟩

/-- The input `const A = B + 1; const B = 2` is acyclic, and the conclusion of
`schedule_permutation` holds there. -/
theorem schedule_permutation_witness :
    Acyclic (flattened constantsOutOfOrder) ∧
    ((collect constantsOutOfOrder).specs = flattened constantsOutOfOrder ∧
      ∃ out : List ValueSpec,
        (∀ fuel, (flattened constantsOutOfOrder).length < fuel →
          schedule fuel constantsOutOfOrder = some out) ∧
        out.Perm (flattened constantsOutOfOrder) ∧
        out.length = ((constVarSpecs constantsOutOfOrder).map (fun g => g.Names.length)).sum) :=
  ⟨⟨fun o => if o = 1 then 1 else 0, by decide⟩,
    schedule_permutation constantsOutOfOrder ⟨fun o => if o = 1 then 1 else 0, by decide⟩⟩

/-! ## The implementer list -/

theorem stringGE_iff (a x : String) : stringGE a x = true ↔ x ≤ a := by
  simp [stringGE, String.le_iff_toList_le]

/-- The binary search on a monotone predicate returns its first true index. -/
theorem searchLoop_spec (f : Nat → Bool) (n : Nat)
    (hmono : ∀ k k2, k ≤ k2 → k2 < n → f k = true → f k2 = true) :
    ∀ fuel i j, j - i ≤ fuel → i ≤ j → j ≤ n →
      (∀ k, k < i → f k = false) → (∀ k, j ≤ k → k < n → f k = true) →
      (searchLoop f fuel i j ≤ n ∧
        (∀ k, k < searchLoop f fuel i j → f k = false) ∧
        (∀ k, searchLoop f fuel i j ≤ k → k < n → f k = true)) := by
  intro fuel
  induction fuel with
  | zero =>
    intro i j hf hij hjn hlo hhi
    have : i = j := by omega
    subst this
    simp only [searchLoop]
    exact ⟨hjn, hlo, hhi⟩
  | succ fuel ih =>
    intro i j hf hij hjn hlo hhi
    unfold searchLoop
    by_cases hlt : i < j
    · simp only [hlt, if_true]
      have hh1 : i ≤ i + (j - i) / 2 := by omega
      have hh2 : i + (j - i) / 2 < j := by omega
      cases hfh : f (i + (j - i) / 2) with
      | false =>
        simp only [Bool.not_false, if_true]
        apply ih _ _ (by omega) (by omega) hjn _ hhi
        intro k hk
        cases hfk : f k with
        | false => rfl
        | true =>
          have := hmono k (i + (j - i) / 2) (by omega) (by omega) hfk
          rw [hfh] at this; cases this
      | true =>
        simp only [Bool.not_true]
        apply ih _ _ (by omega) (by omega) (by omega) hlo
        intro k hk hkn
        exact hmono _ k hk hkn hfh
    · have : i = j := by omega
      subst this
      simp only [hlt, if_false]
      exact ⟨hjn, hlo, hhi⟩

theorem SearchStrings_spec (a : List String) (x : String)
    (hs : a.Sorted (fun u v => u ≤ v)) :
    SearchStrings a x ≤ a.length ∧
      (∀ k, k < SearchStrings a x → ¬ x ≤ a.getD k "") ∧
      (∀ k, SearchStrings a x ≤ k → k < a.length → x ≤ a.getD k "") := by
  have hmono : ∀ k k2, k ≤ k2 → k2 < a.length →
      stringGE (a.getD k "") x = true → stringGE (a.getD k2 "") x = true := by
    intro k k2 hk hk2 h
    rw [stringGE_iff] at h ⊢
    rcases Nat.eq_or_lt_of_le hk with heq | hlt
    · subst heq; exact h
    · have hk1 : k < a.length := by omega
      have := List.pairwise_iff_getElem.mp hs k k2 hk1 hk2 hlt
      rw [List.getD_eq_getElem _ _ hk1] at h
      rw [List.getD_eq_getElem _ _ hk2]
      exact le_trans h this
  have := searchLoop_spec (fun i => stringGE (a.getD i "") x) a.length hmono a.length 0 a.length
    (by omega) (by omega) (le_refl _) (by intro k hk; omega) (by intro k hk hk2; omega)
  obtain ⟨h1, h2, h3⟩ := this
  refine ⟨h1, ?_, ?_⟩
  · intro k hk
    have := h2 k hk
    intro hle
    rw [← stringGE_iff] at hle
    simp only at this
    rw [this] at hle; cases hle
  · intro k hk hkn
    have := h3 k hk hkn
    exact (stringGE_iff _ _).mp this

/-- On a strictly ascending list the test of `translateSpec` after
`sort.SearchStrings` holds exactly when the name is absent. -/
theorem search_absent_iff (a : List String) (x : String)
    (hs : a.Sorted (fun u v => u < v)) :
    (SearchStrings a x == a.length || a.getD (SearchStrings a x) "" != x) = true ↔ x ∉ a := by
  have hle : a.Sorted (fun u v => u ≤ v) := hs.imp (fun h => le_of_lt h)
  obtain ⟨h1, h2, h3⟩ := SearchStrings_spec a x hle
  constructor
  · intro hc hx
    obtain ⟨k, hk, hkx⟩ := List.getElem_of_mem hx
    have hrk : SearchStrings a x ≤ k := by
      by_contra hcon
      have := h2 k (by omega)
      rw [List.getD_eq_getElem _ _ hk, hkx] at this
      exact this (le_refl _)
    have hrn : SearchStrings a x < a.length := by omega
    have hxr := h3 _ (le_refl _) hrn
    rw [List.getD_eq_getElem _ _ hrn] at hxr
    have hrx : a[SearchStrings a x] ≤ x := by
      rcases Nat.eq_or_lt_of_le hrk with heq | hlt
      · simp only [heq, hkx, le_refl]
      · have := List.pairwise_iff_getElem.mp hle _ k hrn hk hlt
        rw [hkx] at this; exact this
    have heq : a[SearchStrings a x] = x := le_antisymm hrx hxr
    rw [Bool.or_eq_true] at hc
    rcases hc with h | h
    · have := beq_iff_eq.mp h
      omega
    · rw [List.getD_eq_getElem _ _ hrn, heq] at h
      simp at h
  · intro hx
    by_cases hrn : SearchStrings a x < a.length
    · have : a.getD (SearchStrings a x) "" ≠ x := by
        rw [List.getD_eq_getElem _ _ hrn]
        intro h; exact hx (h ▸ List.getElem_mem _)
      rw [Bool.or_eq_true]
      exact Or.inr (bne_iff_ne.mpr this)
    · have : SearchStrings a x = a.length := by omega
      simp [this]

theorem sortStrings_perm (a : List String) : (sortStrings a).Perm a :=
  List.perm_insertionSort _ a

theorem sortStrings_sorted (a : List String) : (sortStrings a).Sorted (fun u v => u ≤ v) := by
  have htot : IsTotal String (fun x y => x.toList ≤ y.toList) :=
    ⟨fun x y => le_total x.toList y.toList⟩
  have htr : IsTrans String (fun x y => x.toList ≤ y.toList) :=
    ⟨fun x y z h1 h2 => le_trans h1 h2⟩
  have := List.sorted_insertionSort (fun x y : String => x.toList ≤ y.toList) a
  exact this.imp (fun h => String.le_iff_toList_le.mpr h)

theorem sortStrings_strict (a : List String) (hnd : a.Nodup) :
    (sortStrings a).Sorted (fun u v => u < v) := by
  have h1 := sortStrings_sorted a
  have h2 : (sortStrings a).Nodup := (sortStrings_perm a).nodup_iff.mpr hnd
  exact (List.Pairwise.and h1 h2).imp (fun h => lt_of_le_of_ne h.1 h.2)

theorem implementedByStep_spec (A : GoType → GoType → Bool) (t : GoType) (acc : List String)
    (o : Object) (hs : acc.Sorted (fun u v => u < v)) :
    (implementedByStep A t acc o).Sorted (fun u v => u < v) ∧
      ∀ n, n ∈ implementedByStep A t acc o ↔
        (n ∈ acc ∨ ∃ ty, o = Object.TypeName n ty ∧ A ty t = true) := by
  cases o with
  | Other nm =>
    refine ⟨hs, ?_⟩
    intro n
    simp [implementedByStep]
  | TypeName name ty =>
    have habs := search_absent_iff acc name hs
    simp only [implementedByStep]
    by_cases hc : ((SearchStrings acc name == acc.length ||
        acc.getD (SearchStrings acc name) "" != name) && A ty t) = true
    · rw [if_pos hc]
      rw [Bool.and_eq_true] at hc
      have hnot : name ∉ acc := habs.mp hc.1
      have hnd : (acc ++ [name]).Nodup := by
        rw [List.nodup_append]
        refine ⟨hs.nodup, List.nodup_singleton _, ?_⟩
        intro x hx hx2
        simp at hx2
        subst hx2
        exact hnot hx
      refine ⟨sortStrings_strict _ hnd, ?_⟩
      intro n
      rw [(sortStrings_perm _).mem_iff]
      simp only [List.mem_append, List.mem_singleton, Object.TypeName.injEq]
      constructor
      · rintro (h | h)
        · exact Or.inl h
        · exact Or.inr ⟨ty, ⟨h.symm, rfl⟩, hc.2⟩
      · rintro (h | ⟨ty2, ⟨h1, _⟩, _⟩)
        · exact Or.inl h
        · exact Or.inr h1.symm
    · rw [if_neg hc]
      refine ⟨hs, ?_⟩
      intro n
      constructor
      · exact Or.inl
      · rintro (h | ⟨ty2, h1, h2⟩)
        · exact h
        · simp only [Object.TypeName.injEq] at h1
          obtain ⟨h1a, h1b⟩ := h1
          subst h1a; subst h1b
          rw [Bool.and_eq_true, not_and_or] at hc
          rcases hc with hc | hc
          · exact not_not.mp (fun hh => hc (habs.mpr hh))
          · exact absurd h2 hc

theorem implementedBy_fold (A : GoType → GoType → Bool) (t : GoType) (objects : List Object) :
    ∀ acc : List String, acc.Sorted (fun u v => u < v) →
      (objects.foldl (implementedByStep A t) acc).Sorted (fun u v => u < v) ∧
      ∀ n, n ∈ objects.foldl (implementedByStep A t) acc ↔
        (n ∈ acc ∨ ∃ ty, Object.TypeName n ty ∈ objects ∧ A ty t = true) := by
  induction objects with
  | nil =>
    intro acc hs
    refine ⟨hs, ?_⟩
    intro n
    simp
  | cons o rest ih =>
    intro acc hs
    obtain ⟨h1, h2⟩ := implementedByStep_spec A t acc o hs
    obtain ⟨h3, h4⟩ := ih _ h1
    refine ⟨h3, ?_⟩
    intro n
    rw [List.foldl_cons, h4, h2]
    constructor
    · rintro ((h | ⟨ty, h, ha⟩) | ⟨ty, h, ha⟩)
      · exact Or.inl h
      · exact Or.inr ⟨ty, by rw [h]; exact List.mem_cons_self _ _, ha⟩
      · exact Or.inr ⟨ty, List.mem_cons_of_mem _ h, ha⟩
    · rintro (h | ⟨ty, h, ha⟩)
      · exact Or.inl (Or.inl h)
      · rcases List.mem_cons.mp h with h | h
        · exact Or.inl (Or.inr ⟨ty, h.symm, ha⟩)
        · exact Or.inr ⟨ty, h, ha⟩

/-- The implementer list is strictly ascending and holds exactly the names of
the assignable type-name objects visited. -/
theorem implementedBy_spec (A : GoType → GoType → Bool) (t : GoType) (objects : List Object) :
    (implementedBy A t objects).Sorted (fun u v => u < v) ∧
      ∀ n, n ∈ implementedBy A t objects ↔
        ∃ ty, Object.TypeName n ty ∈ objects ∧ A ty t = true := by
  obtain ⟨h1, h2⟩ := implementedBy_fold A t objects [] List.sorted_nil
  refine ⟨h1, ?_⟩
  intro n
  rw [implementedBy, h2]
  simp

theorem implementedBy_congr (A : GoType → GoType → Bool) (t : GoType)
    (objects objects2 : List Object) (h : ∀ o, o ∈ objects ↔ o ∈ objects2) :
    implementedBy A t objects = implementedBy A t objects2 := by
  obtain ⟨h1, h2⟩ := implementedBy_spec A t objects
  obtain ⟨h3, h4⟩ := implementedBy_spec A t objects2
  apply List.eq_of_perm_of_sorted _ h1 h3
  rw [List.perm_ext_iff_of_nodup h1.nodup h3.nodup]
  intro n
  rw [h2, h4]
  constructor
  · rintro ⟨ty, hm, ha⟩; exact ⟨ty, (h _).mp hm, ha⟩
  · rintro ⟨ty, hm, ha⟩; exact ⟨ty, (h _).mpr hm, ha⟩

/-- Claim C4: for every visiting order `objects` (repeats allowed) the list
`implementedBy` is strictly ascending, hence free of duplicates, and holds
exactly the names of the type-name objects whose type is assignable to the
interface; so two visiting orders of the same objects give the same list and the
same emitted text. -/
theorem implementedBy_sorted_exact (c : PkgContext) (IsAssignableTo : GoType → GoType → Bool)
    (t : GoType) (name : String) (objects : List Object) :
    (implementedBy IsAssignableTo t objects).Sorted (fun u v => u < v) ∧
    (implementedBy IsAssignableTo t objects).Nodup ∧
    (∀ n, n ∈ implementedBy IsAssignableTo t objects ↔
      ∃ ty, Object.TypeName n ty ∈ objects ∧ IsAssignableTo ty t = true) ∧
    (∀ objects2 : List Object, (∀ o, o ∈ objects ↔ o ∈ objects2) →
      implementedBy IsAssignableTo t objects2 = implementedBy IsAssignableTo t objects ∧
      translateSpecInterface c IsAssignableTo objects2 name t
        = translateSpecInterface c IsAssignableTo objects name t) := by
  obtain ⟨h1, h2⟩ := implementedBy_spec IsAssignableTo t objects
  refine ⟨h1, h1.nodup, h2, ?_⟩
  intro objects2 h
  have := implementedBy_congr IsAssignableTo t objects objects2 h
  refine ⟨this.symm, ?_⟩
  unfold translateSpecInterface
  rw [this]

theorem Join_cons_head (x : String) (xs : List String) (sep : String) :
    ∃ s, Join (x :: xs) sep = x ++ s := by
  cases xs with
  | nil => exact ⟨"", by simp [Join]⟩
  | cons y ys => exact ⟨sep ++ Join (y :: ys) sep, by simp [Join, String.append_assoc]⟩

theorem comparison_ne_false (s : String) : "t === " ++ s ≠ "false" := by
  intro h
  have := congrArg String.data h
  simp [String.data_append] at this

theorem comparison_inj (a b : String) : "t === " ++ a = "t === " ++ b ↔ a = b := by
  constructor
  · intro h
    have := congrArg String.data h
    simp only [String.data_append, List.append_cancel_left_eq] at this
    exact String.ext this
  · intro h; rw [h]

theorem interfaceConditions_cons (a : String) (rest : List String) :
    interfaceConditions (a :: rest) = (a :: rest).map (fun other => "t === " ++ other) := by
  simp [interfaceConditions]

theorem conditionHolds_iff (impl : List String) (tag : String) :
    conditionHolds (interfaceConditions impl) tag = true ↔ tag ∈ impl := by
  cases impl with
  | nil =>
    simp only [interfaceConditions, conditionHolds, disjunctHolds, List.map_nil, List.length_nil,
      if_true, List.any_cons, List.any_nil, Bool.or_false, beq_iff_eq, List.not_mem_nil, iff_false]
    exact fun h => comparison_ne_false tag h.symm
  | cons a rest =>
    rw [interfaceConditions_cons]
    simp only [conditionHolds, disjunctHolds, List.any_eq_true, List.mem_map, beq_iff_eq]
    constructor
    · rintro ⟨x, ⟨n, hn, rfl⟩, hx⟩
      rw [comparison_inj] at hx
      exact hx ▸ hn
    · intro h
      exact ⟨_, ⟨tag, h, rfl⟩, rfl⟩

theorem condition_false_iff (impl : List String) :
    Join (interfaceConditions impl) " || " = "false" ↔ impl = [] := by
  cases impl with
  | nil => simp [interfaceConditions, Join]
  | cons a rest =>
    rw [interfaceConditions_cons]
    simp only [List.map_cons, reduceCtorEq, iff_false]
    obtain ⟨s, hs⟩ := Join_cons_head ("t === " ++ a)
      (rest.map (fun other => "t === " ++ other)) " || "
    rw [hs, String.append_assoc]
    exact comparison_ne_false _

/-- Claim C5: for an interface with a non-empty method set the emitted text is
`var <name> = function(t) { return <condition> };` where the condition is the
` || `-join of the comparisons `t === <implementer>` in list order, and is the
text `false` exactly when there is no implementer; read as a test of the type
tag, it holds for a tag exactly when the tag names an implementer, that is a
type-name object whose type is assignable to the interface.  With `A` assignable
and `B` not, the condition is `t === A`, true for `A` and false for `B`. -/
theorem interface_predicate (c : PkgContext) (IsAssignableTo : GoType → GoType → Bool)
    (objects : List Object) (name : String) (t : GoType) (hlen : methodSetLen t ≠ 0) :
    translateSpecInterface c IsAssignableTo objects name t
      = c.Printf ("var " ++ name ++ " = function(t) \x7b return " ++
          Join (interfaceConditions (implementedBy IsAssignableTo t objects)) " || " ++ " \x7d;") ∧
    (implementedBy IsAssignableTo t objects ≠ [] →
      interfaceConditions (implementedBy IsAssignableTo t objects)
        = (implementedBy IsAssignableTo t objects).map (fun other => "t === " ++ other)) ∧
    (Join (interfaceConditions (implementedBy IsAssignableTo t objects)) " || " = "false"
      ↔ implementedBy IsAssignableTo t objects = []) ∧
    (∀ tag, conditionHolds (interfaceConditions (implementedBy IsAssignableTo t objects)) tag = true
      ↔ tag ∈ implementedBy IsAssignableTo t objects) ∧
    (∀ tag, conditionHolds (interfaceConditions (implementedBy IsAssignableTo t objects)) tag = true
      ↔ ∃ ty, Object.TypeName tag ty ∈ objects ∧ IsAssignableTo ty t = true) ∧
    (∀ tA tB : GoType, IsAssignableTo tA t = true → IsAssignableTo tB t = false →
      Join (interfaceConditions
          (implementedBy IsAssignableTo t [Object.TypeName "A" tA, Object.TypeName "B" tB])) " || "
        = "t === A" ∧
      conditionHolds (interfaceConditions
          (implementedBy IsAssignableTo t [Object.TypeName "A" tA, Object.TypeName "B" tB])) "A"
        = true ∧
      conditionHolds (interfaceConditions
          (implementedBy IsAssignableTo t [Object.TypeName "A" tA, Object.TypeName "B" tB])) "B"
        = false) := by
  refine ⟨?_, ?_, condition_false_iff _, conditionHolds_iff _, ?_, ?_⟩
  · unfold translateSpecInterface
    rw [if_neg hlen]
  · intro h
    cases himpl : implementedBy IsAssignableTo t objects with
    | nil => exact absurd himpl h
    | cons a rest => exact interfaceConditions_cons a rest
  · intro tag
    rw [conditionHolds_iff]
    exact (implementedBy_spec IsAssignableTo t objects).2 tag
  · intro tA tB hA hB
    have himpl : implementedBy IsAssignableTo t [Object.TypeName "A" tA, Object.TypeName "B" tB]
        = ["A"] := by
      have e1 : SearchStrings [] "A" = 0 := by decide
      have e2 : SearchStrings ["A"] "B" = 1 := by decide
      have e3 : sortStrings ["A"] = ["A"] := by decide
      simp [implementedBy, implementedByStep, hA, hB, e1, e2, e3]
    rw [himpl]
    refine ⟨by decide, by decide, by decide⟩

/-- The interface `I` has a method, and for the objects of the example the
emitted text is the predicate with the single comparison `t === A`. -/
theorem interface_predicate_witness :
    methodSetLen interfaceI ≠ 0 ∧
    translateSpecInterface exampleContext assignableA objectsAB "I" interfaceI
      = exampleContext.Printf ("var " ++ "I" ++ " = function(t) \x7b return " ++
          Join (interfaceConditions (implementedBy assignableA interfaceI objectsAB)) " || "
          ++ " \x7d;") :=
  ⟨by decide,
    (interface_predicate exampleContext assignableA objectsAB "I" interfaceI (by decide)).1⟩

/-- Two visiting orders of the same objects give the same implementer list. -/
theorem implementedBy_sorted_exact_witness :
    (∀ o, o ∈ objectsAB ↔ o ∈ objectsBA) ∧
    implementedBy assignableA interfaceI objectsBA
      = implementedBy assignableA interfaceI objectsAB := by
  have h : ∀ o, o ∈ objectsAB ↔ o ∈ objectsBA := by
    intro o
    simp only [objectsAB, objectsBA, List.mem_cons, List.mem_singleton, List.not_mem_nil,
      or_false]
    tauto
  exact ⟨h, ((implementedBy_sorted_exact exampleContext assignableA interfaceI "I"
    objectsAB).2.2.2 objectsBA h).1⟩

/-! ## Zero values -/

theorem typeName_named (c : PkgContext) (pkg : Option String) (name : String) (u : GoType) :
    ∃ n, c.typeName (.Named pkg name u) = some n ∧
      ((pkg = none ∨ pkg = some c.pkg) → n = name) := by
  cases pkg with
  | none => exact ⟨name, by simp [PkgContext.typeName], fun _ => rfl⟩
  | some path =>
    by_cases h : path = c.pkg
    · exact ⟨name, by simp [PkgContext.typeName, h], fun _ => rfl⟩
    · refine ⟨c.pkgVars path ++ "." ++ name, by simp [PkgContext.typeName, h], ?_⟩
      rintro (h1 | h1)
      · cases h1
      · exact absurd (Option.some.inj h1) h

mutual
/-- The method `zeroValue` never panics. -/
theorem zeroValue_total (c : PkgContext) : ∀ t : GoType, ∃ z, c.zeroValue t = some z
  | .Basic k => by
    unfold PkgContext.zeroValue
    split_ifs <;> exact ⟨_, rfl⟩
  | .Array e n => ⟨_, by unfold PkgContext.zeroValue; rfl⟩
  | .Named pkg name ut => by
    obtain ⟨n, hn, -⟩ := typeName_named c pkg name ut
    cases ut with
    | Struct fields =>
      obtain ⟨zs, hzs⟩ := zeroValues_total c fields
      unfold PkgContext.zeroValue; simp [hzs, hn]
    | Slice e => unfold PkgContext.zeroValue; simp [hn]
    | Basic k =>
      obtain ⟨z, hz⟩ := zeroValue_total c (.Basic k)
      unfold PkgContext.zeroValue; simp [hn, hz]
    | Named p2 n2 u2 =>
      obtain ⟨z, hz⟩ := zeroValue_total c (.Named p2 n2 u2)
      unfold PkgContext.zeroValue; simp [hn, hz]
    | Array e l =>
      obtain ⟨z, hz⟩ := zeroValue_total c (.Array e l)
      unfold PkgContext.zeroValue; simp [hn, hz]
    | Map k e =>
      obtain ⟨z, hz⟩ := zeroValue_total c (.Map k e)
      unfold PkgContext.zeroValue; simp [hn, hz]
    | Pointer e =>
      obtain ⟨z, hz⟩ := zeroValue_total c (.Pointer e)
      unfold PkgContext.zeroValue; simp [hn, hz]
    | Interface ms =>
      obtain ⟨z, hz⟩ := zeroValue_total c (.Interface ms)
      unfold PkgContext.zeroValue; simp [hn, hz]
    | Chan e =>
      obtain ⟨z, hz⟩ := zeroValue_total c (.Chan e)
      unfold PkgContext.zeroValue; simp [hn, hz]
    | Signature ps v =>
      obtain ⟨z, hz⟩ := zeroValue_total c (.Signature ps v)
      unfold PkgContext.zeroValue; simp [hn, hz]
    | Builtin b =>
      obtain ⟨z, hz⟩ := zeroValue_total c (.Builtin b)
      unfold PkgContext.zeroValue; simp [hn, hz]
  | .Struct _ => ⟨_, by unfold PkgContext.zeroValue; rfl⟩
  | .Slice _ => ⟨_, by unfold PkgContext.zeroValue; rfl⟩
  | .Map _ _ => ⟨_, by unfold PkgContext.zeroValue; rfl⟩
  | .Pointer _ => ⟨_, by unfold PkgContext.zeroValue; rfl⟩
  | .Interface _ => ⟨_, by unfold PkgContext.zeroValue; rfl⟩
  | .Chan _ => ⟨_, by unfold PkgContext.zeroValue; rfl⟩
  | .Signature _ _ => ⟨_, by unfold PkgContext.zeroValue; rfl⟩
  | .Builtin _ => ⟨_, by unfold PkgContext.zeroValue; rfl⟩
/-- The loop over the fields of a struct never panics. -/
theorem zeroValues_total (c : PkgContext) : ∀ fs : List Var, ∃ zs, c.zeroValues fs = some zs
  | [] => ⟨[], by unfold PkgContext.zeroValues; rfl⟩
  | .mk _ _ t :: rest => by
    obtain ⟨z, hz⟩ := zeroValue_total c t
    obtain ⟨zs, hzs⟩ := zeroValues_total c rest
    exact ⟨z :: zs, by unfold PkgContext.zeroValues; simp [hz, hzs]⟩
end

theorem zeroValues_spec (c : PkgContext) (fs : List Var) (zs : List String)
    (h : c.zeroValues fs = some zs) :
    zs.length = fs.length ∧ fs.map (fun f => c.zeroValue f.Type_) = zs.map some := by
  induction fs generalizing zs with
  | nil =>
    unfold PkgContext.zeroValues at h
    cases h; simp
  | cons f rest ih =>
    cases f with
    | mk fname anon t =>
      unfold PkgContext.zeroValues at h
      cases hz : c.zeroValue t with
      | none => simp [hz] at h
      | some z =>
        cases hr : c.zeroValues rest with
        | none => simp [hz, hr] at h
        | some zr =>
          simp [hz, hr] at h
          subst h
          obtain ⟨h1, h2⟩ := ih zr hr
          refine ⟨by simp [h1], ?_⟩
          rw [List.map_cons, List.map_cons, h2]
          show c.zeroValue t :: _ = _
          rw [hz]

/-- Claim C6: for a named type whose underlying type is a struct with the fields
`fields`, `zeroValue` returns `new <typeName(T)>(<zeros>)` where `zeros` holds,
in field order, the zero value of the type of each field (one per field, joined
by `, `); for `T` with underlying `struct {A int; B string}` the result is
`new T(0, "")`. -/
theorem zeroValue_named_struct (c : PkgContext) (pkg : Option String) (name : String)
    (fields : List Var) :
    ∃ (zeros : List String) (n : String),
      zeros.length = fields.length ∧
      fields.map (fun f => c.zeroValue f.Type_) = zeros.map some ∧
      c.typeName (.Named pkg name (.Struct fields)) = some n ∧
      c.zeroValue (.Named pkg name (.Struct fields))
        = some ("new " ++ n ++ "(" ++ Join zeros ", " ++ ")") ∧
      c.zeroValue (.Named (some c.pkg) "T"
          (.Struct [.mk "A" false (.Basic .Int), .mk "B" false (.Basic .String)]))
        = some "new T(0, \"\")" := by
  obtain ⟨zs, hzs⟩ := zeroValues_total c fields
  obtain ⟨n, hn, -⟩ := typeName_named c pkg name (.Struct fields)
  obtain ⟨h1, h2⟩ := zeroValues_spec c fields zs hzs
  refine ⟨zs, n, h1, h2, hn, ?_, ?_⟩
  · unfold PkgContext.zeroValue; simp [hzs, hn]
  · simp [PkgContext.zeroValue, PkgContext.zeroValues, PkgContext.typeName, IsNumeric, IsInteger,
      IsFloat, IsComplex, IsString, Join]

/-- Claim C7: for a named type whose underlying type is a slice with element
type `elem`, `zeroValue` returns `new <n>(Go$clear(new <toTypedArray(elem)>(0)))`
where `n` is what `typeName` gives for the type, which is its declared name when
the type belongs to the package being translated or to no package; the length of
the wrapped buffer is 0 whatever the element type.  For `type Buf []byte` the
result is `new Buf(Go$clear(new Uint8Array(0)))`. -/
theorem zeroValue_named_slice (c : PkgContext) (pkg : Option String) (name : String)
    (elem : GoType) :
    ∃ n : String,
      c.typeName (.Named pkg name (.Slice elem)) = some n ∧
      ((pkg = none ∨ pkg = some c.pkg) → n = name) ∧
      c.zeroValue (.Named pkg name (.Slice elem))
        = some ("new " ++ n ++ "(Go$clear(new " ++ toTypedArray elem ++ "(0)))") ∧
      c.zeroValue (.Named (some c.pkg) "Buf" (.Slice (.Basic .Uint8)))
        = some "new Buf(Go$clear(new Uint8Array(0)))" := by
  obtain ⟨n, hn, hname⟩ := typeName_named c pkg name (.Slice elem)
  refine ⟨n, hn, hname, ?_, ?_⟩
  · have h0 : toString (0 : Nat) = "0" := by decide
    unfold PkgContext.zeroValue
    simp only [hn, zeroValueArray, h0, Option.some.injEq]
    apply String.ext
    simp [String.data_append]
  · simp [PkgContext.zeroValue, PkgContext.typeName, zeroValueArray, toTypedArray]
    decide

/-! ## Call arguments -/

theorem translateArgsLoop_length (tr : ExprTranslator) (ft : Option GoType) (i : Nat)
    (args : List Expr) : (translateArgsLoop tr ft i args).length = args.length := by
  induction args generalizing i with
  | nil => rfl
  | cons a rest ih => simp [translateArgsLoop, ih]

theorem translateArgsLoop_get (tr : ExprTranslator) (ft : Option GoType) (i : Nat)
    (args : List Expr) (j : Nat) :
    (translateArgsLoop tr ft i args)[j]? = (args[j]?).map (translateArg tr ft (i + j)) := by
  induction args generalizing i j with
  | nil => simp [translateArgsLoop]
  | cons a rest ih =>
    cases j with
    | zero => simp [translateArgsLoop]
    | succ j =>
      simp only [translateArgsLoop, List.getElem?_cons_succ]
      rw [ih (i + 1) j]
      have hidx : i + 1 + j = i + (j + 1) := by omega
      rw [hidx]

/-- A callee reported as variadic has at least one parameter. -/
theorem getVariadicInfo_pos (ft : Option GoType) (n : Nat) (vt : Option GoType)
    (h : getVariadicInfo ft = some (true, n, vt)) : 1 ≤ n := by
  unfold getVariadicInfo at h
  split at h
  · rename_i params
    cases hl : params.getLast? with
    | none => simp [hl] at h
    | some last =>
      simp [hl] at h
      have : params ≠ [] := by
        intro hp; subst hp; simp at hl
      have := List.length_pos.mpr this
      omega
  · split_ifs at h <;> simp at h <;> omega
  · simp at h

/-- Claim C9 fails on the code for the element type `uintptr`, a basic numeric
type for which `toTypedArray` has no case: `createListComposite` then returns
`new Array([e1, ..., ek])`, which is neither a typed-array constructor of the
claim nor the plain bracketed list. -/
theorem createListComposite_uintptr :
    IsNumeric BasicKind.Uintptr = true ∧
    (∀ elements : List String,
      createListComposite (some (.Basic .Uintptr)) elements
        = "new Array([" ++ Join elements ", " ++ "])") ∧
    createListComposite (some (.Basic .Uintptr)) ["1", "2", "3"] = "new Array([1, 2, 3])" := by
  refine ⟨by decide, ?_, by decide⟩
  intro elements
  simp [createListComposite, IsNumeric, IsInteger, toTypedArray]

/-- For a call without ellipsis whose callee has a variadic signature type with
`n` parameters, and with at least `n - 1` arguments, `translateArgs` does not
panic and returns `n` arguments: the translations of the first `n - 1` call
arguments in order, followed by `new Slice(...)` around the list composite, at
the type of the last parameter, of the remaining translations. -/
theorem translateArgs_signature (tr : ExprTranslator) (call : CallExpr) (params : List Var)
    (last : Var)
    (hfun : call.Fun.type = some (.Signature params true))
    (hlast : params.getLast? = some last)
    (hell : call.Ellipsis = false)
    (hm : params.length - 1 ≤ call.Args.length) :
    ∃ args : List String,
      args.length = call.Args.length ∧
      (∀ i, args[i]? = (call.Args[i]?).map (translateArg tr call.Fun.type i)) ∧
      translateArgs tr call
        = some (args.take (params.length - 1) ++
            ["new Slice(" ++
              createListComposite (some last.Type_) (args.drop (params.length - 1)) ++ ")"]) ∧
      (args.take (params.length - 1) ++
            ["new Slice(" ++
              createListComposite (some last.Type_) (args.drop (params.length - 1)) ++ ")"]).length
        = params.length := by
  have hinfo : getVariadicInfo call.Fun.type = some (true, params.length, some last.Type_) := by
    simp [getVariadicInfo, hfun, hlast]
  have hn := getVariadicInfo_pos _ _ _ hinfo
  have hlen := translateArgsLoop_length tr call.Fun.type 0 call.Args
  refine ⟨translateArgsLoop tr call.Fun.type 0 call.Args, hlen, ?_, ?_, ?_⟩
  · intro i
    rw [translateArgsLoop_get]; simp
  · unfold translateArgs
    simp [hinfo, hell, hlen, hn, hm]
  · simp [hlen]; omega

theorem translateArgsLoop_plain (tr : ExprTranslator) (ft : Option GoType)
    (h : ∀ arg i, translateArg tr ft i arg = tr.translateExpr arg) (args : List Expr) :
    ∀ i, translateArgsLoop tr ft i args = args.map tr.translateExpr := by
  induction args with
  | nil => intro i; rfl
  | cons a rest ih => intro i; simp [translateArgsLoop, h, ih]

/-- Claim C8 fails on the code for a variadic callee of named function type:
`translateArgs` and `getVariadicInfo` test the recorded type of the callee for
`*types.Signature` without taking its underlying type, so for `f(1, 2, 3)` with
`f` of type `type F func(xs ...int32)` the callee is not reported as variadic
and the three arguments are returned one by one, not packed into one
`new Slice(...)`; the same call of a function `f(xs ...int32)` is packed.  The
same holds for every call without ellipsis to a callee of named function type,
whereas a callee whose recorded type is a variadic signature with `n`
parameters gets `n` arguments, the last of them the packed rest. -/
theorem translateArgs_named_callee :
    getVariadicInfo callNamedF123.Fun.type = some (false, 0, none) ∧
    translateArgs literalTranslator callNamedF123 = some ["1", "2", "3"] ∧
    translateArgs literalTranslator callF123 = some ["new Slice(new Int32Array([1, 2, 3]))"] ∧
    (∀ (tr : ExprTranslator) (call : CallExpr) (pkg : Option String) (name : String)
        (params : List Var) (variadic : Bool),
      call.Fun.type = some (.Named pkg name (.Signature params variadic)) →
      call.Ellipsis = false →
      translateArgs tr call = some (call.Args.map tr.translateExpr)) ∧
    (∀ (tr : ExprTranslator) (call : CallExpr) (params : List Var) (last : Var),
      call.Fun.type = some (.Signature params true) →
      params.getLast? = some last →
      call.Ellipsis = false →
      params.length - 1 ≤ call.Args.length →
      ∃ args : List String,
        args.length = call.Args.length ∧
        (∀ i, args[i]? = (call.Args[i]?).map (translateArg tr call.Fun.type i)) ∧
        translateArgs tr call
          = some (args.take (params.length - 1) ++
              ["new Slice(" ++
                createListComposite (some last.Type_) (args.drop (params.length - 1)) ++ ")"]) ∧
        (args.take (params.length - 1) ++
              ["new Slice(" ++
                createListComposite (some last.Type_) (args.drop (params.length - 1)) ++
                ")"]).length
          = params.length) := by
  refine ⟨rfl, by decide, by decide, ?_, translateArgs_signature⟩
  intro tr call pkg name params variadic hfun hell
  have hloop := translateArgsLoop_plain tr (some (.Named pkg name (.Signature params variadic)))
    (fun arg i => by simp [translateArg]) call.Args 0
  unfold translateArgs
  simp [getVariadicInfo, hfun, hell, hloop]

/-- Claim C10: for a call written with an ellipsis (the callee, if a variadic
signature, having a parameter) `translateArgs` does not panic and returns as
many arguments as the call has; every argument but the last is its translation,
and the last is its translation followed by `.toSlice()` when its type is a
basic string type and its translation otherwise.  For `append(b, s...)` with a
string `s` the result is `b`, `s.toSlice()`. -/
theorem translateArgs_ellipsis (tr : ExprTranslator) (call : CallExpr)
    (hell : call.Ellipsis = true)
    (hwf : ∀ params, call.Fun.type = some (.Signature params true) → params ≠ []) :
    ∃ result : List String,
      translateArgs tr call = some result ∧
      result.length = call.Args.length ∧
      (∀ i, i + 1 < call.Args.length →
        result[i]? = (call.Args[i]?).map (translateArg tr call.Fun.type i)) ∧
      (∀ last, call.Args[call.Args.length - 1]? = some last →
        result[call.Args.length - 1]? =
          some (if isBasicString last.type
            then translateArg tr call.Fun.type (call.Args.length - 1) last ++ ".toSlice()"
            else translateArg tr call.Fun.type (call.Args.length - 1) last)) ∧
      translateArgs literalTranslator callAppendString = some ["b", "s.toSlice()"] := by
  have hlen := translateArgsLoop_length tr call.Fun.type 0 call.Args
  have hget := translateArgsLoop_get tr call.Fun.type 0 call.Args
  have hinfo : ∃ info, getVariadicInfo call.Fun.type = some info := by
    unfold getVariadicInfo
    split
    · rename_i params heq
      cases hl : params.getLast? with
      | none =>
        have := hwf params heq
        simp at hl
        exact absurd hl this
      | some last => exact ⟨_, rfl⟩
    · split_ifs <;> exact ⟨_, rfl⟩
    · exact ⟨_, rfl⟩
  obtain ⟨⟨isV, np, vt⟩, hinfo⟩ := hinfo
  by_cases hpos : call.Args.length > 0
  · have hlt : call.Args.length - 1 < call.Args.length := by omega
    have hlast : call.Args[call.Args.length - 1]? = some (call.Args[call.Args.length - 1]) :=
      List.getElem?_eq_getElem hlt
    by_cases hs : isBasicString (call.Args[call.Args.length - 1]).type = true
    · refine ⟨(translateArgsLoop tr call.Fun.type 0 call.Args).set (call.Args.length - 1)
        ((translateArgsLoop tr call.Fun.type 0 call.Args).getD (call.Args.length - 1) ""
          ++ ".toSlice()"), ?_, ?_, ?_, ?_, by decide⟩
      · unfold translateArgs
        simp [hinfo, hell, hpos, hlast, hs]
      · simp [hlen]
      · intro i hi
        rw [List.getElem?_set_ne (by omega), hget]; simp
      · intro last hl
        rw [hlast] at hl
        cases hl
        rw [List.getElem?_set_self (by omega)]
        simp [hs, List.getD_eq_getElem?_getD, hget, hlast]
    · refine ⟨translateArgsLoop tr call.Fun.type 0 call.Args, ?_, hlen, ?_, ?_, by decide⟩
      · unfold translateArgs
        simp [hinfo, hell, hpos, hlast, hs]
      · intro i _
        rw [hget]; simp
      · intro last hl
        rw [hlast] at hl
        cases hl
        simp [hs, hget, hlast]
  · have hnil : call.Args = [] := by
      cases h : call.Args with
      | nil => rfl
      | cons a r => rw [h] at hpos; simp at hpos
    refine ⟨[], ?_, by simp [hnil], ?_, ?_, by decide⟩
    · unfold translateArgs
      simp [hinfo, hell, hnil, translateArgsLoop]
    · intro i hi; simp [hnil] at hi
    · intro last hl; simp [hnil] at hl

/-- The call `append(b, s...)` satisfies the hypotheses of
`translateArgs_ellipsis`, and its conclusion gives the two arguments. -/
theorem translateArgs_ellipsis_witness :
    (callAppendString.Ellipsis = true ∧
      ∀ params, callAppendString.Fun.type = some (GoType.Signature params true) → params ≠ []) ∧
    ∃ result : List String,
      translateArgs literalTranslator callAppendString = some result ∧
      result.length = callAppendString.Args.length := by
  have hwf : ∀ params,
      callAppendString.Fun.type = some (GoType.Signature params true) → params ≠ [] := by
    intro params h
    simp [callAppendString] at h
  obtain ⟨result, h1, h2, _⟩ := translateArgs_ellipsis literalTranslator callAppendString rfl hwf
  exact ⟨⟨rfl, hwf⟩, result, h1, h2⟩

/-! ## newVarName -/

theorem toDigitsCore_append (fuel : Nat) :
    ∀ (n : Nat) (ds : List Char),
      Nat.toDigitsCore 10 fuel n ds = Nat.toDigitsCore 10 fuel n [] ++ ds := by
  induction fuel with
  | zero => intro n ds; simp [Nat.toDigitsCore]
  | succ fuel ih =>
    intro n ds
    simp only [Nat.toDigitsCore]
    split_ifs with h
    · simp
    · rw [ih (n / 10) (Nat.digitChar (n % 10) :: ds), ih (n / 10) [Nat.digitChar (n % 10)]]
      simp

theorem digitChar_value (d : Nat) (h : d < 10) : (Nat.digitChar d).toNat - 48 = d := by
  interval_cases d <;> rfl

theorem digitsValue_append (l : List Char) (d : Char) :
    digitsValue (l ++ [d]) = digitsValue l * 10 + (d.toNat - 48) := by
  simp [digitsValue, List.foldl_append]

theorem digitsValue_toDigitsCore (fuel : Nat) :
    ∀ n, n < fuel → digitsValue (Nat.toDigitsCore 10 fuel n []) = n := by
  induction fuel with
  | zero => intro n h; omega
  | succ fuel ih =>
    intro n hn
    simp only [Nat.toDigitsCore]
    split_ifs with h
    · have hlt : n < 10 := by
        by_contra hc
        have : 1 ≤ n / 10 := (Nat.le_div_iff_mul_le (by decide)).mpr (by omega)
        omega
      have hmod : n % 10 = n := Nat.mod_eq_of_lt hlt
      simp [digitsValue, hmod, digitChar_value n hlt]
    · rw [toDigitsCore_append, digitsValue_append, ih (n / 10) (by omega),
        digitChar_value _ (Nat.mod_lt _ (by decide))]
      omega

theorem toDigits_ne_nil (n : Nat) : Nat.toDigits 10 n ≠ [] := by
  simp only [Nat.toDigits, Nat.toDigitsCore]
  split_ifs with h
  · simp
  · rw [toDigitsCore_append]; simp

/-- The decimal form of a number determines the number. -/
theorem toString_nat_inj (n m : Nat) (h : toString n = toString m) : n = m := by
  have h1 : (Nat.toDigits 10 n).asString = (Nat.toDigits 10 m).asString := h
  have h2 : Nat.toDigits 10 n = Nat.toDigits 10 m := by
    have := congrArg String.data h1
    simpa [List.asString] using this
  have hn := digitsValue_toDigitsCore (n + 1) n (by omega)
  have hm := digitsValue_toDigitsCore (m + 1) m (by omega)
  simp only [Nat.toDigits] at h2
  rw [h2] at hn
  omega

theorem toString_nat_ne_empty (n : Nat) : toString n ≠ "" := by
  intro h
  have h1 : (Nat.toDigits 10 n).asString = "" := h
  have := congrArg String.data h1
  simp [List.asString] at this
  exact toDigits_ne_nil n this

/-- Distinct counters give distinct candidate names. -/
theorem candidateName_inj (pfx : String) (n m : Nat)
    (h : candidateName pfx n = candidateName pfx m) : n = m := by
  have hcancel : ∀ a b : String, pfx ++ a = pfx ++ b → a = b := by
    intro a b hab
    have := congrArg String.data hab
    simp only [String.data_append, List.append_cancel_left_eq] at this
    exact String.ext this
  have hself : ∀ a : String, pfx = pfx ++ a → a = "" := by
    intro a ha
    have := congrArg String.data ha
    simp only [String.data_append, List.self_eq_append_right] at this
    exact String.ext this
  unfold candidateName at h
  by_cases hn : n = 0 <;> by_cases hm : m = 0
  · omega
  · simp only [hn, hm, ne_eq, not_true_eq_false, if_false, not_false_eq_true, if_true] at h
    exact absurd (hself _ h) (toString_nat_ne_empty m)
  · simp only [hn, hm, ne_eq, not_true_eq_false, if_false, not_false_eq_true, if_true] at h
    exact absurd (hself _ h.symm) (toString_nat_ne_empty n)
  · simp only [hn, hm, ne_eq, not_false_eq_true, if_true] at h
    exact toString_nat_inj n m (hcancel _ _ h)

theorem isUsed_iff (used : List String) (name : String) :
    isUsed used name = true ↔ name ∈ used := by
  induction used with
  | nil => simp [isUsed]
  | cons u rest ih =>
    simp only [isUsed, List.mem_cons]
    by_cases h : u = name
    · simp [h]
    · rw [if_neg h, ih]
      constructor
      · exact Or.inr
      · rintro (h2 | h2)
        · exact absurd h2.symm h
        · exact h2

/-- Among the first `length + 1` candidates one is not used. -/
theorem exists_unused (used : List String) (pfx : String) :
    ∃ n, n ≤ used.length ∧ candidateName pfx n ∉ used := by
  by_contra hcon
  push_neg at hcon
  have hnd : ((List.range (used.length + 1)).map (candidateName pfx)).Nodup := by
    refine List.Nodup.map ?_ (List.nodup_range _)
    intro a b hab
    exact candidateName_inj pfx a b hab
  have hsub : (List.range (used.length + 1)).map (candidateName pfx) ⊆ used := by
    intro x hx
    simp only [List.mem_map, List.mem_range] at hx
    obtain ⟨k, hk, rfl⟩ := hx
    exact hcon k (by omega)
  have := (List.subperm_of_subset hnd hsub).length_le
  simp at this

/-- The search loop from the counter `n`, when the first unused candidate at or
after `n` is `k`: it returns that candidate, with any fuel above `k - n`. -/
theorem newVarNameLoop_spec (used : List String) (pfx : String) (k : Nat)
    (hk : candidateName pfx k ∉ used) :
    ∀ (fuel n : Nat), n ≤ k → k - n < fuel →
      (∀ m, n ≤ m → m < k → candidateName pfx m ∈ used) →
      newVarNameLoop used pfx fuel n = some (candidateName pfx k, k) := by
  intro fuel
  induction fuel with
  | zero => intro n _ h; omega
  | succ fuel ih =>
    intro n hnk hf hused
    simp only [newVarNameLoop]
    by_cases hn : n = k
    · subst hn
      have : isUsed used (candidateName pfx n) = false := by
        cases h : isUsed used (candidateName pfx n)
        · rfl
        · exact absurd ((isUsed_iff _ _).mp h) hk
      simp [this]
    · have hin := hused n (le_refl _) (by omega)
      have : isUsed used (candidateName pfx n) = true := (isUsed_iff _ _).mpr hin
      simp only [this, Bool.not_true, Bool.false_eq_true, if_false]
      exact ih (n + 1) (by omega) (by omega) (fun m hm1 hm2 => hused m (by omega) hm2)

/-- The least unused candidate. -/
theorem exists_least_unused (used : List String) (pfx : String) :
    ∃ k, k ≤ used.length ∧ candidateName pfx k ∉ used ∧
      ∀ m, m < k → candidateName pfx m ∈ used := by
  obtain ⟨n, hn, hnot⟩ := exists_unused used pfx
  have hex : ∃ k, candidateName pfx k ∉ used := ⟨n, hnot⟩
  classical
  refine ⟨Nat.find hex, ?_, Nat.find_spec hex, ?_⟩
  · exact le_trans (Nat.find_min' hex hnot) hn
  · intro m hm
    by_contra hc
    exact Nat.find_min hex hm hc

theorem newVarName_spec (c : PkgContext) (pfx : String) :
    ∃ k, k ≤ c.usedVarNames.length ∧ candidateName pfx k ∉ c.usedVarNames ∧
      (∀ m, m < k → candidateName pfx m ∈ c.usedVarNames) ∧
      (∀ fuel, k < fuel →
        newVarNameLoop c.usedVarNames pfx fuel 0 = some (candidateName pfx k, k)) ∧
      c.newVarName pfx = some (candidateName pfx k,
        { c with usedVarNames := c.usedVarNames ++ [candidateName pfx k] }) := by
  obtain ⟨k, hk1, hk2, hk3⟩ := exists_least_unused c.usedVarNames pfx
  have hloop : ∀ fuel, k < fuel →
      newVarNameLoop c.usedVarNames pfx fuel 0 = some (candidateName pfx k, k) :=
    fun fuel hf => newVarNameLoop_spec _ _ k hk2 fuel 0 (by omega) (by omega)
      (fun m _ hm => hk3 m hm)
  refine ⟨k, hk1, hk2, hk3, hloop, ?_⟩
  simp [PkgContext.newVarName, hloop (c.usedVarNames.length + 1) (by omega)]

theorem newVarNames_spec (prefixes : List String) :
    ∀ c : PkgContext, ∃ names c2,
      c.newVarNames prefixes = some (names, c2) ∧
      c2 = { c with usedVarNames := c.usedVarNames ++ names } ∧
      names.length = prefixes.length ∧
      names.Nodup ∧ ∀ n ∈ names, n ∉ c.usedVarNames := by
  induction prefixes with
  | nil =>
    intro c
    exact ⟨[], c, rfl, by simp, rfl, List.nodup_nil, by simp⟩
  | cons p rest ih =>
    intro c
    obtain ⟨k, _, hk2, _, _, hk5⟩ := newVarName_spec c p
    obtain ⟨names, c2, h1, h2, h3, h4, h5⟩ :=
      ih { c with usedVarNames := c.usedVarNames ++ [candidateName p k] }
    refine ⟨candidateName p k :: names, c2, ?_, ?_, by simp [h3], ?_, ?_⟩
    · simp [PkgContext.newVarNames, hk5, h1]
    · rw [h2]; simp
    · refine List.nodup_cons.mpr ⟨?_, h4⟩
      intro hmem
      exact h5 _ hmem (by simp)
    · intro n hn
      rcases List.mem_cons.mp hn with h | h
      · rw [h]; exact hk2
      · intro hc
        exact h5 n h (by simp [hc])

/-- Claim C11: `newVarName` returns a name that is not in `usedVarNames` as it
was before the call, and the context after the call is the context before it
with exactly that name appended to `usedVarNames`; hence the names returned by
successive calls on a context are pairwise distinct and none of them is in the
list the context started with, which for a fresh package context is the list of
reserved names. -/
theorem newVarName_fresh (c : PkgContext) (pfx : String) :
    (∃ name, c.newVarName pfx
        = some (name, { c with usedVarNames := c.usedVarNames ++ [name] }) ∧
      name ∉ c.usedVarNames) ∧
    (∀ prefixes : List String, ∃ names c2,
      c.newVarNames prefixes = some (names, c2) ∧
      c2 = { c with usedVarNames := c.usedVarNames ++ names } ∧
      names.length = prefixes.length ∧
      names.Nodup ∧ (∀ n ∈ names, n ∉ c.usedVarNames) ∧
      (c.usedVarNames = reservedNames → ∀ n ∈ names, n ∉ reservedNames)) := by
  obtain ⟨k, _, hk2, _, _, hk5⟩ := newVarName_spec c pfx
  refine ⟨⟨candidateName pfx k, hk5, hk2⟩, ?_⟩
  intro prefixes
  obtain ⟨names, c2, h1, h2, h3, h4, h5⟩ := newVarNames_spec prefixes c
  exact ⟨names, c2, h1, h2, h3, h4, h5, fun hseed n hn => hseed ▸ h5 n hn⟩

/-- Claim C20: the search loop of `newVarName` ends after testing at most
`len(U) + 1` candidates: it returns the candidate of the least counter `k` whose
candidate is not in `U`, and `k` is at most `len(U)`; the result is the prefix
itself when the prefix is not in `U`, and otherwise the prefix followed by the
decimal form of the least `n >= 1` for which that name is not in `U`. -/
theorem newVarName_least (used : List String) (pfx : String) :
    ∃ k, k ≤ used.length ∧
      (∀ fuel, k < fuel → newVarNameLoop used pfx fuel 0 = some (candidateName pfx k, k)) ∧
      candidateName pfx k ∉ used ∧
      (pfx ∉ used → k = 0 ∧ candidateName pfx k = pfx) ∧
      (pfx ∈ used → 1 ≤ k ∧ candidateName pfx k = pfx ++ toString k ∧
        pfx ++ toString k ∉ used ∧
        ∀ n, 1 ≤ n → n < k → pfx ++ toString n ∈ used) := by
  obtain ⟨k, hk1, hk2, hk3⟩ := exists_least_unused used pfx
  refine ⟨k, hk1, ?_, hk2, ?_, ?_⟩
  · intro fuel hf
    exact newVarNameLoop_spec _ _ k hk2 fuel 0 (by omega) (by omega) (fun m _ hm => hk3 m hm)
  · intro hp
    have hk0 : k = 0 := by
      by_contra hne
      have := hk3 0 (by omega)
      simp [candidateName] at this
      exact hp this
    exact ⟨hk0, by simp [hk0, candidateName]⟩
  · intro hp
    have hk0 : k ≠ 0 := by
      intro h0
      rw [h0] at hk2
      simp [candidateName] at hk2
      exact hk2 hp
    have hname : candidateName pfx k = pfx ++ toString k := by simp [candidateName, hk0]
    refine ⟨by omega, hname, hname ▸ hk2, ?_⟩
    intro n hn1 hnk
    have := hk3 n hnk
    have hn0 : n ≠ 0 := by omega
    simpa [candidateName, hn0] using this

/-! ## The export mapping -/

theorem exportsLoop_eq (IsUpper : Char → Bool) (names : List String) :
    ∀ exports : List String,
      exportsLoop IsUpper names exports
        = exports ++ (names.filter (IsExported IsUpper)).map (fun n => n ++ ": " ++ n) := by
  induction names with
  | nil => intro exports; simp [exportsLoop]
  | cons name rest ih =>
    intro exports
    simp only [exportsLoop]
    by_cases h : IsExported IsUpper name = true
    · rw [if_pos h, ih]
      simp [List.filter_cons, h]
    · rw [if_neg h, ih]
      simp [List.filter_cons, h]

theorem exportEntry_inj (a b : String) (h : a ++ ": " ++ a = b ++ ": " ++ b) : a = b := by
  have hd := congrArg String.data h
  simp only [String.data_append] at hd
  have hlen := congrArg List.length hd
  simp only [List.length_append] at hlen
  have hl : a.data.length = b.data.length := by omega
  have := List.append_inj hd (by simp [hl])
  have := List.append_inj this.1 hl
  exact String.ext this.1

/-- Claim C17: the export line is `return { <entries> };` where the entries,
joined by `, `, are `N: N` for the exported names `N` of the scope in the order
of the name list; an entry `N: N` is present exactly when `N` is a name of the
scope and exported, once when the name list has no repeats; and the line is
`return {  };` when no name is exported. -/
theorem exportLine_exact (c : PkgContext) (IsUpper : Char → Bool) (names : List String) :
    exportLine c IsUpper names
      = c.Printf ("return \x7b " ++
          Join ((names.filter (IsExported IsUpper)).map (fun n => n ++ ": " ++ n)) ", "
          ++ " \x7d;") ∧
    (∀ N, (N ++ ": " ++ N) ∈ (names.filter (IsExported IsUpper)).map (fun n => n ++ ": " ++ n)
      ↔ (N ∈ names ∧ IsExported IsUpper N = true)) ∧
    (names.Nodup →
      ((names.filter (IsExported IsUpper)).map (fun n => n ++ ": " ++ n)).Nodup) ∧
    ((∀ n ∈ names, IsExported IsUpper n = false) →
      exportLine c IsUpper names = c.Printf "return \x7b  \x7d;") := by
  have heq := exportsLoop_eq IsUpper names []
  rw [List.nil_append] at heq
  refine ⟨by rw [exportLine, heq], ?_, ?_, ?_⟩
  · intro N
    simp only [List.mem_map, List.mem_filter]
    constructor
    · rintro ⟨n, ⟨hn1, hn2⟩, hn3⟩
      have := exportEntry_inj n N hn3
      subst this
      exact ⟨hn1, hn2⟩
    · rintro ⟨h1, h2⟩
      exact ⟨N, ⟨h1, h2⟩, rfl⟩
  · intro hnd
    refine List.Nodup.map ?_ (hnd.filter _)
    intro a b hab
    exact exportEntry_inj a b hab
  · intro hnone
    have hf : names.filter (IsExported IsUpper) = [] := by
      rw [List.filter_eq_nil_iff]
      intro n hn
      simp [hnone n hn]
    rw [exportLine, heq, hf]
    simp only [List.map_nil, Join]
    congr 1

/-! ## The number of passes of the scheduling loop -/

theorem passes_inv (k : Nat) :
    ∀ x : Sched × List (Option ValueSpec), SchedInv x → SchedInv (passes k x) := by
  induction k with
  | zero => intro x h; exact h
  | succ k ih =>
    intro x h
    obtain ⟨_, _, _, h3, _, _⟩ := pass_spec x h
    exact ih _ h3

theorem passes_succ (k : Nat) :
    ∀ x : Sched × List (Option ValueSpec), passes (k + 1) x = pass (passes k x) := by
  induction k with
  | zero => intro x; rfl
  | succ k ih =>
    intro x
    show passes (k + 1) (pass x) = pass (passes k (pass x))
    exact ih (pass x)

/-- On acyclic input as many passes as there are specs left, and one pass when
none is left, end the loop. -/
theorem scheduleLoop_bound (fuel : Nat) :
    ∀ x : Sched × List (Option ValueSpec), SchedInv x →
      (remaining x.2).length ≤ fuel → 1 ≤ fuel →
      ∃ y, scheduleLoop fuel x = some y ∧
        y.1.emitted.Perm (x.1.emitted ++ remaining x.2) ∧ remaining y.2 = [] ∧ SchedInv y := by
  induction fuel with
  | zero => intro x _ _ h; omega
  | succ fuel ih =>
    intro x hinv hlen _
    obtain ⟨E, h1, h2, h3, h4, h5⟩ := pass_spec x hinv
    by_cases hc : (pass x).1.complete = true
    · have hnil := h4.mp hc
      refine ⟨pass x, by simp [scheduleLoop, hc], ?_, hnil, h3⟩
      rw [h1]
      rw [hnil, List.append_nil] at h2
      exact List.Perm.append_left _ h2
    · have hne : remaining (pass x).2 ≠ [] := fun h => hc (h4.mpr h)
      have hne2 : remaining x.2 ≠ [] := by
        intro h
        rw [h] at h2
        have := h2.length_eq
        simp at this
        exact hne this.2
      have hE := h5 hne2
      have hlen2 := h2.length_eq
      rw [List.length_append] at hlen2
      have hEpos : 0 < E.length := List.length_pos.mpr hE
      have hpos : 0 < (remaining (pass x).2).length := List.length_pos.mpr hne
      obtain ⟨y, hy1, hy2, hy3, hy4⟩ := ih (pass x) h3 (by omega) (by omega)
      refine ⟨y, ?_, ?_, hy3, hy4⟩
      · have hc2 : (pass x).1.complete = false := by
          cases h : (pass x).1.complete
          · rfl
          · exact absurd h hc
        simp only [scheduleLoop, hc2, Bool.false_eq_true, if_false]
        exact hy1
      · refine hy2.trans ?_
        rw [h1, List.append_assoc]
        exact List.Perm.append_left _ h2

/-- Claim C19 as the code has it: on acyclic input with `n` flattened
declarations the scheduling loop ends within `max n 1` passes (one pass is made
even when there is no declaration), every pass that starts with a declaration
left hands over at least one, and at the end no declaration is left, every
declaration has been handed over and the pending map is empty. -/
theorem schedule_pass_bound (files : List File) (h : Acyclic (flattened files)) :
    (∃ y, scheduleLoop (max (flattened files).length 1) (initialSched files) = some y ∧
      remaining y.2 = [] ∧
      y.1.emitted.Perm (flattened files) ∧
      (∀ o, y.1.pendingObjects o = false)) ∧
    (∀ k, remaining (passes k (initialSched files)).2 ≠ [] →
      (remaining (passes (k + 1) (initialSched files)).2).length
        < (remaining (passes k (initialSched files)).2).length) := by
  have hinv := initialSched_inv files h
  have hrem : remaining (initialSched files).2 = flattened files := by
    simp only [initialSched]
    rw [remaining_map_some, collect_specs]
  constructor
  · obtain ⟨y, hy1, hy2, hy3, hy4⟩ := scheduleLoop_bound (max (flattened files).length 1)
      (initialSched files) hinv (by rw [hrem]; exact le_max_left _ _) (le_max_right _ _)
    refine ⟨y, hy1, hy3, ?_, ?_⟩
    · rw [hrem] at hy2
      simpa [initialSched] using hy2
    · intro o
      cases hp : y.1.pendingObjects o with
      | false => rfl
      | true =>
        have := hy4.pend o hp
        rw [hy3] at this
        simp [specObjs] at this
  · intro k hne
    have hk := passes_inv k _ hinv
    obtain ⟨E, _, h2, _, _, h5⟩ := pass_spec _ hk
    have hE := List.length_pos.mpr (h5 hne)
    have hlen := h2.length_eq
    rw [List.length_append] at hlen
    rw [passes_succ]
    omega

/-- The input of `constantsOutOfOrder` is acyclic and the conclusion of
`schedule_pass_bound` holds there: two declarations, at most two passes. -/
theorem schedule_pass_bound_witness :
    Acyclic (flattened constantsOutOfOrder) ∧
    ∃ y, scheduleLoop (max (flattened constantsOutOfOrder).length 1)
        (initialSched constantsOutOfOrder) = some y ∧
      remaining y.2 = [] ∧
      y.1.emitted.Perm (flattened constantsOutOfOrder) ∧
      (∀ o, y.1.pendingObjects o = false) :=
  ⟨⟨fun o => if o = 1 then 1 else 0, by decide⟩,
    (schedule_pass_bound constantsOutOfOrder ⟨fun o => if o = 1 then 1 else 0, by decide⟩).1⟩

/-- Against claim C19 as stated: a package without constants and variables has
`n = 0` flattened declarations and acyclic dependencies, yet the loop does not
end within 0 passes; it makes one pass over the empty list. -/
theorem schedule_empty_one_pass :
    (flattened []).length = 0 ∧ Acyclic (flattened []) ∧
    scheduleLoop 0 (initialSched []) = none ∧
    (scheduleLoop 1 (initialSched [])).isSome = true :=
  ⟨rfl, ⟨fun _ => 0, by decide⟩, rfl, rfl⟩

/-! ## The walk over the import graph -/

theorem Topo_mono (Imports : String → List String) (L : List String) :
    ∀ V W : List String, (∀ y, y ∈ V → y ∈ W) → Topo Imports V L → Topo Imports W L := by
  induction L with
  | nil => intro V W _ _; trivial
  | cons x rest ih =>
    intro V W hsub h
    refine ⟨fun y hy => hsub y (h.1 y hy), ?_⟩
    refine ih (x :: V) (x :: W) ?_ h.2
    intro y hy
    rcases List.mem_cons.mp hy with h1 | h1
    · rw [h1]; exact List.mem_cons_self _ _
    · exact List.mem_cons_of_mem _ (hsub y h1)

theorem Topo_append (Imports : String → List String) (L1 : List String) :
    ∀ (V W L2 : List String), Topo Imports V L1 → Topo Imports W L2 →
      (∀ y, y ∈ W → y ∈ V ∨ y ∈ L1) → Topo Imports V (L1 ++ L2) := by
  induction L1 with
  | nil =>
    intro V W L2 _ h2 hsub
    refine Topo_mono Imports L2 W V ?_ h2
    intro y hy
    rcases hsub y hy with h | h
    · exact h
    · simp at h
  | cons x rest ih =>
    intro V W L2 h1 h2 hsub
    refine ⟨h1.1, ih (x :: V) W L2 h1.2 h2 ?_⟩
    intro y hy
    rcases hsub y hy with h | h
    · exact Or.inl (List.mem_cons_of_mem _ h)
    · rcases List.mem_cons.mp h with h3 | h3
      · rw [h3]; exact Or.inl (List.mem_cons_self _ _)
      · exact Or.inr h3

theorem Topo_split (Imports : String → List String) (l1 : List String) :
    ∀ (V : List String) (x : String) (l2 : List String), Topo Imports V (l1 ++ x :: l2) →
      ∀ y ∈ Imports x, y ∈ V ∨ y ∈ l1 := by
  induction l1 with
  | nil =>
    intro V x l2 h y hy
    exact Or.inl (h.1 y hy)
  | cons a rest ih =>
    intro V x l2 h y hy
    rcases ih (a :: V) x l2 h.2 y hy with h1 | h1
    · rcases List.mem_cons.mp h1 with h2 | h2
      · rw [h2]; exact Or.inr (List.mem_cons_self _ _)
      · exact Or.inl h2
    · exact Or.inr (List.mem_cons_of_mem _ h1)

theorem Reaches_trans (Imports : String → List String) (S : List String) (p q x : String)
    (h1 : Reaches Imports S p q) (h2 : Reaches Imports S q x) : Reaches Imports S p x := by
  induction h2 with
  | entry => exact h1
  | step a b _ hab hb ih => exact Reaches.step a b ih hab hb

theorem forEachImport_spec (src : Sources) (S : List String)
    (rank : String → Nat) (fuel : Nat) (p : String)
    (ih : ∀ (t : Translator) (q : String), rank q < fuel → (∀ x ∈ S, x ∈ t.packages) →
      (∀ x, Reaches src.Imports S q x → src.Check x = some true ∧ src.Body x = true ∧
        ∀ y ∈ src.Imports x, y ∉ S → src.Import y = true) →
      ∃ t2 L, translatePackage src fuel t q = some t2 ∧
        Visited src.Imports S rank t t2 L (some q) (rank q) q ∧ q ∈ L)
    (hok : ∀ x, Reaches src.Imports S p x → src.Check x = some true ∧ src.Body x = true ∧
      ∀ y ∈ src.Imports x, y ∉ S → src.Import y = true)
    (qs : List String) :
    ∀ t : Translator, (∀ q ∈ qs, q ∈ src.Imports p ∧ rank q < fuel ∧ rank q < rank p) →
      (∀ x ∈ S, x ∈ t.packages) →
      ∃ t2 M,
        forEachImport (fun t1 q => if src.Import q then translatePackage src fuel t1 q else none)
          qs t = some t2 ∧
        Visited src.Imports S rank t t2 M none (rank p) p ∧ ∀ q ∈ qs, q ∈ t2.packages := by
  induction qs with
  | nil =>
    intro t _ _
    refine ⟨t, [], rfl, ⟨by simp, by simp, List.nodup_nil, by simp, trivial, by simp⟩, by simp⟩
  | cons q rest ihq =>
    intro t hqs hS
    have hq := hqs q (List.mem_cons_self _ _)
    have hrest : ∀ q2 ∈ rest, q2 ∈ src.Imports p ∧ rank q2 < fuel ∧ rank q2 < rank p :=
      fun q2 h => hqs q2 (List.mem_cons_of_mem _ h)
    by_cases hmem : q ∈ t.packages
    · obtain ⟨t2, M, h1, h2, h3⟩ := ihq t hrest hS
      refine ⟨t2, M, by simp [forEachImport, hmem, h1], h2, ?_⟩
      intro q2 hq2
      rcases List.mem_cons.mp hq2 with h | h
      · rw [h]; exact (h2.packages q).mpr (Or.inl hmem)
      · exact h3 q2 h
    · have hqS : q ∉ S := fun hqS => hmem (hS q hqS)
      have hpq : Reaches src.Imports S p q := Reaches.step p q Reaches.entry hq.1 hqS
      have himport : src.Import q = true := (hok p Reaches.entry).2.2 q hq.1 hqS
      obtain ⟨t1, L, e1, v1, hqL⟩ := ih t q hq.2.1 hS
        (fun x hx => hok x (Reaches_trans src.Imports S p q x hpq hx))
      have hS1 : ∀ x ∈ S, x ∈ t1.packages := fun x hx => (v1.packages x).mpr (Or.inl (hS x hx))
      obtain ⟨t2, M, e2, v2, h3⟩ := ihq t1 hrest hS1
      refine ⟨t2, L ++ M, by simp [forEachImport, hmem, himport, e1, e2],
        ⟨?_, ?_, ?_, ?_, ?_, ?_⟩, ?_⟩
      · rw [v2.written, v1.written, List.append_assoc]
      · intro x
        rw [v2.packages, v1.packages, List.mem_append]
        tauto
      · refine List.Nodup.append v1.nodup v2.nodup ?_
        intro x hx1 hx2
        rcases v2.fresh x hx2 with h | h
        · cases h
        · exact h.1 ((v1.packages x).mpr (Or.inr hx1))
      · intro x hx
        right
        rcases List.mem_append.mp hx with h | h
        · rcases v1.fresh x h with h2 | h2
          · have : x = q := Option.some.inj h2
            rw [this]
            exact ⟨hmem, hq.2.2⟩
          · exact ⟨h2.1, lt_trans h2.2 hq.2.2⟩
        · rcases v2.fresh x h with h2 | h2
          · cases h2
          · exact ⟨fun hx2 => h2.1 ((v1.packages x).mpr (Or.inl hx2)), h2.2⟩
      · exact Topo_append src.Imports L t.packages t1.packages M v1.topo v2.topo
          (fun y hy => (v1.packages y).mp hy)
      · intro x hx
        rcases List.mem_append.mp hx with h | h
        · exact Reaches_trans src.Imports S p q x hpq (v1.reach x h)
        · exact v2.reach x h
      · intro q2 hq2
        rcases List.mem_cons.mp hq2 with h | h
        · rw [h]
          exact (v2.packages q).mpr (Or.inl ((v1.packages q).mpr (Or.inr hqL)))
        · exact h3 q2 h

theorem translatePackage_spec (src : Sources) (S : List String)
    (rank : String → Nat) (hrank : ∀ p q, q ∈ src.Imports p → rank q < rank p) (fuel : Nat) :
    ∀ (t : Translator) (p : String), rank p < fuel → (∀ x ∈ S, x ∈ t.packages) →
      (∀ x, Reaches src.Imports S p x → src.Check x = some true ∧ src.Body x = true ∧
        ∀ y ∈ src.Imports x, y ∉ S → src.Import y = true) →
      ∃ t2 L, translatePackage src fuel t p = some t2 ∧
        Visited src.Imports S rank t t2 L (some p) (rank p) p ∧ p ∈ L := by
  induction fuel with
  | zero => intro t p h; omega
  | succ fuel ih =>
    intro t p hp hS hok
    obtain ⟨hcheck, hbody, -⟩ := hok p Reaches.entry
    obtain ⟨t1, M, e1, v1, himp⟩ := forEachImport_spec src S rank fuel p ih hok (src.Imports p) t
      (fun q hq => ⟨hq, by have := hrank p q hq; omega, hrank p q hq⟩) hS
    have hpM : p ∉ M := by
      intro h
      rcases v1.fresh p h with h2 | h2
      · cases h2
      · omega
    refine ⟨{ packages := p :: t1.packages, written := t1.written ++ [p] }, M ++ [p], ?_,
      ⟨?_, ?_, ?_, ?_, ?_, ?_⟩, by simp⟩
    · simp [translatePackage, hcheck, hbody, e1]
    · simp [v1.written]
    · intro x
      simp only [List.mem_cons, List.mem_append, List.mem_singleton, List.not_mem_nil, or_false]
      rw [v1.packages]
      tauto
    · refine List.Nodup.append v1.nodup (List.nodup_singleton _) ?_
      intro x hx1 hx2
      simp at hx2
      exact hpM (hx2 ▸ hx1)
    · intro x hx
      rcases List.mem_append.mp hx with h | h
      · rcases v1.fresh x h with h2 | h2
        · cases h2
        · exact Or.inr h2
      · simp at h
        exact Or.inl (by rw [h])
    · refine Topo_append src.Imports M t.packages t1.packages [p] v1.topo ?_
        (fun y hy => (v1.packages y).mp hy)
      exact ⟨fun y hy => himp y hy, trivial⟩
    · intro x hx
      rcases List.mem_append.mp hx with h | h
      · exact v1.reach x h
      · simp at h
        rw [h]
        exact Reaches.entry

theorem translatePackage_mono (src : Sources) (fuel : Nat) :
    ∀ (t t2 : Translator) (p : String), translatePackage src fuel t p = some t2 →
      ∀ fuel2, fuel ≤ fuel2 → translatePackage src fuel2 t p = some t2 := by
  induction fuel with
  | zero => intro t t2 p h; simp [translatePackage] at h
  | succ fuel ih =>
    intro t t2 p h fuel2 hle
    obtain ⟨k, rfl⟩ : ∃ k, fuel2 = k + 1 := ⟨fuel2 - 1, by omega⟩
    have hfe : ∀ (qs : List String) (t t3 : Translator),
        forEachImport (fun t1 q => if src.Import q then translatePackage src fuel t1 q else none)
          qs t = some t3 →
        forEachImport (fun t1 q => if src.Import q then translatePackage src k t1 q else none)
          qs t = some t3 := by
      intro qs
      induction qs with
      | nil => intro t t3 h; exact h
      | cons q rest ihq =>
        intro t t3 h
        simp only [forEachImport] at h ⊢
        by_cases hm : q ∈ t.packages
        · simp only [hm, if_true] at h ⊢
          exact ihq t t3 h
        · simp only [hm, if_false] at h ⊢
          by_cases hi : src.Import q = true
          · simp only [hi, if_true] at h ⊢
            cases hq : translatePackage src fuel t q with
            | none => simp [hq] at h
            | some t1 =>
              simp only [hq] at h
              rw [ih t t1 q hq k (by omega)]
              exact ihq t1 t3 h
          · simp [hi] at h
    simp only [translatePackage] at h ⊢
    cases hc : src.Check p with
    | none => simp [hc] at h
    | some b =>
      cases b with
      | false => simpa [hc] using h
      | true =>
        simp only [hc] at h ⊢
        cases hf : forEachImport
            (fun t1 q => if src.Import q then translatePackage src fuel t1 q else none)
            (src.Imports p) t with
        | none => simp [hf] at h
        | some t1 =>
          rw [hfe _ _ _ hf]
          simpa [hf] using h

/-- A panic inside an imported package ends the whole walk: when `main` imports
`q` and `translateSpec` panics on the declaration `type P *int` of `q`, the walk
from `main` returns no translator, whatever the bound on its depth. -/
theorem translatePackage_panic_aborts :
    sourcesUnhandledType.Body "q" = false ∧
    ∀ fuel, translatePackage sourcesUnhandledType fuel initialTranslator "main" = none := by
  have hq : sourcesUnhandledType.Body "q" = false := by decide
  refine ⟨hq, ?_⟩
  intro fuel
  match fuel with
  | 0 => rfl
  | 1 => decide
  | fuel + 2 =>
    have hmain : sourcesUnhandledType.Imports "main" = ["q"] := by decide
    have hqi : sourcesUnhandledType.Imports "q" = [] := by decide
    have hc : ∀ p, sourcesUnhandledType.Check p = some true := fun _ => rfl
    have hi : ∀ p, sourcesUnhandledType.Import p = true := fun _ => rfl
    simp [translatePackage, forEachImport, hmain, hqi, hc, hi, hq, initialTranslator]

/-- Claim C16 as the code has it: on an acyclic import graph in which every
package reached from the entry without entering `reflect` or `go/doc` parses,
type-checks and is translated to its end without a panic, and every import of
such a package other than `reflect` and `go/doc` is found by `build.Import`,
the walk from the entry package ends, and the module definitions it writes form
a list without repeats of exactly those reached packages; `reflect` and
`go/doc`, which `main` registers beforehand, are never written; each package
stands after every package it imports, except for imports that are `reflect` or
`go/doc`. -/
theorem translatePackage_topological (src : Sources) (entry : String)
    (h : AcyclicImports src.Imports)
    (hok : ∀ p, Reaches src.Imports ["reflect", "go/doc"] entry p →
      src.Check p = some true ∧ src.Body p = true ∧
      ∀ q ∈ src.Imports p, q ∉ ["reflect", "go/doc"] → src.Import q = true) :
    ∃ t : Translator,
      (∃ bound, ∀ fuel, bound ≤ fuel →
        translatePackage src fuel initialTranslator entry = some t) ∧
      t.written.Nodup ∧
      (∀ p, p ∈ t.written ↔ Reaches src.Imports ["reflect", "go/doc"] entry p) ∧
      (∀ l1 p l2, t.written = l1 ++ p :: l2 →
        ∀ q ∈ src.Imports p, q ∈ ["reflect", "go/doc"] ∨ q ∈ l1) := by
  obtain ⟨rank, hrank⟩ := h
  obtain ⟨t, L, e, v, hentry⟩ := translatePackage_spec src ["reflect", "go/doc"] rank hrank
    (rank entry + 1) initialTranslator entry (by omega) (fun x hx => hx) hok
  have hw : t.written = L := by simpa [initialTranslator] using v.written
  have htopo : ∀ l1 p l2, t.written = l1 ++ p :: l2 →
      ∀ q ∈ src.Imports p, q ∈ ["reflect", "go/doc"] ∨ q ∈ l1 := by
    intro l1 p l2 hl q hq
    have := v.topo
    rw [← hw, hl] at this
    exact Topo_split src.Imports l1 _ p l2 this q hq
  refine ⟨t, ⟨rank entry + 1, fun fuel hf => translatePackage_mono src _ _ _ _ e fuel hf⟩,
    hw ▸ v.nodup, ?_, htopo⟩
  intro p
  constructor
  · intro hp
    exact v.reach p (hw ▸ hp)
  · intro hp
    induction hp with
    | entry => exact hw ▸ hentry
    | step a b _ hab hb ih =>
      obtain ⟨l1, l2, hl⟩ := List.append_of_mem ih
      rcases htopo l1 a l2 hl b hab with h1 | h1
      · exact absurd h1 hb
      · rw [hl]; exact List.mem_append_left _ h1

/-- The diamond of `importsDiamond`, with every package found, checked and
translated to its end, satisfies the hypotheses of
`translatePackage_topological`: the walk ends and `d` is written once, before
`b` and `c`. -/
theorem translatePackage_topological_witness :
    (AcyclicImports (checkedSources importsDiamond).Imports ∧
      ∀ p, Reaches (checkedSources importsDiamond).Imports ["reflect", "go/doc"] "main" p →
        (checkedSources importsDiamond).Check p = some true ∧
        (checkedSources importsDiamond).Body p = true ∧
        ∀ q ∈ (checkedSources importsDiamond).Imports p, q ∉ ["reflect", "go/doc"] →
          (checkedSources importsDiamond).Import q = true) ∧
    (∃ t : Translator,
      (∃ bound, ∀ fuel, bound ≤ fuel →
        translatePackage (checkedSources importsDiamond) fuel initialTranslator "main" = some t) ∧
      t.written.Nodup) ∧
    (translatePackage (checkedSources importsDiamond) 3 initialTranslator "main").map
        (fun t => t.written) = some ["d", "b", "c", "main"] := by
  have hac : AcyclicImports (checkedSources importsDiamond).Imports := by
    refine ⟨fun p => if p = "main" then 2 else if p = "b" then 1 else if p = "c" then 1 else 0,
      ?_⟩
    intro p q hq
    simp only [checkedSources] at hq
    unfold importsDiamond at hq
    split_ifs at hq with h1 h2 h3
    · subst h1
      simp at hq
      rcases hq with rfl | rfl <;> decide
    · subst h2
      simp at hq
      subst hq
      decide
    · subst h3
      simp at hq
      subst hq
      decide
    · simp at hq
  have hok : ∀ p, Reaches (checkedSources importsDiamond).Imports ["reflect", "go/doc"] "main" p →
      (checkedSources importsDiamond).Check p = some true ∧
      (checkedSources importsDiamond).Body p = true ∧
      ∀ q ∈ (checkedSources importsDiamond).Imports p, q ∉ ["reflect", "go/doc"] →
        (checkedSources importsDiamond).Import q = true :=
    fun _ _ => ⟨rfl, rfl, fun _ _ _ => rfl⟩
  obtain ⟨t, h1, h2, _⟩ := translatePackage_topological (checkedSources importsDiamond) "main"
    hac hok
  exact ⟨⟨hac, hok⟩, ⟨t, h1, h2⟩, by decide⟩

/-- Against claim C16 as stated: when `main` imports `reflect` and `fmt`, every
package parses, type-checks and is translated to its end, the graph is acyclic
and `reflect` is reachable from `main`, yet the module definitions written are
those of `fmt` and `main` only. -/
theorem translatePackage_skips_reflect :
    AcyclicImports (checkedSources importsReflect).Imports ∧
    Reachable (checkedSources importsReflect).Imports "main" "reflect" ∧
    (translatePackage (checkedSources importsReflect) 2 initialTranslator "main").map
        (fun t => t.written)
      = some ["fmt", "main"] ∧
    ¬ ∃ fuel t, translatePackage (checkedSources importsReflect) fuel initialTranslator "main"
        = some t ∧ "reflect" ∈ t.written := by
  have hac : AcyclicImports (checkedSources importsReflect).Imports := by
    refine ⟨fun p => if p = "main" then 2 else if p = "fmt" then 1 else 0, ?_⟩
    intro p q hq
    simp only [checkedSources] at hq
    unfold importsReflect at hq
    split_ifs at hq with h1 h2
    · subst h1
      simp at hq
      rcases hq with rfl | rfl <;> decide
    · subst h2
      simp at hq
      subst hq
      decide
    · simp at hq
  have heval : translatePackage (checkedSources importsReflect) 2 initialTranslator "main"
      = some { packages := ["main", "fmt", "reflect", "go/doc"], written := ["fmt", "main"] } := by
    decide
  refine ⟨hac, Reachable.step "main" "reflect" Reachable.entry (by decide), by decide, ?_⟩
  rintro ⟨fuel, t, ht, hmem⟩
  by_cases hf : 2 ≤ fuel
  · have := translatePackage_mono (checkedSources importsReflect) 2 _ _ _ heval fuel hf
    rw [this] at ht
    cases ht
    simp at hmem
  · have hcases : fuel = 0 ∨ fuel = 1 := by omega
    rcases hcases with rfl | rfl
    · simp [translatePackage] at ht
    · have : translatePackage (checkedSources importsReflect) 1 initialTranslator "main"
          = none := by decide
      rw [this] at ht
      cases ht

/-! ## Type specifications, forwarders and shims -/

theorem Printf_inj (c : PkgContext) (a b : String) (h : c.Printf a = c.Printf b) : a = b := by
  have := congrArg String.data h
  simp only [PkgContext.Printf, String.data_append, List.append_assoc,
    List.append_cancel_left_eq, List.append_cancel_right_eq] at this
  exact String.ext this

/-- No text `var <name>...` is a text `<name>....`. -/
theorem var_text_ne : ∀ (name A B : List Char),
    'v' :: 'a' :: 'r' :: ' ' :: (name ++ A) ≠ name ++ '.' :: B
  | [], A, B => by simp
  | [a], A, B => by
    intro h
    simp only [List.cons_append, List.nil_append, List.cons.injEq] at h
    obtain ⟨_, h2, _⟩ := h
    exact absurd h2 (by decide)
  | [a, b], A, B => by
    intro h
    simp only [List.cons_append, List.nil_append, List.cons.injEq] at h
    obtain ⟨_, _, h3, _⟩ := h
    exact absurd h3 (by decide)
  | [a, b, c], A, B => by
    intro h
    simp only [List.cons_append, List.nil_append, List.cons.injEq] at h
    obtain ⟨_, _, _, h4, _⟩ := h
    exact absurd h4 (by decide)
  | a :: b :: c :: d :: rest, A, B => by
    intro h
    simp only [List.cons_append, List.cons.injEq] at h
    obtain ⟨h1, h2, h3, h4, h5⟩ := h
    subst h1 h2 h3 h4
    exact var_text_ne rest A B h5

theorem var_line_ne (c : PkgContext) (name X Y : String) :
    c.Printf ("var " ++ name ++ X) ≠ c.Printf (name ++ "." ++ Y) := by
  intro h
  have h2 := congrArg String.data (Printf_inj c _ _ h)
  simp only [String.data_append, List.append_assoc] at h2
  exact var_text_ne name.data X.data Y.data (by simpa using h2)

theorem pointerDefinition_eq (c : PkgContext) (name : String) :
    pointerDefinition c name = c.Printf (name ++ "." ++
      "_Pointer = function(getter, setter) \x7b this.get = getter; this.set = setter; \x7d;") := by
  unfold pointerDefinition
  congr 1
  apply String.ext
  simp [String.data_append]

theorem fieldForwarders_ne (c : PkgContext) (MethodSet : GoType → List Selection)
    (name : String) (f : Var) : pointerDefinition c name ∉ fieldForwarders c MethodSet name f := by
  cases f with
  | mk fieldName anonymous fieldType =>
    simp only [fieldForwarders]
    split_ifs
    · intro h
      simp only [List.mem_map] at h
      obtain ⟨m, _, hm⟩ := h
      have h2 := congrArg String.data (Printf_inj c _ _ hm)
      simp [forwarder, pointerDefinition, String.data_append] at h2
    · simp

/-- The texts of a type specification do not contain the pointer-boxing
definition of the type. -/
theorem pointerDefinition_not_mem (c : PkgContext) (MethodSet : GoType → List Selection)
    (IsAssignableTo : GoType → GoType → Bool) (objects : List Object) (pkg : Option String)
    (name : String) (u : GoType) (specLines : List String)
    (h : translateSpecType c MethodSet IsAssignableTo objects (.Named pkg name u)
      = some specLines) :
    pointerDefinition c name ∉ specLines := by
  have hvar : ∀ X : String, pointerDefinition c name ≠ c.Printf ("var " ++ name ++ X) := by
    intro X hX
    rw [pointerDefinition_eq] at hX
    exact var_line_ne c name X _ hX.symm
  cases u with
  | Basic k =>
    simp only [translateSpecType, Option.some.injEq] at h
    subst h
    simpa using hvar _
  | Array e l =>
    simp only [translateSpecType, Option.some.injEq] at h
    subst h
    simpa using hvar _
  | Signature ps v =>
    simp only [translateSpecType, Option.some.injEq] at h
    subst h
    simpa using hvar _
  | Map k e =>
    simp only [translateSpecType, Option.some.injEq] at h
    subst h
    simpa using hvar _
  | Slice e =>
    simp only [translateSpecType, Option.some.injEq] at h
    subst h
    simp only [List.mem_cons, List.mem_singleton, List.not_mem_nil, or_false, not_or]
    refine ⟨hvar _, ?_⟩
    intro heq
    have h2 := congrArg String.data (Printf_inj c _ _ heq)
    simp [String.data_append] at h2
  | Interface ms =>
    simp only [translateSpecType, Option.some.injEq] at h
    subst h
    simp only [List.mem_singleton]
    unfold translateSpecInterface
    split_ifs
    · exact hvar _
    · have := hvar (" = function(t) \x7b return " ++
        Join (interfaceConditions (implementedBy IsAssignableTo (.Interface ms) objects)) " || "
        ++ " \x7d;")
      intro heq
      apply this
      rw [heq]
      congr 1
      simp only [String.append_assoc]
  | Struct fields =>
    simp only [translateSpecType, Option.some.injEq] at h
    subst h
    simp only [List.mem_append, List.mem_singleton, List.mem_map, List.mem_flatMap, not_or,
      not_exists, not_and]
    refine ⟨⟨⟨⟨?_, ?_⟩, ?_⟩, ?_⟩, ?_⟩
    · have := hvar (" = function(" ++ Join (fields.map (fun f => f.Name ++ "_")) ", " ++ ") \x7b")
      intro heq
      apply this
      rw [heq]
      congr 1
      simp only [String.append_assoc]
    · intro heq
      have h2 := congrArg (fun s => s.data.reverse.take 3) heq
      simp [pointerDefinition, PkgContext.Printf, String.data_append] at h2
    · intro f _ heq
      have h2 := congrArg (fun s => s.data.reverse.take 3) heq
      simp [pointerDefinition, PkgContext.Printf, String.data_append] at h2
    · intro heq
      have h2 := congrArg (fun s => s.data.length) (Printf_inj c _ _ heq)
      simp [String.data_append] at h2
    · intro f _ hmem
      exact fieldForwarders_ne c MethodSet name f hmem
  | Named p n u2 => simp [translateSpecType] at h
  | Pointer e => simp [translateSpecType] at h
  | Chan e => simp [translateSpecType] at h
  | Builtin b => simp [translateSpecType] at h

theorem translateSpecType_handled (c : PkgContext) (MethodSet : GoType → List Selection)
    (IsAssignableTo : GoType → GoType → Bool) (objects : List Object) (pkg : Option String)
    (name : String) (u : GoType) :
    (∃ specLines, translateSpecType c MethodSet IsAssignableTo objects (.Named pkg name u)
      = some specLines) ↔ handledUnderlying u = true := by
  cases u <;> simp [translateSpecType, handledUnderlying]

/-- Claim C12 as the code has it: for a type specification whose name resolves
to the named type `name` with an underlying type that `translateSpec` handles
(basic, array, function, struct, slice, map or interface), the texts written
are those of `translateSpec`, then the pointer-boxing definition
`<name>._Pointer = function(getter, setter) { ... };` once if the underlying
type is not a struct and not at all if it is, then the texts of the methods; the
texts of `translateSpec` do not contain that definition; and `typeName` of the
pointer to the type is the name of the type followed by `._Pointer` exactly when
the underlying type is not a struct. -/
theorem type_pointer_definition (c : PkgContext) (info : ObjId → GoType)
    (MethodSet : GoType → List Selection) (IsAssignableTo : GoType → GoType → Bool)
    (objects : List Object) (tr : ExprTranslator) (st : StmtTranslator)
    (functions : List (Option GoType × FuncDecl)) (spec : TypeSpec)
    (pkg : Option String) (name : String) (u : GoType)
    (hnamed : info spec.Name.obj = GoType.Named pkg name u)
    (hhandled : handledUnderlying u = true) :
    ∃ specLines : List String,
      translateSpecType c MethodSet IsAssignableTo objects (.Named pkg name u) = some specLines ∧
      translateTypeSpec c info MethodSet IsAssignableTo objects tr st functions spec
        = (translateFunctions info tr st (!isStruct u)
            (functionsAt functions (some (.Named pkg name u))) c).map
          (fun r => (specLines ++ (if isStruct u then [] else [pointerDefinition c name]) ++ r.1,
            r.2)) ∧
      pointerDefinition c name ∉ specLines ∧
      pointerDefinition c name = c.Printf (name ++
        "._Pointer = function(getter, setter) \x7b this.get = getter; this.set = setter; \x7d;") ∧
      c.typeName (.Pointer (.Named pkg name u))
        = (c.typeName (.Named pkg name u)).map
            (fun n => if isStruct u then n else n ++ "._Pointer") ∧
      ((pkg = none ∨ pkg = some c.pkg) →
        c.typeName (.Pointer (.Named pkg name u))
          = some (if isStruct u then name else name ++ "._Pointer")) := by
  obtain ⟨specLines, hspec⟩ :=
    (translateSpecType_handled c MethodSet IsAssignableTo objects pkg name u).mpr hhandled
  have hptr : c.typeName (.Pointer (.Named pkg name u))
      = (c.typeName (.Named pkg name u)).map
          (fun n => if isStruct u then n else n ++ "._Pointer") := by
    obtain ⟨n, hn, -⟩ := typeName_named c pkg name u
    cases u <;> simp [PkgContext.typeName, isStruct]
  refine ⟨specLines, hspec, ?_,
    pointerDefinition_not_mem c MethodSet IsAssignableTo objects pkg name u specLines hspec,
    rfl, hptr, ?_⟩
  · simp only [translateTypeSpec, hnamed, hspec]
    cases hf : translateFunctions info tr st (!isStruct u)
        (functionsAt functions (some (.Named pkg name u))) c with
    | none => simp
    | some r =>
      obtain ⟨lines, c1⟩ := r
      cases hs : isStruct u <;> simp [hs]
  · intro hpkg
    obtain ⟨n, hn, hname⟩ := typeName_named c pkg name u
    rw [hptr, hn, hname hpkg]
    simp

/-- The type `T` with underlying type `int` satisfies the hypotheses of
`type_pointer_definition`; its texts are the constructor and then the
pointer-boxing definition. -/
theorem type_pointer_definition_witness :
    (exampleInfo 1 = GoType.Named (some "main") "T" (GoType.Basic BasicKind.Int) ∧
      handledUnderlying (GoType.Basic BasicKind.Int) = true) ∧
    ∃ specLines : List String,
      translateSpecType exampleContext methodSetM assignableA []
        (.Named (some "main") "T" (GoType.Basic BasicKind.Int)) = some specLines ∧
      pointerDefinition exampleContext "T" ∉ specLines := by
  obtain ⟨specLines, h1, _, h3, _⟩ := type_pointer_definition exampleContext exampleInfo
    methodSetM assignableA [] literalTranslator exampleStmtTranslator [] ⟨⟨"T", 1⟩⟩
    (some "main") "T" (GoType.Basic BasicKind.Int) rfl rfl
  exact ⟨⟨rfl, rfl⟩, specLines, h1, h3⟩

/-- Against claim C12 as stated: for the type declaration `type P *int`, whose
underlying type is not a struct, `translateSpec` panics; nothing is written for
the type, in particular no pointer-boxing definition, although `typeName` names
`P._Pointer` for the pointer to `P`. -/
theorem type_pointer_definition_unhandled :
    exampleInfo 3 = GoType.Named (some "main") "P" (GoType.Pointer (GoType.Basic BasicKind.Int)) ∧
    isStruct (GoType.Pointer (GoType.Basic BasicKind.Int)) = false ∧
    (translateTypeSpec exampleContext exampleInfo methodSetM assignableA [] literalTranslator
      exampleStmtTranslator [] ⟨⟨"P", 3⟩⟩).isNone = true ∧
    exampleContext.typeName (GoType.Pointer (exampleInfo 3)) = some "P._Pointer" := by
  refine ⟨rfl, rfl, by decide, by decide⟩

theorem translateParamNames_total (tr : ExprTranslator) (idents : List Ident) :
    ∀ c : PkgContext, ∃ names c2, translateParamNames tr idents c = some (names, c2) ∧
      c2.pkg = c.pkg ∧ c2.pkgVars = c.pkgVars ∧ c2.indentation = c.indentation := by
  induction idents with
  | nil => intro c; exact ⟨[], c, rfl, rfl, rfl, rfl⟩
  | cons ident rest ih =>
    intro c
    simp only [translateParamNames]
    by_cases hu : ident.Name = "_"
    · obtain ⟨k, _, _, _, _, hk⟩ := newVarName_spec c "param"
      obtain ⟨names, c2, h1, h2, h3, h4⟩ :=
        ih { c with usedVarNames := c.usedVarNames ++ [candidateName "param" k] }
      exact ⟨candidateName "param" k :: names, c2, by simp [hu, hk, h1], h2, h3, h4⟩
    · obtain ⟨names, c2, h1, h2, h3, h4⟩ := ih c
      exact ⟨tr.translateExpr ⟨Node.Ident ident, none⟩ :: names, c2, by simp [hu, h1],
        h2, h3, h4⟩

/-- A method declared without a body makes `translateFunction` panic, whatever
its receiver: nothing is written for it. -/
theorem translateFunction_no_body (c : PkgContext) (info : ObjId → GoType) (tr : ExprTranslator)
    (st : StmtTranslator) (decl : FuncDecl) (hasPtrType : Bool) (h : decl.hasBody = false) :
    translateFunction c info tr st decl hasPtrType = none := by
  unfold translateFunction
  rcases decl.Recv with _ | ⟨⟨names⟩⟩
  · rfl
  · cases names with
    | nil => rfl
    | cons recv more =>
      cases hn : c.typeName (info recv.obj) with
      | none => simp [hn]
      | some lhsType => simp [hn, h]

/-- Claim C13 as the code has it: for a method with a body and a pointer
receiver on a named type `T` whose underlying type is not a struct,
`translateFunction` writes, after the method itself, the shim
`T.prototype.M = function(<params>) { var obj = <value>; return (new
T._Pointer(function() { return obj; }, null)).M(<params>); };` where `<value>`
is `this.v` when the underlying type of `T` is basic and `this` otherwise: the
box is built with a getter that returns the captured value and with `null` in
the place of the setter, and the method of the same name is called on it with
the same parameters. -/
theorem pointer_receiver_shim (c : PkgContext) (info : ObjId → GoType) (tr : ExprTranslator)
    (st : StmtTranslator) (decl : FuncDecl) (recv : Ident) (more : List Ident)
    (pkg : Option String) (name : String) (u : GoType)
    (hrecv : decl.Recv = some ⟨recv :: more⟩)
    (hbody : decl.hasBody = true)
    (htype : info recv.obj = GoType.Pointer (GoType.Named pkg name u))
    (hns : isStruct u = false) :
    ∃ (lhsType typeName params : String) (c2 : PkgContext),
      c.typeName (.Pointer (.Named pkg name u)) = some lhsType ∧
      translateParams tr decl.Params
        (st.translateMethod c (lhsType ++ ".prototype." ++ decl.Name) decl).2
        = some (params, c2) ∧
      c2.typeName (.Named pkg name u) = some typeName ∧
      translateFunction c info tr st decl true
        = some ((st.translateMethod c (lhsType ++ ".prototype." ++ decl.Name) decl).1 ++
            [c2.Printf (typeName ++ ".prototype." ++ decl.Name ++ " = function(" ++ params ++
              ") \x7b var obj = " ++
              (if isUnderlyingBasic (.Named pkg name u) then "this.v" else "this") ++
              "; return (new " ++ typeName ++
              "._Pointer(function() \x7b return obj; \x7d, null))." ++
              decl.Name ++ "(" ++ params ++ "); \x7d;")], c2) := by
  obtain ⟨n, hn, -⟩ := typeName_named c pkg name u
  have hlhs : c.typeName (.Pointer (.Named pkg name u)) = some (n ++ "._Pointer") := by
    cases u <;> simp_all [PkgContext.typeName, isStruct]
  obtain ⟨names, c2, hp, _⟩ := translateParamNames_total tr (decl.Params.flatMap (fun f => f.Names))
    (st.translateMethod c (n ++ "._Pointer" ++ ".prototype." ++ decl.Name) decl).2
  obtain ⟨n2, hn2, -⟩ := typeName_named c2 pkg name u
  refine ⟨n ++ "._Pointer", n2, Join names ", ", c2, hlhs, ?_, hn2, ?_⟩
  · simp [translateParams, hp]
  · simp only [translateFunction, hrecv, hbody, htype, hlhs, translateParams, hp, hn2, if_true,
      pointerReceiverShim, Bool.not_true, Bool.false_eq_true, if_false]

/-- The method `func (p *T) M(x int)` on `type T int` satisfies the hypotheses of
`pointer_receiver_shim`. -/
theorem pointer_receiver_shim_witness :
    (methodPointerM.Recv = some ⟨[⟨"p", 2⟩]⟩ ∧
      methodPointerM.hasBody = true ∧
      exampleInfo 2 = GoType.Pointer (GoType.Named (some "main") "T" (GoType.Basic BasicKind.Int)) ∧
      isStruct (GoType.Basic BasicKind.Int) = false) ∧
    ∃ (lhsType : String),
      exampleContext.typeName
        (.Pointer (.Named (some "main") "T" (GoType.Basic BasicKind.Int))) = some lhsType := by
  obtain ⟨lhsType, _, _, _, h1, _⟩ := pointer_receiver_shim exampleContext exampleInfo
    literalTranslator exampleStmtTranslator methodPointerM ⟨"p", 2⟩ [] (some "main") "T"
    (GoType.Basic BasicKind.Int) rfl rfl rfl rfl
  exact ⟨⟨rfl, rfl, rfl, rfl⟩, lhsType, h1⟩

/-- Against claim C13 as stated: for `func (p *T) M(x int)` on `type T int` the
shim written by `translateFunction` passes `null` as the second argument of
`T._Pointer`; there is no setter closure. -/
theorem pointer_receiver_shim_null_setter :
    (translateFunction exampleContext exampleInfo literalTranslator exampleStmtTranslator
        methodPointerM true).map (fun r => r.1)
      = some ["T._Pointer.prototype.M = ...;\n",
          "T.prototype.M = function(x) \x7b var obj = this.v; return (new T._Pointer(function() \x7b return obj; \x7d, null)).M(x); \x7d;\n"] := by
  decide

theorem translateSpecType_struct (c : PkgContext) (MethodSet : GoType → List Selection)
    (IsAssignableTo : GoType → GoType → Bool) (objects : List Object) (pkg : Option String)
    (name : String) (fields : List Var) :
    translateSpecType c MethodSet IsAssignableTo objects (.Named pkg name (.Struct fields))
      = some ([c.Printf ("var " ++ name ++ " = function(" ++
                Join (fields.map (fun f => f.Name ++ "_")) ", " ++ ") \x7b")] ++
            [c.Indent.Printf "this._id = _idCounter++;"] ++
            fields.map (fun f => c.Indent.Printf ("this." ++ f.Name ++ " = " ++ f.Name ++ "_;")) ++
            [c.Printf "\x7d;"] ++
            fields.flatMap (fieldForwarders c MethodSet name)) := by
  simp [translateSpecType]

/-- Claim C14 as the code has it: when two anonymous fields of a struct both
promote a method of the same name, `translateSpec` rejects nothing: it writes
the texts of the struct, among them a forwarding method of that name for the
earlier field and, after it, one for the later field, which assigns the same
property of the prototype again. -/
theorem struct_ambiguous_forwarders (c : PkgContext) (MethodSet : GoType → List Selection)
    (IsAssignableTo : GoType → GoType → Bool) (objects : List Object) (pkg : Option String)
    (name : String) (before between after : List Var) (f1 f2 : String) (t1 t2 : GoType)
    (m1 m2 : Selection)
    (h1 : m1 ∈ MethodSet (promotedType t1)) (h2 : m2 ∈ MethodSet (promotedType t2))
    (hname : m1.Name = m2.Name) :
    ∃ l1 l2 l3 : List String,
      translateSpecType c MethodSet IsAssignableTo objects
          (.Named pkg name
            (.Struct (before ++ [Var.mk f1 true t1] ++ between ++ [Var.mk f2 true t2] ++ after)))
        = some (l1 ++ [forwarder c name (forwardedValue f1 t1) m1] ++ l2 ++
            [forwarder c name (forwardedValue f2 t2) m2] ++ l3) ∧
      forwarder c name (forwardedValue f2 t2) m2
        = c.Printf (name ++ ".prototype." ++ m1.Name ++ " = function(" ++
            Join (m2.Params.map Var.Name) ", " ++ ") \x7b return " ++ forwardedValue f2 t2 ++
            "." ++ m1.Name ++ "(" ++ Join (m2.Params.map Var.Name) ", " ++ "); \x7d;") := by
  obtain ⟨a1, b1, hs1⟩ := List.append_of_mem h1
  obtain ⟨a2, b2, hs2⟩ := List.append_of_mem h2
  have hf1 : fieldForwarders c MethodSet name (Var.mk f1 true t1)
      = a1.map (forwarder c name (forwardedValue f1 t1)) ++
        [forwarder c name (forwardedValue f1 t1) m1] ++
        b1.map (forwarder c name (forwardedValue f1 t1)) := by
    simp [fieldForwarders, hs1]
  have hf2 : fieldForwarders c MethodSet name (Var.mk f2 true t2)
      = a2.map (forwarder c name (forwardedValue f2 t2)) ++
        [forwarder c name (forwardedValue f2 t2) m2] ++
        b2.map (forwarder c name (forwardedValue f2 t2)) := by
    simp [fieldForwarders, hs2]
  refine ⟨[c.Printf ("var " ++ name ++ " = function(" ++
        Join ((before ++ [Var.mk f1 true t1] ++ between ++ [Var.mk f2 true t2] ++ after).map
          (fun f => f.Name ++ "_")) ", " ++ ") \x7b")] ++
      [c.Indent.Printf "this._id = _idCounter++;"] ++
      (before ++ [Var.mk f1 true t1] ++ between ++ [Var.mk f2 true t2] ++ after).map
        (fun f => c.Indent.Printf ("this." ++ f.Name ++ " = " ++ f.Name ++ "_;")) ++
      [c.Printf "\x7d;"] ++
      before.flatMap (fieldForwarders c MethodSet name) ++
      a1.map (forwarder c name (forwardedValue f1 t1)),
    b1.map (forwarder c name (forwardedValue f1 t1)) ++
      between.flatMap (fieldForwarders c MethodSet name) ++
      a2.map (forwarder c name (forwardedValue f2 t2)),
    b2.map (forwarder c name (forwardedValue f2 t2)) ++
      after.flatMap (fieldForwarders c MethodSet name),
    ?_, by rw [forwarder, hname]⟩
  rw [translateSpecType_struct]
  simp only [List.flatMap_append, List.flatMap_cons, List.flatMap_nil, List.append_nil, hf1, hf2,
    List.append_assoc]

/-- The struct `Outer` with the embedded fields `A` and `B`, which both promote
`M`, satisfies the hypotheses of `struct_ambiguous_forwarders`. -/
theorem struct_ambiguous_forwarders_witness :
    ((⟨"M", [Var.mk "x" false (GoType.Basic BasicKind.Int)]⟩ : Selection)
        ∈ methodSetM (promotedType (GoType.Named (some "main") "A" (GoType.Struct []))) ∧
      (⟨"M", [Var.mk "x" false (GoType.Basic BasicKind.Int)]⟩ : Selection)
        ∈ methodSetM (promotedType (GoType.Named (some "main") "B" (GoType.Struct [])))) ∧
    ∃ l1 l2 l3 : List String,
      translateSpecType exampleContext methodSetM assignableA [] typeOuter
        = some (l1 ++
            [forwarder exampleContext "Outer"
              (forwardedValue "A" (GoType.Named (some "main") "A" (GoType.Struct [])))
              ⟨"M", [Var.mk "x" false (GoType.Basic BasicKind.Int)]⟩] ++ l2 ++
            [forwarder exampleContext "Outer"
              (forwardedValue "B" (GoType.Named (some "main") "B" (GoType.Struct [])))
              ⟨"M", [Var.mk "x" false (GoType.Basic BasicKind.Int)]⟩] ++ l3) := by
  have hA : (⟨"M", [Var.mk "x" false (GoType.Basic BasicKind.Int)]⟩ : Selection)
      ∈ methodSetM (promotedType (GoType.Named (some "main") "A" (GoType.Struct []))) := by
    simp [methodSetM, promotedType, GoType.Underlying]
  have hB : (⟨"M", [Var.mk "x" false (GoType.Basic BasicKind.Int)]⟩ : Selection)
      ∈ methodSetM (promotedType (GoType.Named (some "main") "B" (GoType.Struct []))) := by
    simp [methodSetM, promotedType, GoType.Underlying]
  obtain ⟨l1, l2, l3, h, _⟩ := struct_ambiguous_forwarders exampleContext methodSetM assignableA []
    (some "main") "Outer" [] [] [Var.mk "n" false (GoType.Basic BasicKind.Int)] "A" "B"
    (GoType.Named (some "main") "A" (GoType.Struct []))
    (GoType.Named (some "main") "B" (GoType.Struct [])) _ _ hA hB rfl
  exact ⟨⟨hA, hB⟩, l1, l2, l3, h⟩

/-- Against claim C14 as stated: for `Outer` with the embedded fields `A` and
`B`, which both promote `M`, `translateSpec` does not reject the declaration; it
writes two forwarding methods `Outer.prototype.M`, the second replacing the
first. -/
theorem struct_ambiguous_not_rejected :
    translateSpecType exampleContext methodSetM assignableA [] typeOuter
      = some ["var Outer = function(A_, B_, n_) \x7b\n",
          "\tthis._id = _idCounter++;\n",
          "\tthis.A = A_;\n",
          "\tthis.B = B_;\n",
          "\tthis.n = n_;\n",
          "\x7d;\n",
          "Outer.prototype.M = function(x) \x7b return this.A.M(x); \x7d;\n",
          "Outer.prototype.M = function(x) \x7b return this.B.M(x); \x7d;\n"] := by
  decide

theorem promotedType_pointer (T : GoType) (h1 : ∀ e, T ≠ GoType.Pointer e)
    (h2 : ∀ ms, T.Underlying ≠ GoType.Interface ms) : promotedType T = GoType.Pointer T := by
  cases T with
  | Pointer e => exact absurd rfl (h1 e)
  | Interface ms => exact absurd rfl (h2 ms)
  | Named p n u =>
    cases u with
    | Interface ms => exact absurd rfl (h2 ms)
    | _ => simp [promotedType, GoType.Underlying]
  | _ => simp [promotedType, GoType.Underlying]

theorem forwardedValue_eq (F : String) (T : GoType) :
    forwardedValue F T
      = if isUnderlyingBasic T then "new " ++ F ++ "(this." ++ F ++ ")" else "this." ++ F := by
  have hs : "new " ++ F ++ "(" ++ ("this." ++ F) ++ ")" = "new " ++ F ++ "(this." ++ F ++ ")" := by
    apply String.ext
    simp [String.data_append]
  unfold forwardedValue isUnderlyingBasic
  cases hu : T.Underlying <;> simp [hs]

/-- Claim C15: the struct case of `translateSpec` writes, after the constructor
text, the forwarders of the fields in field order; a field that is not anonymous
has none; an anonymous field `F` whose type is not a pointer and whose
underlying type is not an interface has one forwarder `Outer.prototype.M` for
each method `M` of the method set of the pointer to its type, which returns the
call of `M` on `this.F`, or on `new F(this.F)` when the underlying type is
basic, with the parameter list the forwarder declares. -/
theorem struct_forwarders (c : PkgContext) (MethodSet : GoType → List Selection)
    (IsAssignableTo : GoType → GoType → Bool) (objects : List Object) (pkg : Option String)
    (name : String) (fields : List Var) :
    (∃ constructorText : List String,
      translateSpecType c MethodSet IsAssignableTo objects (.Named pkg name (.Struct fields))
        = some (constructorText ++ fields.flatMap (fieldForwarders c MethodSet name))) ∧
    (∀ (F : String) (T : GoType), fieldForwarders c MethodSet name (Var.mk F false T) = []) ∧
    (∀ (F : String) (T : GoType), (∀ e, T ≠ GoType.Pointer e) →
      (∀ ms, T.Underlying ≠ GoType.Interface ms) →
      fieldForwarders c MethodSet name (Var.mk F true T)
        = (MethodSet (GoType.Pointer T)).map (fun m =>
            c.Printf (name ++ ".prototype." ++ m.Name ++ " = function(" ++
              Join (m.Params.map Var.Name) ", " ++ ") \x7b return " ++
              (if isUnderlyingBasic T then "new " ++ F ++ "(this." ++ F ++ ")" else "this." ++ F)
              ++ "." ++ m.Name ++ "(" ++ Join (m.Params.map Var.Name) ", " ++ "); \x7d;"))) ∧
    translateSpecType exampleContext methodSetM assignableA [] typeHolder
      = some ["var Holder = function(Inner_, Num_, n_) \x7b\n",
          "\tthis._id = _idCounter++;\n",
          "\tthis.Inner = Inner_;\n",
          "\tthis.Num = Num_;\n",
          "\tthis.n = n_;\n",
          "\x7d;\n",
          "Holder.prototype.M = function(x) \x7b return this.Inner.M(x); \x7d;\n",
          "Holder.prototype.M = function(x) \x7b return new Num(this.Num).M(x); \x7d;\n"] := by
  refine ⟨⟨_, translateSpecType_struct c MethodSet IsAssignableTo objects pkg name fields⟩,
    ?_, ?_, by decide⟩
  · intro F T
    simp [fieldForwarders]
  · intro F T h1 h2
    simp only [fieldForwarders, if_true, promotedType_pointer T h1 h2, forwardedValue_eq]
    rfl

/-- Claim C18 fails on the code for a method written without a receiver name:
the first loop of `translatePackage` files a declaration under its receiver type
only when the receiver has exactly one name, so `func (T) M()` and
`func (T) init()` are filed under nil; none is filed under `T` and passed to
`translateFunction`, both are written as package-level bindings, and the method
named `init` sets `hasInit`. -/
theorem unnamed_receiver_grouping :
    (∀ (info : ObjId → GoType) (decl : FuncDecl), decl.Recv = some ⟨[]⟩ →
      receiverKey info decl = none) ∧
    (functionsAt (groupFunctions exampleInfo methodsUnnamedReceiver) (some typeT)).map
        (fun decl => decl.Name) = [] ∧
    (functionsAt (groupFunctions exampleInfo methodsUnnamedReceiver) none).map
        (fun decl => decl.Name) = ["M", "init"] ∧
    (translatePackageFunctions exampleStmtTranslator
        (functionsAt (groupFunctions exampleInfo methodsUnnamedReceiver) none)
        { hasInit := false, lines := [], context := exampleContext }).lines
      = ["var M = ...;\n", "var init = ...;\n"] ∧
    (translatePackageFunctions exampleStmtTranslator
        (functionsAt (groupFunctions exampleInfo methodsUnnamedReceiver) none)
        { hasInit := false, lines := [], context := exampleContext }).hasInit = true := by
  refine ⟨?_, by decide, by decide, by decide, by decide⟩
  intro info decl h
  simp [receiverKey, h]

end GopherJS
